import Mathlib

/-!
# Verification of the `project3` on-disk B-tree index

Shallow embedding of `src/project3.py`: a disk-resident B-tree of minimum
degree 10 stored in 512-byte blocks, with a block-level byte model
(serialization, header, create/open, the command surface) and a node-level
state model (search, insert, split_child, in-order traversal).
-/

namespace Project3

/-- Tree parameters, from the source constants: `DEGREE = 10`,
`MAX_KEYS = 2*DEGREE - 1`, `MAX_CHILDREN = 2*DEGREE`. -/
def DEGREE : Nat := 10

def MAX_KEYS : Nat := 2 * DEGREE - 1

def MAX_CHILDREN : Nat := 2 * DEGREE

def BLOCK_SIZE : Nat := 512

/-- In-memory B-tree node, mirroring class `BTreeNode`: own block id, parent
block id, live key count, and the fixed-capacity key/value/child arrays
(length 19, 19, 20 in every node the program builds). -/
structure Node where
  blockId : Nat
  parentId : Nat
  numKeys : Nat
  keys : List Nat
  values : List Nat
  children : List Nat
deriving Repr, DecidableEq

/-- `BTreeNode.__init__`: a fresh node is all zeroes. -/
def Node.new : Node :=
  { blockId := 0, parentId := 0, numKeys := 0
    keys := List.replicate MAX_KEYS 0
    values := List.replicate MAX_KEYS 0
    children := List.replicate MAX_CHILDREN 0 }

/-- `BTreeNode.is_leaf`: a node is a leaf iff its first child pointer is 0. -/
def Node.leaf (nd : Node) : Bool := nd.children.getD 0 0 == 0

/-!
## Node-level state model

`IndexFile` at the granularity of whole nodes.  The file is modelled as a
total map from block identifiers to nodes (block 0 is the header and is
never read or written through `read_node`/`write_node`).  Besides the
in-memory header fields `root_id`/`next_block_id`, the state records the
header fields most recently persisted by `_write_header` (`storedRoot`,
`storedNext`), which is what a later `open` of the same file would load.
-/

structure Index where
  rootId : Nat
  nextBlockId : Nat
  storedRoot : Nat
  storedNext : Nat
  blocks : Nat → Node

/-- `IndexFile.read_node`: returns `None` for block id 0, otherwise the
node stored in the block. -/
def readNode (s : Index) (blockId : Nat) : Option Node :=
  if blockId = 0 then none else some (s.blocks blockId)

/-- `IndexFile.write_node`: stores the node at its own block id. -/
def writeNode (s : Index) (nd : Node) : Index :=
  { s with blocks := fun b => if b = nd.blockId then nd else s.blocks b }

/-- `IndexFile._write_header`: persists the in-memory root/next fields. -/
def writeHeader (s : Index) : Index :=
  { s with storedRoot := s.rootId, storedNext := s.nextBlockId }

/-- `IndexFile.allocate_node`: hands out `next_block_id`, increments it,
persists the header, and returns a fresh node carrying the new id. -/
def allocateNode (s : Index) : Index × Node :=
  let newId := s.nextBlockId
  let s1 := writeHeader { s with nextBlockId := s.nextBlockId + 1 }
  (s1, { Node.new with blockId := newId })

/-- The state of a freshly created index (`create` wrote root=0, next=1). -/
def freshIndex : Index :=
  { rootId := 0, nextBlockId := 1, storedRoot := 0, storedNext := 1
    blocks := fun _ => Node.new }

/-- Closing the file and reopening it re-reads the header from disk
(`IndexFile._read_header` loads `root_id` and `next_block_id`). -/
def reopen (s : Index) : Index :=
  { s with rootId := s.storedRoot, nextBlockId := s.storedNext }

/-!
### Search

`IndexFile.search`.  The inner `while i < n and key > keys[i]` scan is
`scanGE`; the outer `while True` descent is `searchLoop`, driven by fuel
(the source recursion terminates because the tree on disk is finite and
acyclic; every theorem below supplies fuel exceeding the tree height).
-/

/-- The linear scan `i = 0; while i < num and key > keys[i]: i += 1`.
The first argument of `scanGEAux` counts the remaining iterations
(`num - i`), making the recursion structural; when it reaches 0 the loop
guard `i < num` is false anyway. -/
def scanGEAux (keys : List Nat) (num key : Nat) : Nat → Nat → Nat
  | 0, i => i
  | c + 1, i =>
    if i < num ∧ keys.getD i 0 < key then scanGEAux keys num key c (i + 1)
    else i

def scanGE (keys : List Nat) (num key i : Nat) : Nat :=
  scanGEAux keys num key (num - i) i

/-- One descent step per fuel unit of the `while True` loop in `search`. -/
def searchLoop (s : Index) (key : Nat) : Nat → Node → Option (Nat × Nat)
  | 0, _ => none
  | fuel + 1, current =>
    let i := scanGE current.keys current.numKeys key 0
    if i < current.numKeys ∧ current.keys.getD i 0 = key then
      some (current.keys.getD i 0, current.values.getD i 0)
    else if current.leaf then none
    else
      let childId := current.children.getD i 0
      if childId = 0 then none
      else
        match readNode s childId with
        | none => none
        | some child => searchLoop s key fuel child

/-- `IndexFile.search`: `None` when the tree is empty, otherwise descend
from the root. -/
def search (s : Index) (key : Nat) : Option (Nat × Nat) :=
  if s.rootId = 0 then none
  else
    match readNode s s.rootId with
    | none => none
    | some root => searchLoop s key s.nextBlockId root

/-!
### Split of a full child (`IndexFile.split_child`)

Each `for` loop of the source is translated as its own recursion; the
recursion argument counts the iterations already performed, so iteration
`j` of the source is processed on top of the state left by iterations
`0 … j-1`, exactly as the sequential loop does.
-/

/-- The first copy loop: for `j in range(9)`, copy `child.keys[j+10]`,
`child.values[j+10]` into slots `j` of `z` and zero the source slots. -/
def moveKV (child0 z0 : Node) : Nat → Node × Node
  | 0 => (child0, z0)
  | j + 1 =>
    let (c, z) := moveKV child0 z0 j
    let z' := { z with
      keys := z.keys.set j (c.keys.getD (j + DEGREE) 0)
      values := z.values.set j (c.values.getD (j + DEGREE) 0) }
    let c' := { c with
      keys := c.keys.set (j + DEGREE) 0
      values := c.values.set (j + DEGREE) 0 }
    (c', z')

/-- The child-relocation loop (non-leaf case): for `j in range(10)`, move
`child.children[j+10]` to `z.children[j]`, rewrite the moved child's
stored parent id to `z`, and zero the source slot. -/
def moveChildren (s0 : Index) (child0 z0 : Node) : Nat → Index × Node × Node
  | 0 => (s0, child0, z0)
  | j + 1 =>
    let (s, c, z) := moveChildren s0 child0 z0 j
    let z' := { z with children := z.children.set j (c.children.getD (j + DEGREE) 0) }
    let gId := z'.children.getD j 0
    let s' :=
      if gId ≠ 0 then
        match readNode s gId with
        | some g => writeNode s { g with parentId := z'.blockId }
        | none => s
      else s
    let c' := { c with children := c.children.set (j + DEGREE) 0 }
    (s', c', z')

/-- `for j in range(parent.num_keys, index, -1): children[j+1] = children[j]`.
The loop runs `j = n, n-1, …, index+1`; the recursion argument counts the
remaining iterations (`n - index`), so the iteration with counter `c + 1`
is the source iteration `j = index + c + 1`. -/
def shiftChildren (cs : List Nat) (index : Nat) : Nat → List Nat
  | 0 => cs
  | c + 1 =>
    shiftChildren (cs.set (index + c + 2) (cs.getD (index + c + 1) 0)) index c

/-- `for j in range(parent.num_keys - 1, index - 1, -1)`: shift keys and
values one slot to the right.  The loop runs `j = n-1, …, index`; the
iteration with counter `c + 1` is the source iteration `j = index + c`. -/
def shiftKV (ks vs : List Nat) (index : Nat) : Nat → List Nat × List Nat
  | 0 => (ks, vs)
  | c + 1 =>
    shiftKV (ks.set (index + c + 1) (ks.getD (index + c) 0))
      (vs.set (index + c + 1) (vs.getD (index + c) 0)) index c

/-- `IndexFile.split_child`: split the full `child` found at slot `index`
of `parent`; returns the new state together with the updated parent object
(the source mutates the caller's `parent` in place). -/
def splitChild (s : Index) (parent : Node) (index : Nat) (child : Node) :
    Index × Node :=
  let (s1, z0) := allocateNode s
  let z1 := { z0 with parentId := parent.blockId, numKeys := DEGREE - 1 }
  let (c1, z2) := moveKV child z1 (DEGREE - 1)
  let (s2, c2, z3) :=
    if c1.leaf then (s1, c1, z2) else moveChildren s1 c1 z2 DEGREE
  let c3 := { c2 with numKeys := DEGREE - 1 }
  let pc := (shiftChildren parent.children index (parent.numKeys - index)).set
    (index + 1) z3.blockId
  let (pk0, pv0) := shiftKV parent.keys parent.values index
    (parent.numKeys - index)
  let pk := pk0.set index (c3.keys.getD (DEGREE - 1) 0)
  let pv := pv0.set index (c3.values.getD (DEGREE - 1) 0)
  let p2 := { parent with children := pc, keys := pk, values := pv
                          numKeys := parent.numKeys + 1 }
  let c4 := { c3 with keys := c3.keys.set (DEGREE - 1) 0
                      values := c3.values.set (DEGREE - 1) 0 }
  let s3 := writeNode s2 c4
  let s4 := writeNode s3 z3
  let s5 := writeNode s4 p2
  (s5, p2)

/-!
### Insert (`IndexFile.insert_non_full`, `IndexFile.insert`)
-/

/-- The leaf loop of `insert_non_full`: `i = n-1; while i >= 0 and
key < keys[i]: shift slot i to i+1; i -= 1`, then place `key`/`value` at
slot `i+1`.  The argument is `i + 1`, so `0` encodes Python's `i = -1`. -/
def insLoop (ks vs : List Nat) (key value : Nat) : Nat → List Nat × List Nat
  | 0 => (ks.set 0 key, vs.set 0 value)
  | j + 1 =>
    if key < ks.getD j 0 then
      insLoop (ks.set (j + 1) (ks.getD j 0)) (vs.set (j + 1) (vs.getD j 0))
        key value j
    else (ks.set (j + 1) key, vs.set (j + 1) value)

/-- The descent scan of `insert_non_full`: `i = n-1; while i >= 0 and
key < keys[i]: i -= 1; i += 1`.  The argument is `i + 1`. -/
def descIdx (ks : List Nat) (key : Nat) : Nat → Nat
  | 0 => 0
  | j + 1 => if key < ks.getD j 0 then descIdx ks key j else j + 1

/-- `IndexFile.insert_non_full`, with fuel bounding the recursion depth;
`none` models a crash (reading a zero child id) or fuel exhaustion, which
never happens on well-formed trees. -/
def insertNonFull : Nat → Index → Node → Nat → Nat → Option Index
  | 0, _, _, _, _ => none
  | fuel + 1, s, node, key, value =>
    if node.leaf then
      let (ks, vs) := insLoop node.keys node.values key value node.numKeys
      some (writeNode s { node with keys := ks, values := vs
                                    numKeys := node.numKeys + 1 })
    else
      let i := descIdx node.keys key node.numKeys
      match readNode s (node.children.getD i 0) with
      | none => none
      | some child =>
        if child.numKeys = MAX_KEYS then
          let (s', node') := splitChild s node i child
          let i' := if node'.keys.getD i 0 < key then i + 1 else i
          match readNode s' (node'.children.getD i' 0) with
          | none => none
          | some child' => insertNonFull fuel s' child' key value
        else insertNonFull fuel s child key value

/-- Result of an insert: the pair went in, or the key was already present
(`insert` prints a duplicate-key message and returns without writing). -/
inductive InsRes where
  | ok
  | dup
deriving Repr, DecidableEq

/-- `IndexFile.insert`.  Fuel for the recursive `insert_non_full` is
`next_block_id`, which exceeds the height of any well-formed tree. -/
def insert (s : Index) (key value : Nat) : Option (Index × InsRes) :=
  if s.rootId = 0 then
    let (s1, r0) := allocateNode s
    let root := { r0 with numKeys := 1, keys := r0.keys.set 0 key
                          values := r0.values.set 0 value }
    let s2 := { s1 with rootId := root.blockId }
    let s3 := writeNode s2 root
    some (writeHeader s3, InsRes.ok)
  else if (search s key).isSome then some (s, InsRes.dup)
  else
    match readNode s s.rootId with
    | none => none
    | some root =>
      if root.numKeys = MAX_KEYS then
        let (s1, nr0) := allocateNode s
        let newRoot := { nr0 with children := nr0.children.set 0 s.rootId }
        let root' := { root with parentId := newRoot.blockId }
        let s2 := writeNode s1 root'
        let s3 := writeHeader { s2 with rootId := newRoot.blockId }
        let (s4, newRoot') := splitChild s3 newRoot 0 root'
        (insertNonFull s4.nextBlockId s4 newRoot' key value).map
          (fun s5 => (s5, InsRes.ok))
      else
        (insertNonFull s.nextBlockId s root key value).map
          (fun s5 => (s5, InsRes.ok))

/-- Run a sequence of inserts on a freshly created index; `none` only if
some insert crashed. -/
def runInserts (ps : List (Nat × Nat)) : Option Index :=
  ps.foldlM (fun s kv => (insert s kv.1 kv.2).map Prod.fst) freshIndex

/-!
### Resident-node accounting (C9)

A node object becomes resident when `read_node` or `allocate_node`
constructs it and stays resident while any local variable of an active
frame references it (CPython reference counting; parameters alias the
caller's objects and add nothing).  Each function below mirrors the
control flow of its counterpart and returns the peak number of
simultaneously resident nodes; `cur` counts the nodes kept alive by the
callers' frames.  A variable rebound by `x = read_node(...)` keeps its
old node alive while the new one is built, hence the `+ 1` transients.
-/

/-- Peak residency of `split_child` on top of `cur` live nodes (which
include `parent` and `child`): `z` is allocated and lives for the whole
body; for a non-leaf child, each nonzero relocated grandchild is read
into `child_node` while parent, child and `z` stay live, and from the
second such read on, the previous grandchild is still bound during the
read. -/
def splitChildPeak (cur : Nat) (child : Node) : Nat :=
  if child.leaf then cur + 1
  else
    cur + 1 + min (((List.range DEGREE).filter
      (fun j => child.children.getD (j + DEGREE) 0 != 0)).length) 2

/-- Peak residency of `search`'s descent loop: `current` is live, and
during each descent the child is built while `current` is still bound. -/
def searchLoopPeak (s : Index) (key : Nat) : Nat → Node → Nat
  | 0, _ => 1
  | fuel + 1, current =>
    let i := scanGE current.keys current.numKeys key 0
    if i < current.numKeys ∧ current.keys.getD i 0 = key then 1
    else if current.leaf then 1
    else
      let childId := current.children.getD i 0
      if childId = 0 then 1
      else
        match readNode s childId with
        | none => 1
        | some child => max 2 (searchLoopPeak s key fuel child)

/-- Peak residency of a whole `search` call starting from no live
nodes. -/
def searchPeak (s : Index) (key : Nat) : Nat :=
  if s.rootId = 0 then 0
  else
    match readNode s s.rootId with
    | none => 0
    | some root => searchLoopPeak s key s.nextBlockId root

/-- Peak residency of `insert_non_full` on top of `cur` live nodes
(which include `node` and the callers' locals): the target child is read
(`cur + 1`), a full child is split with `node`, `child` and the callers'
nodes live, then `child` is rebound (`cur + 2` during the re-read) and
the recursion keeps `node` alive. -/
def insertNonFullPeak : Nat → Nat → Index → Node → Nat → Nat
  | 0, cur, _, _, _ => cur
  | fuel + 1, cur, s, node, key =>
    if node.leaf then cur
    else
      let i := descIdx node.keys key node.numKeys
      match readNode s (node.children.getD i 0) with
      | none => cur
      | some child =>
        if child.numKeys = MAX_KEYS then
          let (s', node') := splitChild s node i child
          let i' := if node'.keys.getD i 0 < key then i + 1 else i
          match readNode s' (node'.children.getD i' 0) with
          | none => splitChildPeak (cur + 1) child
          | some child' =>
            max (splitChildPeak (cur + 1) child)
              (max (cur + 2) (insertNonFullPeak fuel (cur + 1) s' child' key))
        else insertNonFullPeak fuel (cur + 1) s child key

/-- Peak residency of a whole `insert` call: the duplicate-check search
runs with no other nodes live; in the full-root case `root` and
`new_root` (2 nodes) are live across the split and the recursion, in the
ordinary case only `root` (1 node) is. -/
def insertPeak (s : Index) (key : Nat) : Nat :=
  if s.rootId = 0 then 1
  else if (search s key).isSome then searchPeak s key
  else
    match readNode s s.rootId with
    | none => searchPeak s key
    | some root =>
      if root.numKeys = MAX_KEYS then
        let (s1, nr0) := allocateNode s
        let newRoot := { nr0 with children := nr0.children.set 0 s.rootId }
        let root' := { root with parentId := newRoot.blockId }
        let s2 := writeNode s1 root'
        let s3 := writeHeader { s2 with rootId := newRoot.blockId }
        let (s4, newRoot') := splitChild s3 newRoot 0 root'
        max (searchPeak s key) (max (splitChildPeak 2 root')
          (insertNonFullPeak s4.nextBlockId 2 s4 newRoot' key))
      else
        max (searchPeak s key) (insertNonFullPeak s.nextBlockId 1 s root key)

/-!
### In-order traversal (`IndexFile.traverse`)

The callback accumulation is modelled as the produced list of pairs; the
`for i in range(node.num_keys)` interleaving is a fold over `range`.
-/

def subEntries (s : Index) : Nat → Nat → List (Nat × Nat)
  | 0, _ => []
  | fuel + 1, id =>
    if id = 0 then []
    else
      let nd := s.blocks id
      (List.range nd.numKeys).foldr
        (fun i acc =>
          subEntries s fuel (nd.children.getD i 0) ++
            (nd.keys.getD i 0, nd.values.getD i 0) :: acc)
        (subEntries s fuel (nd.children.getD nd.numKeys 0))

/-- The full in-order traversal from the root, with fuel exceeding the
height of any well-formed tree. -/
def traverseList (s : Index) : List (Nat × Nat) :=
  subEntries s s.nextBlockId s.rootId

/-- The tail of a node's in-order fold starting at child slot `a` with
`c` keys remaining (proof-side reformulation of the `foldr` in
`subEntries`). -/
def subFold (s : Index) (fuel : Nat) (nd : Node) : Nat → Nat →
    List (Nat × Nat)
  | a, 0 => subEntries s fuel (nd.children.getD a 0)
  | a, c + 1 =>
    subEntries s fuel (nd.children.getD a 0) ++
      (nd.keys.getD a 0, nd.values.getD a 0) :: subFold s fuel nd (a + 1) c

/-!
## Byte-level model

The file is a list of bytes (naturals below 256).  `struct.pack`/`unpack`
with format `>Q` is modelled by `be8`/`fromBe8`.
-/

/-- The eight big-endian bytes of a 64-bit word (`struct.pack('>Q', n)`). -/
def be8 (n : Nat) : List Nat :=
  [n / 2 ^ 56 % 256, n / 2 ^ 48 % 256, n / 2 ^ 40 % 256, n / 2 ^ 32 % 256,
   n / 2 ^ 24 % 256, n / 2 ^ 16 % 256, n / 2 ^ 8 % 256, n % 256]

/-- Decode a big-endian byte sequence (`struct.unpack('>Q', ...)`). -/
def fromBe8 (bs : List Nat) : Nat := bs.foldl (fun a b => a * 256 + b) 0

/-- The word sequence `struct.pack(NODE_FMT, block_id, parent_id, num_keys,
*keys, *values, *children)` serializes. -/
def wordsOf (nd : Node) : List Nat :=
  nd.blockId :: nd.parentId :: nd.numKeys :: (nd.keys ++ nd.values ++ nd.children)

/-- `BTreeNode.serialize`: 488 bytes of packed words plus 24 padding bytes.
`struct.pack` raises when an array has the wrong arity or a word exceeds
64 bits, modelled by `none`. -/
def serializeNode (nd : Node) : Option (List Nat) :=
  if nd.keys.length = MAX_KEYS ∧ nd.values.length = MAX_KEYS ∧
      nd.children.length = MAX_CHILDREN ∧ ∀ w ∈ wordsOf nd, w < 2 ^ 64 then
    some ((wordsOf nd).flatMap be8 ++ List.replicate 24 0)
  else none

/-- Word `i` of a packed buffer. -/
def word (bs : List Nat) (i : Nat) : Nat := fromBe8 ((bs.drop (8 * i)).take 8)

/-- `BTreeNode.deserialize`: unpack `data[:488]`; `struct.unpack` raises if
fewer than 488 bytes are available. -/
def deserializeNode (bs : List Nat) : Option Node :=
  if bs.length < BLOCK_SIZE - 24 then none
  else some
    { blockId := word bs 0, parentId := word bs 1, numKeys := word bs 2
      keys := (List.range MAX_KEYS).map (fun j => word bs (3 + j))
      values := (List.range MAX_KEYS).map (fun j => word bs (3 + MAX_KEYS + j))
      children := (List.range MAX_CHILDREN).map
        (fun j => word bs (3 + 2 * MAX_KEYS + j)) }

/-- The ASCII bytes of `4348PRJ3`. -/
def MAGIC : List Nat := [52, 51, 52, 56, 80, 82, 74, 51]

/-- `struct.pack(HEADER_FMT, magic, root, next)`: 8 magic bytes, two words,
488 zero bytes. -/
def headerBytes (root next : Nat) : List Nat :=
  MAGIC ++ be8 root ++ be8 next ++ List.replicate (BLOCK_SIZE - 24) 0

/-- `file.seek(off); file.write(data)`: a sparse write past the end of the
file zero-fills the gap. -/
def writeAt (file : List Nat) (off : Nat) (data : List Nat) : List Nat :=
  file.take off ++ List.replicate (off - file.length) 0 ++ data ++
    file.drop (off + data.length)

/-- `file.seek(off); file.read(len)`: a short read returns what is there. -/
def readAt (file : List Nat) (off len : Nat) : List Nat :=
  (file.drop off).take len

/-- Byte-level `IndexFile` state: the file contents plus the in-memory
header fields. -/
structure FileIdx where
  file : List Nat
  rootId : Nat
  nextBlockId : Nat
deriving Repr, DecidableEq

/-- `IndexFile._write_header` at the byte level. -/
def writeHeaderB (s : FileIdx) : FileIdx :=
  { s with file := writeAt s.file 0 (headerBytes s.rootId s.nextBlockId) }

/-- `IndexFile.__init__` with mode `create`: truncate the file and write
the initial header (root 0, next 1). -/
def createB : FileIdx :=
  writeHeaderB { file := [], rootId := 0, nextBlockId := 1 }

inductive OpenErr where
  | already
  | missing
  | tooSmall
  | badMagic
deriving Repr, DecidableEq

/-- Creation guarded by the `os.path.exists` check: the source prints an
error and exits nonzero when the path already exists. -/
def ixCreate (pathTaken : Bool) : Except OpenErr FileIdx :=
  if pathTaken then .error .already else .ok createB

/-- `IndexFile.__init__` in open mode plus `_read_header`: fail when the
file is absent, shorter than 512 bytes, or bears the wrong magic;
otherwise load the stored root and next identifiers. -/
def ixOpen (contents : Option (List Nat)) : Except OpenErr FileIdx :=
  match contents with
  | none => .error .missing
  | some f =>
    let data := readAt f 0 BLOCK_SIZE
    if data.length < BLOCK_SIZE then .error .tooSmall
    else if data.take 8 ≠ MAGIC then .error .badMagic
    else .ok { file := f, rootId := word data 1, nextBlockId := word data 2 }

/-- `IndexFile.read_node` at the byte level. -/
def readNodeB (s : FileIdx) (blockId : Nat) : Option Node :=
  if blockId = 0 then none
  else deserializeNode (readAt s.file (blockId * BLOCK_SIZE) BLOCK_SIZE)

/-- `IndexFile.write_node` at the byte level (`none` models the
`struct.pack` failure on an ill-formed node). -/
def writeNodeB (s : FileIdx) (nd : Node) : Option FileIdx :=
  (serializeNode nd).map fun bs =>
    { s with file := writeAt s.file (nd.blockId * BLOCK_SIZE) bs }

/-- `IndexFile.allocate_node` at the byte level. -/
def allocateNodeB (s : FileIdx) : FileIdx × Node :=
  let newId := s.nextBlockId
  let s1 := writeHeaderB { s with nextBlockId := s.nextBlockId + 1 }
  (s1, { Node.new with blockId := newId })

/-- Byte-level `search`, in state-passing form: the loop threads the
handle through every block read, and the result carries the final state
(the reads never modify the file or the in-memory header). -/
def searchLoopB (key : Nat) : Nat → FileIdx → Node → Option (Nat × Nat) × FileIdx
  | 0, s, _ => (none, s)
  | fuel + 1, s, current =>
    let i := scanGE current.keys current.numKeys key 0
    if i < current.numKeys ∧ current.keys.getD i 0 = key then
      (some (current.keys.getD i 0, current.values.getD i 0), s)
    else if current.leaf then (none, s)
    else
      let childId := current.children.getD i 0
      if childId = 0 then (none, s)
      else
        match readNodeB s childId with
        | none => (none, s)
        | some child => searchLoopB key fuel s child

def searchB (s : FileIdx) (key : Nat) : Option (Nat × Nat) × FileIdx :=
  if s.rootId = 0 then (none, s)
  else
    match readNodeB s s.rootId with
    | none => (none, s)
    | some root => searchLoopB key s.nextBlockId s root

/-- Byte-level child relocation loop of `split_child` (non-leaf case). -/
def moveChildrenB (s0 : FileIdx) (child0 z0 : Node) :
    Nat → Option (FileIdx × Node × Node)
  | 0 => some (s0, child0, z0)
  | j + 1 => do
    let (s, c, z) ← moveChildrenB s0 child0 z0 j
    let z' := { z with children := z.children.set j (c.children.getD (j + DEGREE) 0) }
    let gId := z'.children.getD j 0
    let s' ←
      if gId ≠ 0 then
        match readNodeB s gId with
        | some g => writeNodeB s { g with parentId := z'.blockId }
        | none => none
      else some s
    let c' := { c with children := c.children.set (j + DEGREE) 0 }
    some (s', c', z')

/-- Byte-level `IndexFile.split_child`. -/
def splitChildB (s : FileIdx) (parent : Node) (index : Nat) (child : Node) :
    Option (FileIdx × Node) := do
  let (s1, z0) := allocateNodeB s
  let z1 := { z0 with parentId := parent.blockId, numKeys := DEGREE - 1 }
  let (c1, z2) := moveKV child z1 (DEGREE - 1)
  let (s2, c2, z3) ←
    if c1.leaf then some (s1, c1, z2) else moveChildrenB s1 c1 z2 DEGREE
  let c3 := { c2 with numKeys := DEGREE - 1 }
  let pc := (shiftChildren parent.children index (parent.numKeys - index)).set
    (index + 1) z3.blockId
  let (pk0, pv0) := shiftKV parent.keys parent.values index
    (parent.numKeys - index)
  let pk := pk0.set index (c3.keys.getD (DEGREE - 1) 0)
  let pv := pv0.set index (c3.values.getD (DEGREE - 1) 0)
  let p2 := { parent with children := pc, keys := pk, values := pv
                          numKeys := parent.numKeys + 1 }
  let c4 := { c3 with keys := c3.keys.set (DEGREE - 1) 0
                      values := c3.values.set (DEGREE - 1) 0 }
  let s3 ← writeNodeB s2 c4
  let s4 ← writeNodeB s3 z3
  let s5 ← writeNodeB s4 p2
  some (s5, p2)

/-- Byte-level `IndexFile.insert_non_full`. -/
def insertNonFullB : Nat → FileIdx → Node → Nat → Nat → Option FileIdx
  | 0, _, _, _, _ => none
  | fuel + 1, s, node, key, value =>
    if node.leaf then
      let (ks, vs) := insLoop node.keys node.values key value node.numKeys
      writeNodeB s { node with keys := ks, values := vs
                               numKeys := node.numKeys + 1 }
    else
      let i := descIdx node.keys key node.numKeys
      match readNodeB s (node.children.getD i 0) with
      | none => none
      | some child =>
        if child.numKeys = MAX_KEYS then do
          let (s', node') ← splitChildB s node i child
          let i' := if node'.keys.getD i 0 < key then i + 1 else i
          match readNodeB s' (node'.children.getD i' 0) with
          | none => none
          | some child' => insertNonFullB fuel s' child' key value
        else insertNonFullB fuel s child key value

/-- Byte-level `IndexFile.insert`. -/
def insertB (s : FileIdx) (key value : Nat) : Option (FileIdx × InsRes) :=
  if s.rootId = 0 then do
    let (s1, r0) := allocateNodeB s
    let root := { r0 with numKeys := 1, keys := r0.keys.set 0 key
                          values := r0.values.set 0 value }
    let s2 := { s1 with rootId := root.blockId }
    let s3 ← writeNodeB s2 root
    some (writeHeaderB s3, InsRes.ok)
  else if ((searchB s key).1).isSome then some (s, InsRes.dup)
  else
    match readNodeB s s.rootId with
    | none => none
    | some root =>
      if root.numKeys = MAX_KEYS then do
        let (s1, nr0) := allocateNodeB s
        let newRoot := { nr0 with children := nr0.children.set 0 s.rootId }
        let root' := { root with parentId := newRoot.blockId }
        let s2 ← writeNodeB s1 root'
        let s3 := writeHeaderB { s2 with rootId := newRoot.blockId }
        let (s4, newRoot') ← splitChildB s3 newRoot 0 root'
        let s5 ← insertNonFullB s4.nextBlockId s4 newRoot' key value
        some (s5, InsRes.ok)
      else do
        let s5 ← insertNonFullB s.nextBlockId s root key value
        some (s5, InsRes.ok)

/-- Byte-level in-order traversal (`IndexFile.traverse`), used by the
`print` and `extract` commands; `none` models a crash on a corrupt file. -/
def subEntriesB (s : FileIdx) : Nat → Nat → Option (List (Nat × Nat))
  | 0, _ => none
  | fuel + 1, id =>
    if id = 0 then some []
    else
      match readNodeB s id with
      | none => none
      | some nd => do
        let last ← subEntriesB s fuel (nd.children.getD nd.numKeys 0)
        (List.range nd.numKeys).foldrM
          (fun i acc => do
            let sub ← subEntriesB s fuel (nd.children.getD i 0)
            pure (sub ++ (nd.keys.getD i 0, nd.values.getD i 0) :: acc))
          last

/-!
## Command surface (`main` and the `cmd_*` handlers)

The world is a map from filenames to byte contents, plus a map from
filenames to parsed CSV rows for `load`.  The output is the list of
diagnostics printed (modelled as symbolic messages rather than raw text)
together with the process exit code: `sys.exit(1)` and an uncaught
exception exit 1, a plain return exits 0.  Python's `int(...)` is
modelled by `String.toInt?`.
-/

inductive Msg where
  | usage (cmd : String)
  | errExists (f : String)
  | errMissing (f : String)
  | errTooSmall
  | errBadMagic
  | errKeyExists (k : Int)
  | errKeyNotFound
  | errNotInt
  | errUnknownCmd (c : String)
  | errCsvMissing (f : String)
  | found (k v : Nat)
  | pair (k v : Nat)
deriving Repr, DecidableEq

/-- Python `str.lower()` (ASCII case folding suffices here). -/
def pyLower (s : String) : String := ⟨s.data.map Char.toLower⟩

/-- Decimal digit run for `pyInt`. -/
def digitsToNat (cs : List Char) : Option Nat :=
  if cs = [] then none
  else cs.foldl
    (fun acc c => acc.bind
      (fun a => if c.isDigit then some (a * 10 + (c.toNat - 48)) else none))
    (some 0)

/-- Python `int(...)` on a decimal string literal: an optional sign
followed by at least one digit. -/
def pyInt (s : String) : Option Int :=
  match s.data with
  | '-' :: cs => (digitsToNat cs).map fun n => -(n : Int)
  | '+' :: cs => (digitsToNat cs).map fun n => (n : Int)
  | cs => (digitsToNat cs).map fun n => (n : Int)

/-- Shorthand for opening an index file inside a command handler; an error
is a diagnostic plus exit code 1 (`IndexFile.__init__` calls
`sys.exit(1)`). -/
def openIndexCmd (fs : String → Option (List Nat)) (name : String) :
    Except (List Msg × Nat) FileIdx :=
  match ixOpen (fs name) with
  | .error .missing => .error ([.errMissing name], 1)
  | .error .tooSmall => .error ([.errTooSmall], 1)
  | .error .badMagic => .error ([.errBadMagic], 1)
  | .error .already => .error ([], 1)
  | .ok s => .ok s

def cmdCreate (args : List String) (fs : String → Option (List Nat)) :
    List Msg × Nat :=
  if args.length ≠ 2 then ([.usage "create"], 0)
  else
    match ixCreate (fs (args.getD 1 "")).isSome with
    | .error _ => ([.errExists (args.getD 1 "")], 1)
    | .ok _ => ([], 0)

def cmdSearch (args : List String) (fs : String → Option (List Nat)) :
    List Msg × Nat :=
  if args.length ≠ 3 then ([.usage "search"], 0)
  else
    match openIndexCmd fs (args.getD 1 "") with
    | .error r => r
    | .ok idx =>
      match pyInt (args.getD 2 "") with
      | none => ([.errNotInt], 0)
      | some k =>
        if k < 0 then
          -- a negative key is below every stored 64-bit key, so the
          -- descent reaches a leaf and reports a miss
          ([.errKeyNotFound], 0)
        else
          match (searchB idx k.toNat).1 with
          | some (a, b) => ([.found a b], 0)
          | none => ([.errKeyNotFound], 0)

def cmdInsert (args : List String) (fs : String → Option (List Nat)) :
    List Msg × Nat :=
  if args.length ≠ 4 then ([.usage "insert"], 0)
  else
    match openIndexCmd fs (args.getD 1 "") with
    | .error r => r
    | .ok idx =>
      match pyInt (args.getD 2 ""), pyInt (args.getD 3 "") with
      | some k, some v =>
        if k < 0 then
          -- `struct.pack('>Q', k)` raises on the eventual node write and
          -- the exception is not a ValueError, so the process dies
          ([], 1)
        else if v < 0 then
          if ((searchB idx k.toNat).1).isSome then ([.errKeyExists k], 0)
          else ([], 1)
        else
          match insertB idx k.toNat v.toNat with
          | none => ([], 1)
          | some (_, .dup) => ([.errKeyExists k], 0)
          | some (_, .ok) => ([], 0)
      | _, _ => ([.errNotInt], 0)

def loadRows (idx : FileIdx) : List (String × String) → List Msg × Nat
  | [] => ([], 0)
  | (a, b) :: rest =>
    match pyInt a, pyInt b with
    | some k, some v =>
      if k < 0 then ([], 1)
      else if v < 0 then
        if ((searchB idx k.toNat).1).isSome then
          let (ms, c) := loadRows idx rest
          (.errKeyExists k :: ms, c)
        else ([], 1)
      else
        match insertB idx k.toNat v.toNat with
        | none => ([], 1)
        | some (idx', .dup) =>
          let (ms, c) := loadRows idx' rest
          (.errKeyExists k :: ms, c)
        | some (idx', .ok) => loadRows idx' rest
    | _, _ => ([.errNotInt], 0)

def cmdLoad (args : List String) (fs : String → Option (List Nat))
    (csv : String → Option (List (String × String))) : List Msg × Nat :=
  if args.length ≠ 3 then ([.usage "load"], 0)
  else
    match csv (args.getD 2 "") with
    | none => ([.errCsvMissing (args.getD 2 "")], 0)
    | some rows =>
      match openIndexCmd fs (args.getD 1 "") with
      | .error r => r
      | .ok idx => loadRows idx rows

def cmdPrintE (args : List String) (fs : String → Option (List Nat)) :
    List Msg × Nat :=
  if args.length ≠ 2 then ([.usage "print"], 0)
  else
    match openIndexCmd fs (args.getD 1 "") with
    | .error r => r
    | .ok idx =>
      match subEntriesB idx idx.nextBlockId idx.rootId with
      | none => ([], 1)
      | some es => (es.map (fun p => Msg.pair p.1 p.2), 0)

def cmdExtract (args : List String) (fs : String → Option (List Nat)) :
    List Msg × Nat :=
  if args.length ≠ 3 then ([.usage "extract"], 0)
  else if (fs (args.getD 2 "")).isSome then ([.errExists (args.getD 2 "")], 0)
  else
    match openIndexCmd fs (args.getD 1 "") with
    | .error r => r
    | .ok idx =>
      match subEntriesB idx idx.nextBlockId idx.rootId with
      | none => ([], 1)
      | some _ => ([], 0)

/-- `main`: dispatch on the lowercased command name. -/
def mainE (argv : List String) (fs : String → Option (List Nat))
    (csv : String → Option (List (String × String))) : List Msg × Nat :=
  if argv.length < 2 then ([.usage "main"], 0)
  else
    let command := pyLower (argv.getD 1 "")
    if command = "create" then cmdCreate argv fs
    else if command = "insert" then cmdInsert argv fs
    else if command = "search" then cmdSearch argv fs
    else if command = "load" then cmdLoad argv fs csv
    else if command = "print" then cmdPrintE argv fs
    else if command = "extract" then cmdExtract argv fs
    else ([.errUnknownCmd command], 0)

/-!
## Derived definitions used by the statements
-/

/-- Two nodes hold the same logical state: same identifiers and key count,
the same live key/value slots and live child slots, and zeroes in every
unused slot (arrays of the program's fixed capacities). -/
def LogicalEq (n1 n2 : Node) : Prop :=
  n1.blockId = n2.blockId ∧ n1.parentId = n2.parentId ∧
  n1.numKeys = n2.numKeys ∧
  n1.keys.length = MAX_KEYS ∧ n2.keys.length = MAX_KEYS ∧
  n1.values.length = MAX_KEYS ∧ n2.values.length = MAX_KEYS ∧
  n1.children.length = MAX_CHILDREN ∧ n2.children.length = MAX_CHILDREN ∧
  (∀ i < n1.numKeys, n1.keys.getD i 0 = n2.keys.getD i 0) ∧
  (∀ i < n1.numKeys, n1.values.getD i 0 = n2.values.getD i 0) ∧
  (∀ i, n1.numKeys ≤ i → n1.keys.getD i 0 = 0 ∧ n2.keys.getD i 0 = 0) ∧
  (∀ i, n1.numKeys ≤ i → n1.values.getD i 0 = 0 ∧ n2.values.getD i 0 = 0) ∧
  (∀ i < n1.numKeys + 1, n1.children.getD i 0 = n2.children.getD i 0) ∧
  (∀ i, n1.numKeys + 1 ≤ i → n1.children.getD i 0 = 0 ∧ n2.children.getD i 0 = 0)

/-- The byte image of the index file holding exactly the pair `(7, 70)`
(used as a concrete world for the command-layer theorems). -/
def img7 : List Nat := ((insertB createB 7 70).map (fun p => p.1.file)).getD []

/-- A file system in which the names `insert` and `search` both hold the
one-pair index image (the source handlers read the index filename from the
slot where the command name arrives). -/
def fs7 : String → Option (List Nat) :=
  fun n => if n = "insert" ∨ n = "search" then some img7 else none

def fsEmpty : String → Option (List Nat) := fun _ => none

def csvEmpty : String → Option (List (String × String)) := fun _ => none

/-- A world in which the path `create` exists. -/
def fsCreateTaken : String → Option (List Nat) :=
  fun n => if n = "create" then some img7 else none

/-- A world with a truncated index file under the name `search`. -/
def fsSmall : String → Option (List Nat) :=
  fun n => if n = "search" then some [1, 2, 3] else none

/-- A world with a 512-byte file of wrong magic under the name `search`. -/
def fsBadMagic : String → Option (List Nat) :=
  fun n => if n = "search" then some (List.replicate 600 7) else none

/-- A concrete split scenario: parent block 1 (no keys, child 2 at slot
0), full leaf child block 2 with keys 1..19 and values 100..1900. -/
def p4w : Node :=
  { blockId := 1, parentId := 0, numKeys := 0,
    keys := List.replicate MAX_KEYS 0, values := List.replicate MAX_KEYS 0,
    children := 2 :: List.replicate 19 0 }

def c4w : Node :=
  { blockId := 2, parentId := 1, numKeys := MAX_KEYS,
    keys := (List.range MAX_KEYS).map (fun j => j + 1),
    values := (List.range MAX_KEYS).map (fun j => 100 * (j + 1)),
    children := List.replicate MAX_CHILDREN 0 }

def s4w : Index :=
  { rootId := 1, nextBlockId := 3, storedRoot := 1, storedNext := 3,
    blocks := fun b => if b = 1 then p4w else if b = 2 then c4w else Node.new }

/-- A height-3 tree for the residency scenario: root block 1 separates
at 1000; its left child, block 2, is a FULL internal node (19 keys
10,20,…,190) whose 20 children are the one-key leaves in blocks 4..23;
block 3 is the right leaf.  Inserting key 3 descends into block 2,
splits it (a non-leaf split) and then descends to the leaf in block
4. -/
def g9w (j : Nat) : Node :=
  { blockId := 4 + j, parentId := 2, numKeys := 1,
    keys := (10 * j + 5) :: List.replicate 18 0,
    values := (10 * j + 5) :: List.replicate 18 0,
    children := List.replicate MAX_CHILDREN 0 }

def c9c : Node :=
  { blockId := 2, parentId := 1, numKeys := MAX_KEYS,
    keys := (List.range MAX_KEYS).map (fun j => 10 * (j + 1)),
    values := (List.range MAX_KEYS).map (fun j => 10 * (j + 1)),
    children := (List.range MAX_CHILDREN).map (fun j => 4 + j) }

def r9w : Node :=
  { blockId := 1, parentId := 0, numKeys := 1,
    keys := 1000 :: List.replicate 18 0,
    values := 1000 :: List.replicate 18 0,
    children := 2 :: 3 :: List.replicate 18 0 }

def sib9w : Node :=
  { blockId := 3, parentId := 1, numKeys := 1,
    keys := 2000 :: List.replicate 18 0,
    values := 2000 :: List.replicate 18 0,
    children := List.replicate MAX_CHILDREN 0 }

def s9w : Index :=
  { rootId := 1, nextBlockId := 24, storedRoot := 1, storedNext := 24,
    blocks := fun b =>
      if b = 1 then r9w else if b = 2 then c9c else if b = 3 then sib9w
      else if 4 ≤ b ∧ b ≤ 23 then g9w (b - 4) else Node.new }

/-!
## Representation predicate

`RepSub s fuel id lo hi es used` states that block `id` of `s` roots a
well-formed B-tree subtree of height at most `fuel` whose in-order
entries are `es`, all keys strictly between the bounds `lo` and `hi`,
occupying exactly the blocks listed in `used`.  `RepSeq` walks the
children/keys chain of one internal node from child slot `a`.
-/

def loOk : Option Nat → Nat → Prop
  | none, _ => True
  | some a, k => a < k

def hiOk : Option Nat → Nat → Prop
  | none, _ => True
  | some b, k => k < b

/-- Equality of all node fields except the (never read back) parent
pointer. -/
def coreEq (a b : Node) : Prop :=
  a.blockId = b.blockId ∧ a.numKeys = b.numKeys ∧ a.keys = b.keys ∧
  a.values = b.values ∧ a.children = b.children

/-- Sorted insertion into an entry list (the abstract effect of one
insert). -/
def insEntry (k v : Nat) : List (Nat × Nat) → List (Nat × Nat)
  | [] => [(k, v)]
  | e :: es => if k < e.1 then (k, v) :: e :: es else e :: insEntry k v es

/-- The entries a leaf stores: its first `numKeys` key/value slots. -/
def leafEnts (nd : Node) : List (Nat × Nat) :=
  (List.range nd.numKeys).map (fun i => (nd.keys.getD i 0, nd.values.getD i 0))

/-- The chain `child a, key a, child a+1, …, key a+c-1, child a+c` of an
internal node: each child satisfies `P` between the neighbouring keys,
the keys satisfy the outer bounds, and entries/blocks concatenate. -/
def RepSeq
    (P : Nat → Option Nat → Option Nat → List (Nat × Nat) → List Nat → Prop)
    (nd : Node) : Nat → Nat → Option Nat → Option Nat → List (Nat × Nat) →
      List Nat → Prop
  | a, 0, lo, hi, es, used => P (nd.children.getD a 0) lo hi es used
  | a, c + 1, lo, hi, es, used =>
    ∃ es1 es2 used1 used2,
      P (nd.children.getD a 0) lo (some (nd.keys.getD a 0)) es1 used1 ∧
      loOk lo (nd.keys.getD a 0) ∧ hiOk hi (nd.keys.getD a 0) ∧
      RepSeq P nd (a + 1) c (some (nd.keys.getD a 0)) hi es2 used2 ∧
      es = es1 ++ (nd.keys.getD a 0, nd.values.getD a 0) :: es2 ∧
      used = used1 ++ used2

/-- Shape facts for the node stored at `id`: stored under its own id,
full-length slot arrays, between 1 and `MAX_KEYS` keys. -/
def NodeOk (s : Index) (id : Nat) : Prop :=
  id ≠ 0 ∧ (s.blocks id).blockId = id ∧
  (s.blocks id).keys.length = 19 ∧ (s.blocks id).values.length = 19 ∧
  (s.blocks id).children.length = 20 ∧
  1 ≤ (s.blocks id).numKeys ∧ (s.blocks id).numKeys ≤ MAX_KEYS

def RepSub (s : Index) : Nat → Nat → Option Nat → Option Nat →
    List (Nat × Nat) → List Nat → Prop
  | 0, _, _, _, _, _ => False
  | fuel + 1, id, lo, hi, es, used =>
    NodeOk s id ∧
    if (s.blocks id).leaf = true then
      used = [id] ∧ es = leafEnts (s.blocks id) ∧
      (∀ m, (s.blocks id).children.getD m 0 = 0) ∧
      (∀ i, i < (s.blocks id).numKeys →
        loOk lo ((s.blocks id).keys.getD i 0) ∧
        hiOk hi ((s.blocks id).keys.getD i 0)) ∧
      (∀ i j, i < j → j < (s.blocks id).numKeys →
        (s.blocks id).keys.getD i 0 < (s.blocks id).keys.getD j 0)
    else
      ∃ used',
        RepSeq (RepSub s fuel) (s.blocks id) 0 (s.blocks id).numKeys lo hi
          es used' ∧
        used = id :: used'

/-- The full index invariant: the persisted header mirrors the in-memory
one, and either the tree is empty or the root block represents exactly
the entry list `es` on pairwise-distinct live blocks. -/
def Inv (s : Index) (es : List (Nat × Nat)) : Prop :=
  s.storedRoot = s.rootId ∧ s.storedNext = s.nextBlockId ∧
  1 ≤ s.nextBlockId ∧
  ((s.rootId = 0 ∧ es = []) ∨
    ∃ used, RepSub s s.nextBlockId s.rootId none none es used ∧
      used.Nodup ∧ (∀ b ∈ used, b < s.nextBlockId))

/-- The root node written by `insert` into an empty tree (proof-side
name for the literal produced on the `root_id == 0` path). -/
def firstRootNode (s : Index) (key value : Nat) : Node :=
  { Node.new with
    blockId := s.nextBlockId, numKeys := 1
    keys := Node.new.keys.set 0 key
    values := Node.new.values.set 0 value }

/-- The state after `insert` filled an empty tree: allocate the root,
point the header at it, write it, persist the header. -/
def firstInsertState (s : Index) (key value : Nat) : Index :=
  writeHeader (writeNode
    { writeHeader { s with nextBlockId := s.nextBlockId + 1 } with
      rootId := s.nextBlockId }
    (firstRootNode s key value))

/-- The empty new root allocated on the root-full path of `insert`,
with its first child pointer aimed at the old root. -/
def newRootNode (s : Index) : Node :=
  { Node.new with
    blockId := s.nextBlockId
    children := Node.new.children.set 0 s.rootId }

/-- The old root, re-parented under the new root. -/
def reparentedRoot (s : Index) : Node :=
  { s.blocks s.rootId with parentId := s.nextBlockId }

/-- The state `insert` passes to `split_child` on the root-full path:
new root allocated, old root re-parented and rewritten, header moved to
the new root. -/
def rootFullMid (s : Index) : Index :=
  writeHeader
    { writeNode (writeHeader { s with nextBlockId := s.nextBlockId + 1 })
        (reparentedRoot s) with
      rootId := s.nextBlockId }

/-- Concrete three-pair scenario for the traversal claim. -/
def s1w : Index :=
  (runInserts [(5, 50), (3, 30), (9, 90)]).getD freshIndex

/-- Concrete two-pair scenario for the search claim. -/
def s2w : Index :=
  (runInserts [(4, 40), (2, 20)]).getD freshIndex

/-- A one-leaf index holding exactly the pair `(7, 70)` (the concrete
duplicate-insert scenario). -/
def s3w : Index :=
  { rootId := 1, nextBlockId := 2, storedRoot := 1, storedNext := 2
    blocks := fun b =>
      if b = 1 then
        { blockId := 1, parentId := 0, numKeys := 1
          keys := (List.replicate 19 0).set 0 7
          values := (List.replicate 19 0).set 0 70
          children := List.replicate 20 0 }
      else Node.new }

/-!
## List utilities
-/

theorem getD_set_self {l : List Nat} {i : Nat} (a d : Nat) (h : i < l.length) :
    (l.set i a).getD i d = a := by
  simp [List.getD_eq_getElem?_getD, List.getElem?_set, h]

theorem getD_set_ne {l : List Nat} {i j : Nat} (a d : Nat) (h : i ≠ j) :
    (l.set i a).getD j d = l.getD j d := by
  simp [List.getD_eq_getElem?_getD, List.getElem?_set, h]

theorem getD_of_le {l : List Nat} {i : Nat} (d : Nat) (h : l.length ≤ i) :
    l.getD i d = d := by
  simp [List.getD_eq_getElem?_getD, List.getElem?_eq_none h]

theorem list_eq_of_getD {l1 l2 : List Nat} (hl : l1.length = l2.length)
    (h : ∀ i, l1.getD i 0 = l2.getD i 0) : l1 = l2 := by
  refine List.ext_getElem hl fun n h1 h2 => ?_
  have hn := h n
  rwa [List.getD_eq_getElem?_getD, List.getD_eq_getElem?_getD,
    List.getElem?_eq_getElem h1, List.getElem?_eq_getElem h2] at hn

theorem getD_take {l : List Nat} {n j : Nat} (d : Nat) (h : j < n) :
    (l.take n).getD j d = l.getD j d := by
  simp [List.getD_eq_getElem?_getD, List.getElem?_take, h]

theorem getD_drop (l : List Nat) (n j d : Nat) :
    (l.drop n).getD j d = l.getD (n + j) d := by
  simp [List.getD_eq_getElem?_getD, List.getElem?_drop]

theorem getD_replicate_zero (n i : Nat) : (List.replicate n 0).getD i 0 = 0 := by
  rw [List.getD_eq_getElem?_getD, List.getElem?_replicate]
  split <;> rfl

theorem getD_mem {l : List Nat} {i : Nat} (d : Nat) (h : i < l.length) :
    l.getD i d ∈ l := by
  rw [List.getD_eq_getElem?_getD, List.getElem?_eq_getElem h]
  exact List.getElem_mem h

theorem map_getD_range (l : List Nat) :
    (List.range l.length).map (fun j => l.getD j 0) = l := by
  induction l with
  | nil => simp
  | cons a t ih =>
    rw [show (a :: t).length = t.length + 1 from rfl, List.range_succ_eq_map,
      List.map_cons, List.map_map, List.getD_cons_zero]
    congr 1

/-!
## Representation lemmas
-/

theorem loOk_of_lt {lo : Option Nat} {k x : Nat} (h1 : loOk lo k)
    (h2 : k < x) : loOk lo x := by
  cases lo with
  | none => trivial
  | some a => exact lt_trans h1 h2

theorem hiOk_of_lt {hi : Option Nat} {k x : Nat} (h1 : x < k)
    (h2 : hiOk hi k) : hiOk hi x := by
  cases hi with
  | none => trivial
  | some b => exact lt_trans h1 h2

/-- Transport a chain across a change of node, slot offset and child
predicate: the accessors must agree on the covered slots and `P` must
imply `P'` on lists of blocks satisfying `C`. -/
theorem RepSeq_trans
    {P P' : Nat → Option Nat → Option Nat → List (Nat × Nat) → List Nat →
      Prop}
    (C : Nat → Prop) (nd nd' : Node)
    (himp : ∀ id lo hi es u, (∀ b ∈ u, C b) → P id lo hi es u →
      P' id lo hi es u) :
    ∀ c a a' lo hi es used,
      (∀ j, j < c → nd'.keys.getD (a' + j) 0 = nd.keys.getD (a + j) 0 ∧
        nd'.values.getD (a' + j) 0 = nd.values.getD (a + j) 0) →
      (∀ j, j ≤ c →
        nd'.children.getD (a' + j) 0 = nd.children.getD (a + j) 0) →
      (∀ b ∈ used, C b) →
      RepSeq P nd a c lo hi es used → RepSeq P' nd' a' c lo hi es used := by
  intro c
  induction c with
  | zero =>
    intro a a' lo hi es used hk hc hC h
    have h0 := hc 0 (le_refl 0)
    simp only [Nat.add_zero] at h0
    simp only [RepSeq] at h ⊢
    rw [h0]
    exact himp _ _ _ _ _ hC h
  | succ c ih =>
    intro a a' lo hi es used hk hc hC h
    simp only [RepSeq] at h ⊢
    obtain ⟨es1, es2, used1, used2, hP1, hlo, hhi, hrest, hes, hused⟩ := h
    have hk0 := hk 0 (by omega)
    have hc0 := hc 0 (by omega)
    simp only [Nat.add_zero] at hk0 hc0
    subst hes
    subst hused
    refine ⟨es1, es2, used1, used2, ?_, ?_, ?_, ?_, ?_, rfl⟩
    · rw [hc0, hk0.1]
      exact himp _ _ _ _ _ (fun b hb => hC b (List.mem_append_left _ hb)) hP1
    · rw [hk0.1]; exact hlo
    · rw [hk0.1]; exact hhi
    · rw [hk0.1]
      refine ih (a + 1) (a' + 1) _ hi es2 used2 (fun j hj => ?_)
        (fun j hj => ?_)
        (fun b hb => hC b (List.mem_append_right _ hb)) hrest
      · have hjj := hk (j + 1) (by omega)
        rwa [show a' + (j + 1) = a' + 1 + j from by omega,
          show a + (j + 1) = a + 1 + j from by omega] at hjj
      · have hjj := hc (j + 1) (by omega)
        rwa [show a' + (j + 1) = a' + 1 + j from by omega,
          show a + (j + 1) = a + 1 + j from by omega] at hjj
    · rw [hk0.1, hk0.2]

/-- Transport a subtree representation to a state whose blocks agree
(up to the parent pointer) on every block the subtree occupies. -/
theorem RepSub_trans (C : Nat → Prop) {s s' : Index}
    (hcore : ∀ b, C b → coreEq (s'.blocks b) (s.blocks b)) :
    ∀ fuel id lo hi es used, (∀ b ∈ used, C b) →
      RepSub s fuel id lo hi es used → RepSub s' fuel id lo hi es used := by
  intro fuel
  induction fuel with
  | zero => intro id lo hi es used _ h; exact h.elim
  | succ f ih =>
    intro id lo hi es used hC h
    simp only [RepSub] at h ⊢
    obtain ⟨hok, hrest⟩ := h
    have hidC : C id := by
      by_cases hl : (s.blocks id).leaf = true
      · rw [if_pos hl] at hrest
        refine hC id ?_
        rw [hrest.1]
        exact List.mem_singleton_self id
      · rw [if_neg hl] at hrest
        obtain ⟨used', -, hu⟩ := hrest
        refine hC id ?_
        rw [hu]
        exact List.mem_cons_self id used'
    obtain ⟨ec1, ec2, ec3, ec4, ec5⟩ := hcore id hidC
    have hleaf : (s'.blocks id).leaf = (s.blocks id).leaf := by
      unfold Node.leaf
      rw [ec5]
    refine ⟨⟨hok.1, by rw [ec1]; exact hok.2.1,
      by rw [ec3]; exact hok.2.2.1, by rw [ec4]; exact hok.2.2.2.1,
      by rw [ec5]; exact hok.2.2.2.2.1, by rw [ec2]; exact hok.2.2.2.2.2.1,
      by rw [ec2]; exact hok.2.2.2.2.2.2⟩, ?_⟩
    by_cases hl : (s.blocks id).leaf = true
    · rw [if_pos hl] at hrest
      rw [if_pos (by rw [hleaf]; exact hl)]
      obtain ⟨hu, hes, hch, hbnd, hsort⟩ := hrest
      refine ⟨hu, by rw [hes]; unfold leafEnts; simp only [ec2, ec3, ec4],
        fun m => by rw [ec5]; exact hch m, fun i hi => ?_,
        fun i j hij hj => ?_⟩
      · rw [ec2] at hi
        rw [ec3]
        exact hbnd i hi
      · rw [ec2] at hj
        rw [ec3]
        exact hsort i j hij hj
    · rw [if_neg hl] at hrest
      rw [if_neg (by rw [hleaf]; exact hl)]
      obtain ⟨used', hseq, hu⟩ := hrest
      refine ⟨used', ?_, hu⟩
      have hCu : ∀ b ∈ used', C b := fun b hb => hC b (by
        rw [hu]
        exact List.mem_cons_of_mem _ hb)
      have hres := RepSeq_trans C (s.blocks id) (s'.blocks id)
        (fun id2 lo2 hi2 es2 u2 hCu2 h2 => ih id2 lo2 hi2 es2 u2 hCu2 h2)
        (s.blocks id).numKeys 0 0 lo hi es used'
        (fun j hj => ⟨by simp only [Nat.zero_add]; rw [ec3],
          by simp only [Nat.zero_add]; rw [ec4]⟩)
        (fun j hj => by simp only [Nat.zero_add]; rw [ec5])
        hCu hseq
      rw [ec2]
      exact hres

/-- Fuel monotonicity of the subtree representation. -/
theorem RepSub_mono {s : Index} :
    ∀ fuel fuel2 id lo hi es used, fuel ≤ fuel2 →
      RepSub s fuel id lo hi es used → RepSub s fuel2 id lo hi es used := by
  intro fuel
  induction fuel with
  | zero => intro f2 id lo hi es used _ h; exact h.elim
  | succ f ih =>
    intro f2 id lo hi es used hle h
    obtain ⟨f3, rfl⟩ : ∃ f3, f2 = f3 + 1 := ⟨f2 - 1, by omega⟩
    simp only [RepSub] at h ⊢
    obtain ⟨hok, hrest⟩ := h
    refine ⟨hok, ?_⟩
    by_cases hl : (s.blocks id).leaf = true
    · rw [if_pos hl] at hrest
      rw [if_pos hl]
      exact hrest
    · rw [if_neg hl] at hrest
      rw [if_neg hl]
      obtain ⟨used', hseq, hu⟩ := hrest
      exact ⟨used', RepSeq_trans (fun _ => True) (s.blocks id) (s.blocks id)
        (fun id2 lo2 hi2 es2 u2 _ h2 => ih f3 id2 lo2 hi2 es2 u2 (by omega) h2)
        _ 0 0 lo hi es used' (fun j hj => ⟨rfl, rfl⟩) (fun j hj => rfl)
        (fun b hb => trivial) hseq, hu⟩

/-- Every entry of a chain lies strictly between the outer bounds. -/
theorem RepSeq_bounds
    {P : Nat → Option Nat → Option Nat → List (Nat × Nat) → List Nat → Prop}
    (nd : Node)
    (hP : ∀ id lo hi es u, P id lo hi es u →
      ∀ e ∈ es, loOk lo e.1 ∧ hiOk hi e.1) :
    ∀ c a lo hi es used, RepSeq P nd a c lo hi es used →
      ∀ e ∈ es, loOk lo e.1 ∧ hiOk hi e.1 := by
  intro c
  induction c with
  | zero =>
    intro a lo hi es used h e he
    simp only [RepSeq] at h
    exact hP _ _ _ _ _ h e he
  | succ c ih =>
    intro a lo hi es used h e he
    simp only [RepSeq] at h
    obtain ⟨es1, es2, used1, used2, hP1, hlo, hhi, hrest, hes, -⟩ := h
    subst hes
    rcases List.mem_append.mp he with h1 | h2
    · obtain ⟨hl, hh⟩ := hP _ _ _ _ _ hP1 e h1
      exact ⟨hl, hiOk_of_lt hh hhi⟩
    · rcases List.mem_cons.mp h2 with he2 | h3
      · rw [he2]
        exact ⟨hlo, hhi⟩
      · obtain ⟨hl, hh⟩ := ih _ _ _ _ _ hrest e h3
        exact ⟨loOk_of_lt hlo hl, hh⟩

theorem RepSub_bounds {s : Index} :
    ∀ fuel id lo hi es used, RepSub s fuel id lo hi es used →
      ∀ e ∈ es, loOk lo e.1 ∧ hiOk hi e.1 := by
  intro fuel
  induction fuel with
  | zero => intro id lo hi es used h; exact h.elim
  | succ f ih =>
    intro id lo hi es used h e he
    simp only [RepSub] at h
    obtain ⟨hok, hrest⟩ := h
    by_cases hl : (s.blocks id).leaf = true
    · rw [if_pos hl] at hrest
      obtain ⟨-, hes, -, hbnd, -⟩ := hrest
      subst hes
      obtain ⟨i, hi, hei⟩ := List.mem_map.mp he
      have hir := List.mem_range.mp hi
      obtain ⟨b1, b2⟩ := hbnd i hir
      rw [← hei]
      exact ⟨b1, b2⟩
    · rw [if_neg hl] at hrest
      obtain ⟨used', hseq, -⟩ := hrest
      exact RepSeq_bounds (s.blocks id)
        (fun id2 lo2 hi2 es2 u2 h2 => ih id2 lo2 hi2 es2 u2 h2)
        _ _ _ _ _ _ hseq e he

/-- Pairwise sortedness of a `range`-indexed map from an index-sorted
slot function. -/
theorem pairwise_map_range {α : Type} (f : Nat → α) (R : α → α → Prop) :
    ∀ n, (∀ i j, i < j → j < n → R (f i) (f j)) →
      ((List.range n).map f).Pairwise R := by
  intro n
  induction n with
  | zero => intro h; simp
  | succ n ih =>
    intro h
    rw [List.range_succ, List.map_append]
    refine List.pairwise_append.mpr ⟨ih (fun i j hij hj => h i j hij (by omega)),
      by simp, ?_⟩
    intro x hx y hy
    obtain ⟨i, hi, hxi⟩ := List.mem_map.mp hx
    have hir := List.mem_range.mp hi
    simp only [List.map_cons, List.map_nil, List.mem_singleton] at hy
    rw [← hxi, hy]
    exact h i n hir (by omega)

/-- Entries of a chain are sorted by strictly increasing key. -/
theorem RepSeq_sorted
    {P : Nat → Option Nat → Option Nat → List (Nat × Nat) → List Nat → Prop}
    (nd : Node)
    (hPb : ∀ id lo hi es u, P id lo hi es u →
      ∀ e ∈ es, loOk lo e.1 ∧ hiOk hi e.1)
    (hPs : ∀ id lo hi es u, P id lo hi es u →
      es.Pairwise (fun x y => x.1 < y.1)) :
    ∀ c a lo hi es used, RepSeq P nd a c lo hi es used →
      es.Pairwise (fun x y => x.1 < y.1) := by
  intro c
  induction c with
  | zero =>
    intro a lo hi es used h
    simp only [RepSeq] at h
    exact hPs _ _ _ _ _ h
  | succ c ih =>
    intro a lo hi es used h
    simp only [RepSeq] at h
    obtain ⟨es1, es2, used1, used2, hP1, hlo, hhi, hrest, hes, -⟩ := h
    subst hes
    refine List.pairwise_append.mpr ⟨hPs _ _ _ _ _ hP1,
      List.pairwise_cons.mpr ⟨?_, ih _ _ _ _ _ hrest⟩, ?_⟩
    · intro e he
      exact (RepSeq_bounds nd hPb c (a + 1) _ _ _ _ hrest e he).1
    · intro x hx y hy
      have hxk : x.1 < nd.keys.getD a 0 := (hPb _ _ _ _ _ hP1 x hx).2
      rcases List.mem_cons.mp hy with hy1 | hy2
      · rw [hy1]
        exact hxk
      · exact lt_trans hxk
          (RepSeq_bounds nd hPb c (a + 1) _ _ _ _ hrest y hy2).1

theorem RepSub_sorted {s : Index} :
    ∀ fuel id lo hi es used, RepSub s fuel id lo hi es used →
      es.Pairwise (fun x y => x.1 < y.1) := by
  intro fuel
  induction fuel with
  | zero => intro id lo hi es used h; exact h.elim
  | succ f ih =>
    intro id lo hi es used h
    simp only [RepSub] at h
    obtain ⟨hok, hrest⟩ := h
    by_cases hl : (s.blocks id).leaf = true
    · rw [if_pos hl] at hrest
      obtain ⟨-, hes, -, -, hsort⟩ := hrest
      subst hes
      exact pairwise_map_range _ _ _ (fun i j hij hj => hsort i j hij hj)
    · rw [if_neg hl] at hrest
      obtain ⟨used', hseq, -⟩ := hrest
      exact RepSeq_sorted (s.blocks id)
        (fun id2 lo2 hi2 es2 u2 h2 => RepSub_bounds f id2 lo2 hi2 es2 u2 h2)
        (fun id2 lo2 hi2 es2 u2 h2 => ih id2 lo2 hi2 es2 u2 h2)
        _ _ _ _ _ _ hseq

/-- Split a chain at the key with offset `c1`. -/
theorem RepSeq_split
    {P : Nat → Option Nat → Option Nat → List (Nat × Nat) → List Nat → Prop}
    (nd : Node) :
    ∀ c1 c2 a lo hi es used,
      RepSeq P nd a (c1 + 1 + c2) lo hi es used →
      ∃ es1 es2 used1 used2,
        RepSeq P nd a c1 lo (some (nd.keys.getD (a + c1) 0)) es1 used1 ∧
        loOk lo (nd.keys.getD (a + c1) 0) ∧
        hiOk hi (nd.keys.getD (a + c1) 0) ∧
        RepSeq P nd (a + c1 + 1) c2 (some (nd.keys.getD (a + c1) 0)) hi
          es2 used2 ∧
        es = es1 ++ (nd.keys.getD (a + c1) 0, nd.values.getD (a + c1) 0)
          :: es2 ∧
        used = used1 ++ used2 := by
  intro c1
  induction c1 with
  | zero =>
    intro c2 a lo hi es used h
    rw [show 0 + 1 + c2 = c2 + 1 from by omega] at h
    simp only [RepSeq] at h
    obtain ⟨es1, es2, used1, used2, hP1, hlo, hhi, hrest, hes, hused⟩ := h
    refine ⟨es1, es2, used1, used2, ?_, ?_, ?_, ?_, ?_, ?_⟩
    · simp only [Nat.add_zero, RepSeq]
      exact hP1
    · simpa only [Nat.add_zero] using hlo
    · simpa only [Nat.add_zero] using hhi
    · simpa only [Nat.add_zero] using hrest
    · simpa only [Nat.add_zero] using hes
    · exact hused
  | succ k ih =>
    intro c2 a lo hi es used h
    rw [show k + 1 + 1 + c2 = k + 1 + c2 + 1 from by omega] at h
    simp only [RepSeq] at h
    obtain ⟨esh, est, usedh, usedt, hPh, hloh, hhih, hrest, hes, hused⟩ := h
    obtain ⟨es1, es2, used1, used2, hL, hloM, hhiM, hR, hesT, husedT⟩ :=
      ih c2 (a + 1) (some (nd.keys.getD a 0)) hi est usedt hrest
    rw [show a + 1 + k = a + (k + 1) from by omega] at hL hloM hhiM hR hesT
    refine ⟨esh ++ (nd.keys.getD a 0, nd.values.getD a 0) :: es1, es2,
      usedh ++ used1, used2, ?_, loOk_of_lt hloh hloM, hhiM, ?_, ?_, ?_⟩
    · simp only [RepSeq]
      exact ⟨esh, es1, usedh, used1, hPh, hloh, hloM, hL, rfl, rfl⟩
    · exact hR
    · rw [hes, hesT]
      simp
    · rw [hused, husedT]
      simp

/-- Join two chains around a key. -/
theorem RepSeq_join
    {P : Nat → Option Nat → Option Nat → List (Nat × Nat) → List Nat → Prop}
    (nd : Node) :
    ∀ c1 c2 a lo hi es1 es2 used1 used2,
      RepSeq P nd a c1 lo (some (nd.keys.getD (a + c1) 0)) es1 used1 →
      loOk lo (nd.keys.getD (a + c1) 0) →
      hiOk hi (nd.keys.getD (a + c1) 0) →
      RepSeq P nd (a + c1 + 1) c2 (some (nd.keys.getD (a + c1) 0)) hi es2
        used2 →
      RepSeq P nd a (c1 + 1 + c2) lo hi
        (es1 ++ (nd.keys.getD (a + c1) 0, nd.values.getD (a + c1) 0) :: es2)
        (used1 ++ used2) := by
  intro c1
  induction c1 with
  | zero =>
    intro c2 a lo hi es1 es2 used1 used2 hL hlo hhi hR
    rw [show 0 + 1 + c2 = c2 + 1 from by omega]
    simp only [Nat.add_zero] at hL hlo hhi hR
    simp only [RepSeq] at hL ⊢
    exact ⟨es1, es2, used1, used2, hL, hlo, hhi, hR, rfl, rfl⟩
  | succ k ih =>
    intro c2 a lo hi es1 es2 used1 used2 hL hlo hhi hR
    rw [show k + 1 + 1 + c2 = k + 1 + c2 + 1 from by omega]
    simp only [RepSeq] at hL
    obtain ⟨esh, est, usedh, usedt, hPh, hloh, hhih, hrest, hes, hused⟩ := hL
    subst hes
    subst hused
    simp only [RepSeq]
    have hRest := ih c2 (a + 1) (some (nd.keys.getD a 0)) hi est es2 usedt
      used2
      (by rw [show a + 1 + k = a + (k + 1) from by omega]; exact hrest)
      (by rw [show a + 1 + k = a + (k + 1) from by omega]; exact hhih)
      (by rw [show a + 1 + k = a + (k + 1) from by omega]; exact hhi)
      (by rw [show a + 1 + k = a + (k + 1) from by omega]
          exact hR)
    refine ⟨esh, est ++ (nd.keys.getD (a + (k + 1)) 0,
        nd.values.getD (a + (k + 1)) 0) :: es2, usedh, usedt ++ used2,
      hPh, hloh, ?_, ?_, by simp, by simp⟩
    · exact hiOk_of_lt hhih hhi
    · rw [show a + 1 + k = a + (k + 1) from by omega] at hRest
      exact hRest

/-- The linear scan of `search` stops at the first slot whose key is not
below the probe. -/
theorem scanGEAux_spec (ks : List Nat) (num key : Nat) :
    ∀ c i, num ≤ i + c →
      i ≤ scanGEAux ks num key c i ∧
      (i ≤ num → scanGEAux ks num key c i ≤ num) ∧
      (∀ j, i ≤ j → j < scanGEAux ks num key c i → ks.getD j 0 < key) ∧
      (scanGEAux ks num key c i < num →
        ¬ ks.getD (scanGEAux ks num key c i) 0 < key) := by
  intro c
  induction c with
  | zero =>
    intro i hle
    simp only [scanGEAux]
    exact ⟨le_refl i, fun h => h, fun j h1 h2 => absurd h2 (by omega),
      fun h => absurd h (by omega)⟩
  | succ c ih =>
    intro i hle
    simp only [scanGEAux]
    split
    · rename_i hcond
      obtain ⟨g1, g2, g3, g4⟩ := ih (i + 1) (by omega)
      refine ⟨by omega, fun h => g2 (by omega), fun j h1 h2 => ?_, g4⟩
      by_cases hj : j = i
      · rw [hj]
        exact hcond.2
      · exact g3 j (by omega) h2
    · rename_i hcond
      refine ⟨le_refl i, fun h => h, fun j h1 h2 => absurd h2 (by omega),
        fun h => ?_⟩
      intro hk
      exact hcond ⟨h, hk⟩

theorem scanGE_spec (ks : List Nat) (num key : Nat) :
    scanGE ks num key 0 ≤ num ∧
    (∀ j, j < scanGE ks num key 0 → ks.getD j 0 < key) ∧
    (scanGE ks num key 0 < num → ¬ ks.getD (scanGE ks num key 0) 0 < key) := by
  obtain ⟨g1, g2, g3, g4⟩ := scanGEAux_spec ks num key (num - 0) 0 (by omega)
  exact ⟨g2 (by omega), fun j hj => g3 j (by omega) hj, g4⟩

/-- The descent scan of `insert_non_full`. -/
theorem descIdx_spec (ks : List Nat) (key : Nat) :
    ∀ n, descIdx ks key n ≤ n ∧
      (0 < descIdx ks key n → ¬ key < ks.getD (descIdx ks key n - 1) 0) ∧
      (∀ j, descIdx ks key n ≤ j → j < n → key < ks.getD j 0) := by
  intro n
  induction n with
  | zero =>
    simp only [descIdx]
    exact ⟨le_refl 0, fun h => absurd h (by omega),
      fun j h1 h2 => absurd h2 (by omega)⟩
  | succ n ih =>
    simp only [descIdx]
    split
    · rename_i hcond
      obtain ⟨g1, g2, g3⟩ := ih
      refine ⟨by omega, g2, fun j h1 h2 => ?_⟩
      by_cases hj : j = n
      · rw [hj]
        exact hcond
      · exact g3 j h1 (by omega)
    · rename_i hcond
      refine ⟨le_refl _, fun h => by simpa using hcond,
        fun j h1 h2 => absurd h2 (by omega)⟩

/-- Sorted insertion behind a prefix of smaller keys. -/
theorem insEntry_append_left (k v : Nat) :
    ∀ es1 es2, (∀ e ∈ es1, e.1 < k) →
      insEntry k v (es1 ++ es2) = es1 ++ insEntry k v es2 := by
  intro es1
  induction es1 with
  | nil => intro es2 h; rfl
  | cons e t ih =>
    intro es2 h
    simp only [List.cons_append, insEntry, List.append_eq]
    rw [if_neg (by
      have := h e (List.mem_cons_self e t)
      omega)]
    rw [ih es2 (fun x hx => h x (List.mem_cons_of_mem e hx))]

/-- Sorted insertion in front of a suffix of larger keys. -/
theorem insEntry_append_right (k v : Nat) :
    ∀ es1 es2, (∀ e ∈ es2, k < e.1) →
      insEntry k v (es1 ++ es2) = insEntry k v es1 ++ es2 := by
  intro es1
  induction es1 with
  | nil =>
    intro es2 h
    cases es2 with
    | nil => rfl
    | cons e t =>
      simp only [List.nil_append, insEntry]
      rw [if_pos (h e (List.mem_cons_self e t))]
      rfl
  | cons e t ih =>
    intro es2 h
    simp only [List.cons_append, insEntry, List.append_eq]
    by_cases hk : k < e.1
    · rw [if_pos hk, if_pos hk]
      rfl
    · rw [if_neg hk, if_neg hk, ih es2 h]
      rfl

theorem insEntry_perm (k v : Nat) :
    ∀ es, (insEntry k v es).Perm ((k, v) :: es) := by
  intro es
  induction es with
  | nil => exact List.Perm.refl _
  | cons e t ih =>
    simp only [insEntry]
    split
    · exact List.Perm.refl _
    · exact ((ih.cons e).trans (List.Perm.swap (k, v) e t))

/-- In a key-sorted entry list the value of a key is unique. -/
theorem mem_value_unique :
    ∀ (es : List (Nat × Nat)), es.Pairwise (fun x y => x.1 < y.1) →
      ∀ k v1 v2, (k, v1) ∈ es → (k, v2) ∈ es → v1 = v2 := by
  intro es
  induction es with
  | nil => intro _ k v1 v2 h; exact absurd h (List.not_mem_nil _)
  | cons e t ih =>
    intro hp k v1 v2 h1 h2
    obtain ⟨hhead, htail⟩ := List.pairwise_cons.mp hp
    rcases List.mem_cons.mp h1 with e1 | m1
    · rcases List.mem_cons.mp h2 with e2 | m2
      · rw [← e1] at e2
        exact (Prod.mk.injEq _ _ _ _).mp e2.symm |>.2
      · have := hhead _ m2
        rw [← e1] at this
        simp at this
    · rcases List.mem_cons.mp h2 with e2 | m2
      · have := hhead _ m1
        rw [← e2] at this
        simp at this
      · exact ih htail k v1 v2 m1 m2

/-!
## Traversal correctness
-/

theorem subEntries_zero (s : Index) : ∀ fuel, subEntries s fuel 0 = [] := by
  intro fuel
  cases fuel with
  | zero => rfl
  | succ f =>
    simp only [subEntries]
    simp

theorem range'_foldr_subFold (s : Index) (fuel : Nat) (nd : Node) :
    ∀ c a,
      (List.range' a c).foldr
        (fun i acc => subEntries s fuel (nd.children.getD i 0) ++
          (nd.keys.getD i 0, nd.values.getD i 0) :: acc)
        (subEntries s fuel (nd.children.getD (a + c) 0)) =
      subFold s fuel nd a c := by
  intro c
  induction c with
  | zero =>
    intro a
    simp only [List.range', List.foldr, subFold, Nat.add_zero]
  | succ c ih =>
    intro a
    rw [List.range'_succ]
    simp only [List.foldr_cons, subFold]
    rw [show a + (c + 1) = a + 1 + c from by omega, ih (a + 1)]

theorem subEntries_unfold (s : Index) (fuel : Nat) (id : Nat) (hid : id ≠ 0) :
    subEntries s (fuel + 1) id =
      subFold s fuel (s.blocks id) 0 (s.blocks id).numKeys := by
  simp only [subEntries]
  rw [if_neg hid, List.range_eq_range']
  have hfold := range'_foldr_subFold s fuel (s.blocks id)
    (s.blocks id).numKeys 0
  simpa using hfold

theorem subFold_leaf (s : Index) (fuel : Nat) (nd : Node)
    (hch : ∀ m, nd.children.getD m 0 = 0) :
    ∀ c a, subFold s fuel nd a c =
      (List.range' a c).map
        (fun i => (nd.keys.getD i 0, nd.values.getD i 0)) := by
  intro c
  induction c with
  | zero =>
    intro a
    simp only [subFold, hch, subEntries_zero, List.range', List.map_nil]
  | succ c ih =>
    intro a
    simp only [subFold, hch, subEntries_zero, List.nil_append]
    rw [List.range'_succ, List.map_cons, ih (a + 1)]

theorem RepSeq_subFold (s : Index) (fuel : Nat) (nd : Node)
    (hP : ∀ id lo hi es u, RepSub s fuel id lo hi es u →
      subEntries s fuel id = es) :
    ∀ c a lo hi es used, RepSeq (RepSub s fuel) nd a c lo hi es used →
      subFold s fuel nd a c = es := by
  intro c
  induction c with
  | zero =>
    intro a lo hi es used h
    simp only [RepSeq] at h
    simp only [subFold]
    exact hP _ _ _ _ _ h
  | succ c ih =>
    intro a lo hi es used h
    simp only [RepSeq] at h
    obtain ⟨es1, es2, used1, used2, hP1, -, -, hrest, hes, -⟩ := h
    subst hes
    simp only [subFold]
    rw [hP _ _ _ _ _ hP1, ih _ _ _ _ _ hrest]

/-- A represented subtree traverses to exactly its entry list. -/
theorem traverse_sub {s : Index} :
    ∀ fuel id lo hi es used, RepSub s fuel id lo hi es used →
      subEntries s fuel id = es := by
  intro fuel
  induction fuel with
  | zero => intro id lo hi es used h; exact h.elim
  | succ f ih =>
    intro id lo hi es used h
    simp only [RepSub] at h
    obtain ⟨hok, hrest⟩ := h
    rw [subEntries_unfold s f id hok.1]
    by_cases hl : (s.blocks id).leaf = true
    · rw [if_pos hl] at hrest
      obtain ⟨-, hes, hch, -, -⟩ := hrest
      rw [subFold_leaf s f _ hch, hes]
      unfold leafEnts
      rw [List.range_eq_range']
    · rw [if_neg hl] at hrest
      obtain ⟨used', hseq, -⟩ := hrest
      exact RepSeq_subFold s f _
        (fun id2 lo2 hi2 es2 u2 h2 => ih id2 lo2 hi2 es2 u2 h2)
        _ _ _ _ _ _ hseq

/-!
## Search correctness
-/

theorem RepSub_ne_zero {s : Index} {fuel id : Nat} {lo hi : Option Nat}
    {es : List (Nat × Nat)} {used : List Nat}
    (h : RepSub s fuel id lo hi es used) : id ≠ 0 := by
  cases fuel with
  | zero => exact h.elim
  | succ f => exact h.1.1

theorem mem_leafEnts {nd : Node} {k v : Nat} :
    (k, v) ∈ leafEnts nd ↔ ∃ j, j < nd.numKeys ∧ nd.keys.getD j 0 = k ∧
      nd.values.getD j 0 = v := by
  unfold leafEnts
  constructor
  · intro h
    obtain ⟨j, hj, hje⟩ := List.mem_map.mp h
    obtain ⟨e1, e2⟩ := Prod.mk.injEq .. ▸ hje
    exact ⟨j, List.mem_range.mp hj, e1, e2⟩
  · intro h
    obtain ⟨j, hj, h1, h2⟩ := h
    exact List.mem_map.mpr ⟨j, List.mem_range.mpr hj, by rw [h1, h2]⟩

theorem searchLoop_step (s : Index) (k : Nat) (f : Nat) (cur : Node) :
    searchLoop s k (f + 1) cur =
      if scanGE cur.keys cur.numKeys k 0 < cur.numKeys ∧
          cur.keys.getD (scanGE cur.keys cur.numKeys k 0) 0 = k then
        some (cur.keys.getD (scanGE cur.keys cur.numKeys k 0) 0,
          cur.values.getD (scanGE cur.keys cur.numKeys k 0) 0)
      else if cur.leaf then none
      else if cur.children.getD (scanGE cur.keys cur.numKeys k 0) 0 = 0 then
        none
      else
        match readNode s
            (cur.children.getD (scanGE cur.keys cur.numKeys k 0) 0) with
        | none => none
        | some child => searchLoop s k f child := rfl

/-- The descent loop of `search` finds exactly the represented
entries. -/
theorem searchLoop_spec {s : Index} :
    ∀ fuel id lo hi es used k,
      RepSub s fuel id lo hi es used →
      (∀ v, (k, v) ∈ es → searchLoop s k fuel (s.blocks id) = some (k, v)) ∧
      ((∀ v, (k, v) ∉ es) → searchLoop s k fuel (s.blocks id) = none) := by
  intro fuel
  induction fuel with
  | zero => intro id lo hi es used k h; exact h.elim
  | succ f ih =>
    intro id lo hi es used k h
    rw [searchLoop_step s k f (s.blocks id)]
    simp only [RepSub] at h
    obtain ⟨⟨hid0, hbid, hkl, hvl, hcl, hn1, hn2⟩, hrest⟩ := h
    obtain ⟨g1, g2, g3⟩ := scanGE_spec (s.blocks id).keys (s.blocks id).numKeys k
    set isc := scanGE (s.blocks id).keys (s.blocks id).numKeys k 0 with hisc
    by_cases hl : (s.blocks id).leaf = true
    · rw [if_pos hl] at hrest
      obtain ⟨-, hes, hch, hbnd, hsort⟩ := hrest
      subst hes
      by_cases hfound : isc < (s.blocks id).numKeys ∧
          (s.blocks id).keys.getD isc 0 = k
      · rw [if_pos hfound]
        have hmm : ((s.blocks id).keys.getD isc 0,
            (s.blocks id).values.getD isc 0) ∈ leafEnts (s.blocks id) :=
          mem_leafEnts.mpr ⟨isc, hfound.1, rfl, rfl⟩
        rw [hfound.2] at hmm
        constructor
        · intro v hv
          have hps : (leafEnts (s.blocks id)).Pairwise
              (fun x y => x.1 < y.1) :=
            pairwise_map_range _ _ _ (fun i j hij hj => hsort i j hij hj)
          rw [hfound.2, mem_value_unique _ hps k _ v hmm hv]
        · intro hnv
          exact absurd hmm (hnv _)
      · rw [if_neg hfound, if_pos hl]
        have hnomem : ∀ v, (k, v) ∉ leafEnts (s.blocks id) := by
          intro v hv
          obtain ⟨j, hj, hjk, hjv⟩ := mem_leafEnts.mp hv
          have hji : ¬ j < isc := fun hlt => by
            have := g2 j hlt
            omega
          have hji2 : ¬ isc < j := fun hlt => by
            have hig : isc < (s.blocks id).numKeys := by omega
            have := g3 hig
            have := hsort isc j hlt hj
            omega
          have hej : j = isc := by omega
          exact hfound ⟨by omega, by rw [← hej]; exact hjk⟩
        exact ⟨fun v hv => absurd hv (hnomem v), fun _ => rfl⟩
    · rw [if_neg hl] at hrest
      obtain ⟨used', hseq, -⟩ := hrest
      have hsorted : es.Pairwise (fun x y => x.1 < y.1) :=
        RepSeq_sorted (s.blocks id)
          (fun i2 l2 h2 e2 u2 hh => RepSub_bounds f i2 l2 h2 e2 u2 hh)
          (fun i2 l2 h2 e2 u2 hh => RepSub_sorted f i2 l2 h2 e2 u2 hh)
          _ _ _ _ _ _ hseq
      by_cases hfound : isc < (s.blocks id).numKeys ∧
          (s.blocks id).keys.getD isc 0 = k
      · rw [if_pos hfound]
        obtain ⟨c2, hc2⟩ : ∃ c2, (s.blocks id).numKeys = isc + 1 + c2 :=
          ⟨(s.blocks id).numKeys - isc - 1, by omega⟩
        rw [hc2] at hseq
        obtain ⟨esA, esB, uA, uB, hLc, hloM, hhiM, hRc, hesE, -⟩ :=
          RepSeq_split (s.blocks id) isc c2 0 lo hi es used' hseq
        simp only [Nat.zero_add] at hLc hloM hhiM hRc hesE
        have hmm : ((s.blocks id).keys.getD isc 0,
            (s.blocks id).values.getD isc 0) ∈ es := by
          rw [hesE]
          exact List.mem_append_right _ (List.mem_cons_self _ _)
        rw [hfound.2] at hmm
        constructor
        · intro v hv
          rw [hfound.2, mem_value_unique _ hsorted k _ v hmm hv]
        · intro hnv
          exact absurd hmm (hnv _)
      · rw [if_neg hfound, if_neg hl]
        have hkgt : isc < (s.blocks id).numKeys →
            k < (s.blocks id).keys.getD isc 0 := by
          intro hlt
          have h3 := g3 hlt
          have h4 : (s.blocks id).keys.getD isc 0 ≠ k :=
            fun he => hfound ⟨hlt, he⟩
          omega
        by_cases hin : isc = (s.blocks id).numKeys
        · obtain ⟨c1, hc1⟩ : ∃ c1, (s.blocks id).numKeys = c1 + 1 + 0 :=
            ⟨(s.blocks id).numKeys - 1, by omega⟩
          rw [hc1] at hseq
          obtain ⟨esA, esB, uA, uB, hLc, hloM, hhiM, hRc, hesE, -⟩ :=
            RepSeq_split (s.blocks id) c1 0 0 lo hi es used' hseq
          simp only [Nat.zero_add] at hLc hloM hhiM hRc hesE
          simp only [RepSeq] at hRc
          have hc1i : c1 + 1 = isc := by omega
          rw [hc1i] at hRc
          have hcne := RepSub_ne_zero hRc
          rw [if_neg hcne]
          simp only [readNode]
          rw [if_neg hcne]
          have hmedlt : (s.blocks id).keys.getD c1 0 < k :=
            g2 c1 (by omega)
          have hbA : ∀ e ∈ esA, e.1 < k := by
            intro e he
            have hb := RepSeq_bounds (s.blocks id)
              (fun i2 l2 h2 e2 u2 hh => RepSub_bounds f i2 l2 h2 e2 u2 hh)
              _ _ _ _ _ _ hLc e he
            exact lt_trans hb.2 hmedlt
          constructor
          · intro v hv
            have hvB : (k, v) ∈ esB := by
              rw [hesE] at hv
              rcases List.mem_append.mp hv with h1 | h2
              · have h4 := hbA _ h1
                simp at h4
              · rcases List.mem_cons.mp h2 with h3 | h4
                · have h5 : k = (s.blocks id).keys.getD c1 0 :=
                    congrArg Prod.fst h3
                  omega
                · exact h4
            exact (ih _ _ _ _ _ k hRc).1 v hvB
          · intro hnv
            refine (ih _ _ _ _ _ k hRc).2 (fun v hv => ?_)
            refine hnv v ?_
            rw [hesE]
            exact List.mem_append_right _ (List.mem_cons_of_mem _ hv)
        · have hiltn : isc < (s.blocks id).numKeys := by omega
          have hklt : k < (s.blocks id).keys.getD isc 0 := hkgt hiltn
          obtain ⟨c2, hc2⟩ : ∃ c2, (s.blocks id).numKeys = isc + 1 + c2 :=
            ⟨(s.blocks id).numKeys - isc - 1, by omega⟩
          rw [hc2] at hseq
          obtain ⟨esL, esB, uL, uB, hLc, hloM, hhiM, hRc, hesE, -⟩ :=
            RepSeq_split (s.blocks id) isc c2 0 lo hi es used' hseq
          simp only [Nat.zero_add] at hLc hloM hhiM hRc hesE
          have hbB : ∀ e ∈ esB, k < e.1 := by
            intro e he
            have hb := RepSeq_bounds (s.blocks id)
              (fun i2 l2 h2 e2 u2 hh => RepSub_bounds f i2 l2 h2 e2 u2 hh)
              _ _ _ _ _ _ hRc e he
            exact lt_trans hklt hb.1
          by_cases hz : isc = 0
          · rw [hz] at hLc
            simp only [RepSeq] at hLc
            have hcne := RepSub_ne_zero hLc
            rw [hz]
            rw [if_neg hcne]
            simp only [readNode]
            rw [if_neg hcne]
            constructor
            · intro v hv
              have hvL : (k, v) ∈ esL := by
                rw [hesE] at hv
                rcases List.mem_append.mp hv with h1 | h2
                · exact h1
                · rcases List.mem_cons.mp h2 with h3 | h4
                  · have h5 : k = (s.blocks id).keys.getD isc 0 :=
                      congrArg Prod.fst h3
                    omega
                  · have h6 := hbB _ h4
                    simp at h6
              exact (ih _ _ _ _ _ k hLc).1 v hvL
            · intro hnv
              refine (ih _ _ _ _ _ k hLc).2 (fun v hv => ?_)
              refine hnv v ?_
              rw [hesE]
              exact List.mem_append_left _ hv
          · obtain ⟨c1, hc1⟩ : ∃ c1, isc = c1 + 1 + 0 := ⟨isc - 1, by omega⟩
            rw [hc1] at hLc
            obtain ⟨esLL, esC, uLL, uC, hLL, hloM2, hhiM2, hC, hesL, -⟩ :=
              RepSeq_split (s.blocks id) c1 0 0 lo _ esL uL hLc
            simp only [Nat.zero_add] at hLL hloM2 hhiM2 hC hesL
            simp only [RepSeq] at hC
            have hc1i : c1 + 1 = isc := by omega
            rw [hc1i] at hC
            have hcne := RepSub_ne_zero hC
            rw [if_neg hcne]
            simp only [readNode]
            rw [if_neg hcne]
            have hmed2lt : (s.blocks id).keys.getD c1 0 < k :=
              g2 c1 (by omega)
            have hbLL : ∀ e ∈ esLL, e.1 < k := by
              intro e he
              have hb := RepSeq_bounds (s.blocks id)
                (fun i2 l2 h2 e2 u2 hh => RepSub_bounds f i2 l2 h2 e2 u2 hh)
                _ _ _ _ _ _ hLL e he
              exact lt_trans hb.2 hmed2lt
            constructor
            · intro v hv
              have hvC : (k, v) ∈ esC := by
                rw [hesE, hesL] at hv
                rcases List.mem_append.mp hv with h1 | h2
                · rcases List.mem_append.mp h1 with h3 | h4
                  · have h5 := hbLL _ h3
                    simp at h5
                  · rcases List.mem_cons.mp h4 with h5 | h6
                    · have h7 : k = (s.blocks id).keys.getD c1 0 :=
                        congrArg Prod.fst h5
                      omega
                    · exact h6
                · rcases List.mem_cons.mp h2 with h3 | h4
                  · have h5 : k = (s.blocks id).keys.getD isc 0 :=
                      congrArg Prod.fst h3
                    omega
                  · have h6 := hbB _ h4
                    simp at h6
              exact (ih _ _ _ _ _ k hC).1 v hvC
            · intro hnv
              refine (ih _ _ _ _ _ k hC).2 (fun v hv => ?_)
              refine hnv v ?_
              rw [hesE, hesL]
              exact List.mem_append_left _
                (List.mem_append_right _ (List.mem_cons_of_mem _ hv))

/-- `IndexFile.search` is correct on any invariant-satisfying state. -/
theorem search_spec {s : Index} {es : List (Nat × Nat)} (hinv : Inv s es)
    (k : Nat) :
    (∀ v, (k, v) ∈ es → search s k = some (k, v)) ∧
    ((∀ v, (k, v) ∉ es) → search s k = none) := by
  obtain ⟨h1, h2, h3, hroot⟩ := hinv
  rcases hroot with ⟨hr0, hes⟩ | ⟨used, hrep, hnd, hbd⟩
  · subst hes
    unfold search
    rw [if_pos hr0]
    exact ⟨fun v hv => absurd hv (List.not_mem_nil _), fun _ => rfl⟩
  · have hrne := RepSub_ne_zero hrep
    unfold search
    rw [if_neg hrne]
    simp only [readNode]
    rw [if_neg hrne]
    exact searchLoop_spec s.nextBlockId s.rootId none none es used k hrep

/-!
## The leaf insertion step
-/

theorem insEntry_all_gt (k v : Nat) :
    ∀ es, (∀ e ∈ es, k < e.1) → insEntry k v es = (k, v) :: es := by
  intro es h
  cases es with
  | nil => rfl
  | cons e t =>
    simp only [insEntry]
    rw [if_pos (h e (List.mem_cons_self e t))]

theorem range'_split (s m n : Nat) :
    List.range' s (m + n) = List.range' s m ++ List.range' (s + m) n := by
  have h := List.range'_append s m n 1
  rw [Nat.one_mul, Nat.add_comm n m] at h
  exact h.symm

/-- The shift-and-place loop of the leaf case of `insert_non_full`:
there is an insertion position `p` below which slots are kept, at which
the new pair lands, and above which slots move one to the right. -/
theorem insLoop_spec (key value : Nat) :
    ∀ n ks vs, ks.length = 19 → vs.length = 19 → n ≤ 18 →
      ∃ p, p ≤ n ∧
        (insLoop ks vs key value n).1.length = 19 ∧
        (insLoop ks vs key value n).2.length = 19 ∧
        (∀ m, m < p →
          (insLoop ks vs key value n).1.getD m 0 = ks.getD m 0 ∧
          (insLoop ks vs key value n).2.getD m 0 = vs.getD m 0) ∧
        (insLoop ks vs key value n).1.getD p 0 = key ∧
        (insLoop ks vs key value n).2.getD p 0 = value ∧
        (∀ m, p < m → m ≤ n →
          (insLoop ks vs key value n).1.getD m 0 = ks.getD (m - 1) 0 ∧
          (insLoop ks vs key value n).2.getD m 0 = vs.getD (m - 1) 0) ∧
        (∀ m, n < m →
          (insLoop ks vs key value n).1.getD m 0 = ks.getD m 0 ∧
          (insLoop ks vs key value n).2.getD m 0 = vs.getD m 0) ∧
        (0 < p → ¬ key < ks.getD (p - 1) 0) ∧
        (∀ j, p ≤ j → j < n → key < ks.getD j 0) := by
  intro n
  induction n with
  | zero =>
    intro ks vs hk hv hn
    simp only [insLoop]
    refine ⟨0, le_refl 0, by rw [List.length_set]; exact hk,
      by rw [List.length_set]; exact hv,
      fun m hm => absurd hm (by omega),
      getD_set_self _ _ (by rw [hk]; omega),
      getD_set_self _ _ (by rw [hv]; omega),
      fun m h1 h2 => absurd h2 (by omega),
      fun m hm => ⟨getD_set_ne _ _ (by omega), getD_set_ne _ _ (by omega)⟩,
      fun h0 => absurd h0 (by omega),
      fun j h1 h2 => absurd h2 (by omega)⟩
  | succ j ih =>
    intro ks vs hk hv hn
    simp only [insLoop]
    by_cases hcond : key < ks.getD j 0
    · rw [if_pos hcond]
      obtain ⟨p, hp, l1, l2, hlow, hatk, hatv, hmid, hhigh, hbl, hbu⟩ :=
        ih (ks.set (j + 1) (ks.getD j 0)) (vs.set (j + 1) (vs.getD j 0))
          (by rw [List.length_set]; exact hk)
          (by rw [List.length_set]; exact hv) (by omega)
      refine ⟨p, by omega, l1, l2, ?_, hatk, hatv, ?_, ?_, ?_, ?_⟩
      · intro m hm
        obtain ⟨e1, e2⟩ := hlow m hm
        exact ⟨by rw [e1, getD_set_ne _ _ (by omega)],
          by rw [e2, getD_set_ne _ _ (by omega)]⟩
      · intro m h1 h2
        by_cases hmj : m ≤ j
        · obtain ⟨e1, e2⟩ := hmid m h1 hmj
          exact ⟨by rw [e1, getD_set_ne _ _ (by omega)],
            by rw [e2, getD_set_ne _ _ (by omega)]⟩
        · have hmj1 : m = j + 1 := by omega
          subst hmj1
          obtain ⟨e1, e2⟩ := hhigh (j + 1) (by omega)
          rw [Nat.add_sub_cancel]
          exact ⟨by rw [e1, getD_set_self _ _ (by rw [hk]; omega)],
            by rw [e2, getD_set_self _ _ (by rw [hv]; omega)]⟩
      · intro m hm
        obtain ⟨e1, e2⟩ := hhigh m (by omega)
        exact ⟨by rw [e1, getD_set_ne _ _ (by omega)],
          by rw [e2, getD_set_ne _ _ (by omega)]⟩
      · intro hp0
        have hb := hbl hp0
        rwa [getD_set_ne _ _ (by omega)] at hb
      · intro j2 h1 h2
        by_cases hj2 : j2 < j
        · have hb := hbu j2 h1 hj2
          rwa [getD_set_ne _ _ (by omega)] at hb
        · have hj2e : j2 = j := by omega
          rw [hj2e]
          exact hcond
    · rw [if_neg hcond]
      refine ⟨j + 1, le_refl _, by rw [List.length_set]; exact hk,
        by rw [List.length_set]; exact hv, ?_,
        getD_set_self _ _ (by rw [hk]; omega),
        getD_set_self _ _ (by rw [hv]; omega), ?_, ?_, ?_, ?_⟩
      · intro m hm
        exact ⟨getD_set_ne _ _ (by omega), getD_set_ne _ _ (by omega)⟩
      · intro m h1 h2
        exact absurd h1 (by omega)
      · intro m hm
        exact ⟨getD_set_ne _ _ (by omega), getD_set_ne _ _ (by omega)⟩
      · intro h0
        rw [Nat.add_sub_cancel]
        exact hcond
      · intro j2 h1 h2
        exact absurd h2 (by omega)

/-- Slot-level description of the leaf after the shift loop, as an
entry-list equation. -/
theorem leafEnts_insEntry (nd nd2 : Node) (key value : Nat) (p : Nat)
    (hp : p ≤ nd.numKeys) (hn2 : nd2.numKeys = nd.numKeys + 1)
    (hlow : ∀ m, m < p → nd2.keys.getD m 0 = nd.keys.getD m 0 ∧
      nd2.values.getD m 0 = nd.values.getD m 0)
    (hatk : nd2.keys.getD p 0 = key) (hatv : nd2.values.getD p 0 = value)
    (hhigh : ∀ m, p < m → m ≤ nd.numKeys →
      nd2.keys.getD m 0 = nd.keys.getD (m - 1) 0 ∧
      nd2.values.getD m 0 = nd.values.getD (m - 1) 0)
    (hltk : ∀ j, j < p → nd.keys.getD j 0 < key)
    (hgtk : ∀ j, p ≤ j → j < nd.numKeys → key < nd.keys.getD j 0) :
    leafEnts nd2 = insEntry key value (leafEnts nd) := by
  unfold leafEnts
  obtain ⟨q, hq⟩ : ∃ q, nd.numKeys = p + q := ⟨nd.numKeys - p, by omega⟩
  rw [List.range_eq_range', List.range_eq_range', hn2, hq,
    show p + q + 1 = p + (1 + q) from by omega,
    range'_split 0 p (1 + q), range'_split 0 p q,
    show (0 : Nat) + p = p from by omega,
    show (1 : Nat) + q = q + 1 from by omega,
    List.range'_succ, List.map_append, List.map_append, List.map_cons]
  have hA : (List.range' 0 p).map
      (fun i => (nd2.keys.getD i 0, nd2.values.getD i 0)) =
      (List.range' 0 p).map
        (fun i => (nd.keys.getD i 0, nd.values.getD i 0)) := by
    refine List.map_congr_left (fun i hi => ?_)
    have hip : i < p := by
      have hm := List.mem_range'_1.mp hi
      omega
    obtain ⟨e1, e2⟩ := hlow i hip
    rw [e1, e2]
  have hAlt : ∀ e ∈ (List.range' 0 p).map
      (fun i => (nd.keys.getD i 0, nd.values.getD i 0)), e.1 < key := by
    intro e he
    obtain ⟨i, hi, hei⟩ := List.mem_map.mp he
    have hip : i < p := by
      have hm := List.mem_range'_1.mp hi
      omega
    rw [← hei]
    exact hltk i hip
  have hBgt : ∀ e ∈ (List.range' p q).map
      (fun i => (nd.keys.getD i 0, nd.values.getD i 0)), key < e.1 := by
    intro e he
    obtain ⟨i, hi, hei⟩ := List.mem_map.mp he
    have hm := List.mem_range'_1.mp hi
    rw [← hei]
    exact hgtk i (by omega) (by omega)
  have hC : (List.range' (p + 1) q).map
      (fun i => (nd2.keys.getD i 0, nd2.values.getD i 0)) =
      (List.range' p q).map
        (fun i => (nd.keys.getD i 0, nd.values.getD i 0)) := by
    rw [List.range'_eq_map_range, List.range'_eq_map_range,
      List.map_map, List.map_map]
    refine List.map_congr_left (fun i hi => ?_)
    have hiq : i < q := List.mem_range.mp hi
    obtain ⟨e1, e2⟩ := hhigh (p + 1 + i) (by omega) (by omega)
    show (nd2.keys.getD (p + 1 + i) 0, nd2.values.getD (p + 1 + i) 0) =
      (nd.keys.getD (p + i) 0, nd.values.getD (p + i) 0)
    rw [e1, e2, show p + 1 + i - 1 = p + i from by omega]
  rw [hA, hC, insEntry_append_left key value _ _ hAlt,
    insEntry_all_gt key value _ hBgt]
  rw [hatk, hatv]

/-!
## Chain focusing
-/

theorem RepSeq_key_loOk
    {P : Nat → Option Nat → Option Nat → List (Nat × Nat) → List Nat → Prop}
    (nd : Node) :
    ∀ c a lo hi es used, RepSeq P nd a c lo hi es used →
      ∀ m, a ≤ m → m < a + c → loOk lo (nd.keys.getD m 0) := by
  intro c
  induction c with
  | zero => intro a lo hi es used h m h1 h2; omega
  | succ c ih =>
    intro a lo hi es used h m h1 h2
    simp only [RepSeq] at h
    obtain ⟨es1, es2, used1, used2, hP1, hlo, hhi, hrest, -, -⟩ := h
    by_cases hm : m = a
    · rw [hm]
      exact hlo
    · have hfromtail := ih (a + 1) _ _ _ _ hrest m (by omega) (by omega)
      exact loOk_of_lt hlo hfromtail

theorem RepSeq_cons
    {P : Nat → Option Nat → Option Nat → List (Nat × Nat) → List Nat → Prop}
    {nd : Node} {a c : Nat} {lo hi : Option Nat}
    {es : List (Nat × Nat)} {used : List Nat}
    (es1 es2 : List (Nat × Nat)) (used1 used2 : List Nat)
    (h1 : P (nd.children.getD a 0) lo (some (nd.keys.getD a 0)) es1 used1)
    (h2 : loOk lo (nd.keys.getD a 0))
    (h3 : hiOk hi (nd.keys.getD a 0))
    (h4 : RepSeq P nd (a + 1) c (some (nd.keys.getD a 0)) hi es2 used2)
    (h5 : es = es1 ++ (nd.keys.getD a 0, nd.values.getD a 0) :: es2)
    (h6 : used = used1 ++ used2) :
    RepSeq P nd a (c + 1) lo hi es used := by
  subst h5
  subst h6
  simp only [RepSeq]
  exact ⟨es1, es2, used1, used2, h1, h2, h3, h4, rfl, rfl⟩

/-- Focus child slot `j` of a chain: decompose the entries and blocks
around the focused subtree, characterize its bounds, and provide two
rebuild continuations — one replacing the focused subtree in the same
node, one replacing it by two subtrees around a new separator in a node
with the upper slots shifted right (the `split_child` shape). -/
theorem RepSeq_focus
    {P : Nat → Option Nat → Option Nat → List (Nat × Nat) → List Nat → Prop}
    (nd : Node)
    (hPb : ∀ id lo hi es u, P id lo hi es u →
      ∀ e ∈ es, loOk lo e.1 ∧ hiOk hi e.1) :
    ∀ c a lo hi es used j, j ≤ c →
      RepSeq P nd a c lo hi es used →
      ∃ loC hiC esA esC esB uA uC uB,
        es = esA ++ esC ++ esB ∧
        used = uA ++ uC ++ uB ∧
        P (nd.children.getD (a + j) 0) loC hiC esC uC ∧
        (j = 0 → loC = lo ∧ esA = [] ∧ uA = []) ∧
        (0 < j → loC = some (nd.keys.getD (a + j - 1) 0)) ∧
        (j = c → hiC = hi ∧ esB = [] ∧ uB = []) ∧
        (j < c → hiC = some (nd.keys.getD (a + j) 0)) ∧
        (∀ e ∈ esA, e.1 ≤ nd.keys.getD (a + j - 1) 0) ∧
        (∀ e ∈ esB, nd.keys.getD (a + j) 0 ≤ e.1) ∧
        (0 < j → (nd.keys.getD (a + j - 1) 0,
          nd.values.getD (a + j - 1) 0) ∈ esA) ∧
        (j < c → (nd.keys.getD (a + j) 0,
          nd.values.getD (a + j) 0) ∈ esB) ∧
        (∀ (P2 : Nat → Option Nat → Option Nat → List (Nat × Nat) →
            List Nat → Prop) (C : Nat → Prop),
          (∀ i2 l2 h2 e2 u2, (∀ b ∈ u2, C b) → P i2 l2 h2 e2 u2 →
            P2 i2 l2 h2 e2 u2) →
          (∀ b ∈ uA, C b) → (∀ b ∈ uB, C b) →
          ∀ esC2 uC2, P2 (nd.children.getD (a + j) 0) loC hiC esC2 uC2 →
            RepSeq P2 nd a c lo hi (esA ++ esC2 ++ esB)
              (uA ++ uC2 ++ uB)) ∧
        (∀ (P2 : Nat → Option Nat → Option Nat → List (Nat × Nat) →
            List Nat → Prop) (C : Nat → Prop) (nd2 : Node),
          (∀ i2 l2 h2 e2 u2, (∀ b ∈ u2, C b) → P i2 l2 h2 e2 u2 →
            P2 i2 l2 h2 e2 u2) →
          (∀ b ∈ uA, C b) → (∀ b ∈ uB, C b) →
          (∀ m, m < j → nd2.keys.getD (a + m) 0 = nd.keys.getD (a + m) 0 ∧
            nd2.values.getD (a + m) 0 = nd.values.getD (a + m) 0) →
          (∀ m, m < j →
            nd2.children.getD (a + m) 0 = nd.children.getD (a + m) 0) →
          (∀ m, j ≤ m → m < c →
            nd2.keys.getD (a + m + 1) 0 = nd.keys.getD (a + m) 0 ∧
            nd2.values.getD (a + m + 1) 0 = nd.values.getD (a + m) 0) →
          (∀ m, j < m → m ≤ c → nd2.children.getD (a + m + 1) 0 =
            nd.children.getD (a + m) 0) →
          ∀ esL esR uL uR,
            P2 (nd2.children.getD (a + j) 0) loC
              (some (nd2.keys.getD (a + j) 0)) esL uL →
            P2 (nd2.children.getD (a + j + 1) 0)
              (some (nd2.keys.getD (a + j) 0)) hiC esR uR →
            loOk loC (nd2.keys.getD (a + j) 0) →
            hiOk hiC (nd2.keys.getD (a + j) 0) →
            RepSeq P2 nd2 a (c + 1) lo hi
              (esA ++ (esL ++ (nd2.keys.getD (a + j) 0,
                nd2.values.getD (a + j) 0) :: esR) ++ esB)
              (uA ++ (uL ++ uR) ++ uB)) := by
  intro c a lo hi es used j
  induction j generalizing c a lo es used with
  | zero =>
    intro hj h
    cases c with
    | zero =>
      simp only [RepSeq] at h
      refine ⟨lo, hi, [], es, [], [], used, [], by simp, by simp, ?_,
        fun _ => ⟨rfl, rfl, rfl⟩, fun h0 => absurd h0 (by omega),
        fun _ => ⟨rfl, rfl, rfl⟩, fun h0 => absurd h0 (by omega),
        fun e he => absurd he (List.not_mem_nil e),
        fun e he => absurd he (List.not_mem_nil e),
        fun h0 => absurd h0 (by omega), fun h0 => absurd h0 (by omega),
        ?_, ?_⟩
      · simpa only [Nat.add_zero] using h
      · intro P2 C himp hCA hCB esC2 uC2 hP2
        simp only [RepSeq, List.nil_append, List.append_nil]
        simpa only [Nat.add_zero] using hP2
      · intro P2 C nd2 himp hCA hCB hk1 hc1 hk2 hc2 esL esR uL uR hPL hPR
          hloM hhiM
        simp only [List.nil_append, List.append_nil, RepSeq]
        refine ⟨esL, esR, uL, uR, ?_, hloM, hhiM, ?_, ?_, rfl⟩
        · simpa only [Nat.add_zero] using hPL
        · have hPR2 := hPR
          simp only [Nat.add_zero] at hPR2 hloM hhiM ⊢
          exact hPR2
        · simp only [Nat.add_zero]
    | succ c2 =>
      simp only [RepSeq] at h
      obtain ⟨es1, es2, used1, used2, hP1, hlo, hhi, hrest, hes, hused⟩ := h
      subst hes
      subst hused
      refine ⟨lo, some (nd.keys.getD a 0), [], es1,
        (nd.keys.getD a 0, nd.values.getD a 0) :: es2, [], used1, used2,
        by simp, by simp, by simpa only [Nat.add_zero] using hP1,
        fun _ => ⟨rfl, rfl, rfl⟩, fun h0 => absurd h0 (by omega),
        fun hc => absurd hc (by omega), fun _ => by simp only [Nat.add_zero],
        fun e he => absurd he (List.not_mem_nil e), ?_,
        fun h0 => absurd h0 (by omega), ?_, ?_, ?_⟩
      · intro e he
        simp only [Nat.add_zero]
        rcases List.mem_cons.mp he with he1 | he2
        · rw [he1]
        · exact le_of_lt ((RepSeq_bounds nd hPb _ _ _ _ _ _ hrest e he2).1)
      · intro _
        simp only [Nat.add_zero]
        exact List.mem_cons_self _ _
      · intro P2 C himp hCA hCB esC2 uC2 hP2
        simp only [List.nil_append, RepSeq]
        refine ⟨esC2, es2, uC2, used2,
          by simpa only [Nat.add_zero] using hP2, hlo, hhi, ?_, rfl, rfl⟩
        exact RepSeq_trans C nd nd himp c2 (a + 1) (a + 1) _ _ _ _
          (fun j2 hj2 => ⟨rfl, rfl⟩) (fun j2 hj2 => rfl) hCB hrest
      · intro P2 C nd2 himp hCA hCB hk1 hc1 hk2 hc2 esL esR uL uR hPL hPR
          hloM hhiM
        have hkey0 := hk2 0 (by omega) (by omega)
        simp only [Nat.add_zero] at hkey0 hPL hPR hloM hhiM ⊢
        refine RepSeq_cons esL
          (esR ++ (nd.keys.getD a 0, nd.values.getD a 0) :: es2)
          uL (uR ++ used2) hPL hloM (hiOk_of_lt hhiM hhi) ?_
          (by simp) (by simp)
        refine RepSeq_cons esR es2 uR used2 ?_ ?_ ?_ ?_ ?_ rfl
        · rw [hkey0.1]
          exact hPR
        · rw [hkey0.1]
          exact hhiM
        · rw [hkey0.1]
          exact hhi
        · rw [hkey0.1]
          refine RepSeq_trans C nd nd2 himp c2 (a + 1) (a + 1 + 1) _ hi
            es2 used2 (fun m hm => ?_) (fun m hm => ?_) hCB hrest
          · have hh := hk2 (m + 1) (by omega) (by omega)
            rwa [show a + (m + 1) + 1 = a + 1 + 1 + m from by omega,
              show a + (m + 1) = a + 1 + m from by omega] at hh
          · have hh := hc2 (m + 1) (by omega) (by omega)
            rwa [show a + (m + 1) + 1 = a + 1 + 1 + m from by omega,
              show a + (m + 1) = a + 1 + m from by omega] at hh
        · rw [hkey0.1, hkey0.2]
  | succ j2 ihj =>
    intro hj h
    cases c with
    | zero => omega
    | succ c3 =>
      simp only [RepSeq] at h
      obtain ⟨es1, es2, used1, used2, hP1, hlo, hhi, hrest, hes, hused⟩ := h
      subst hes
      subst hused
      obtain ⟨loC, hiC, esA, esC, esB, uA, uC, uB, h1, h2, h3, h4, h5, h6,
        h7, h8, h9, h10, h11, hreb1, hreb2⟩ :=
        ihj c3 (a + 1) (some (nd.keys.getD a 0)) es2 used2 (by omega) hrest
      subst h1
      subst h2
      have hka : nd.keys.getD a 0 ≤ nd.keys.getD (a + j2) 0 := by
        by_cases hz : j2 = 0
        · subst hz
          simp
        · exact le_of_lt (RepSeq_key_loOk nd c3 (a + 1) _ _ _ _ hrest
            (a + j2) (by omega) (by omega))
      refine ⟨loC, hiC,
        es1 ++ (nd.keys.getD a 0, nd.values.getD a 0) :: esA,
        esC, esB, used1 ++ uA, uC, uB, by simp, by simp, ?_,
        fun h0 => absurd h0 (by omega), ?_, ?_, ?_, ?_, ?_, ?_, ?_, ?_, ?_⟩
      · have hh := h3
        rwa [show a + 1 + j2 = a + (j2 + 1) from by omega] at hh
      · intro h0
        by_cases hz : j2 = 0
        · subst hz
          rw [show a + (0 + 1) - 1 = a from by omega]
          exact (h4 rfl).1
        · have hh := h5 (by omega)
          rwa [show a + 1 + j2 - 1 = a + (j2 + 1) - 1 from by omega] at hh
      · intro hc
        exact h6 (by omega)
      · intro hc
        have hh := h7 (by omega)
        rwa [show a + 1 + j2 = a + (j2 + 1) from by omega] at hh
      · intro e he
        rw [show a + (j2 + 1) - 1 = a + j2 from by omega]
        rcases List.mem_append.mp he with he1 | he2
        · exact le_trans (le_of_lt (hPb _ _ _ _ _ hP1 e he1).2) hka
        · rcases List.mem_cons.mp he2 with he3 | he4
          · rw [he3]
            exact hka
          · have hh := h8 e he4
            rwa [show a + 1 + j2 - 1 = a + j2 from by omega] at hh
      · intro e he
        have hh := h9 e he
        rwa [show a + 1 + j2 = a + (j2 + 1) from by omega] at hh
      · intro h0
        rw [show a + (j2 + 1) - 1 = a + j2 from by omega]
        by_cases hz : j2 = 0
        · subst hz
          rw [Nat.add_zero]
          exact List.mem_append_right _ (List.mem_cons_self _ _)
        · have hh := h10 (by omega)
          rw [show a + 1 + j2 - 1 = a + j2 from by omega] at hh
          exact List.mem_append_right _ (List.mem_cons_of_mem _ hh)
      · intro hc
        have hh := h11 (by omega)
        rwa [show a + 1 + j2 = a + (j2 + 1) from by omega] at hh
      · intro P2 C himp hCA hCB esC2 uC2 hP2
        refine RepSeq_cons es1 ((esA ++ esC2) ++ esB) used1
          ((uA ++ uC2) ++ uB)
          (himp _ _ _ _ _
            (fun b hb => hCA b (List.mem_append_left _ hb)) hP1)
          hlo hhi ?_ (by simp) (by simp)
        refine hreb1 P2 C himp
          (fun b hb => hCA b (List.mem_append_right _ hb)) hCB esC2 uC2 ?_
        rwa [show a + 1 + j2 = a + (j2 + 1) from by omega]
      · intro P2 C nd2 himp hCA hCB hk1 hc1 hk2 hc2 esL esR uL uR hPL hPR
          hloM hhiM
        have hk10 := hk1 0 (by omega)
        have hc10 := hc1 0 (by omega)
        simp only [Nat.add_zero] at hk10 hc10
        have hres := hreb2 P2 C nd2 himp
          (fun b hb => hCA b (List.mem_append_right _ hb)) hCB
          (fun m hm => by
            have hh := hk1 (m + 1) (by omega)
            rwa [show a + (m + 1) = a + 1 + m from by omega] at hh)
          (fun m hm => by
            have hh := hc1 (m + 1) (by omega)
            rwa [show a + (m + 1) = a + 1 + m from by omega] at hh)
          (fun m hm1 hm2 => by
            have hh := hk2 (m + 1) (by omega) (by omega)
            rwa [show a + (m + 1) + 1 = a + 1 + m + 1 from by omega,
              show a + (m + 1) = a + 1 + m from by omega] at hh)
          (fun m hm1 hm2 => by
            have hh := hc2 (m + 1) (by omega) (by omega)
            rwa [show a + (m + 1) + 1 = a + 1 + m + 1 from by omega,
              show a + (m + 1) = a + 1 + m from by omega] at hh)
          esL esR uL uR
          (by rwa [show a + 1 + j2 = a + (j2 + 1) from by omega])
          (by rwa [show a + 1 + j2 + 1 = a + (j2 + 1) + 1 from by omega,
            show a + 1 + j2 = a + (j2 + 1) from by omega])
          (by rwa [show a + 1 + j2 = a + (j2 + 1) from by omega])
          (by rwa [show a + 1 + j2 = a + (j2 + 1) from by omega])
        rw [show a + 1 + j2 = a + (j2 + 1) from by omega] at hres
        refine RepSeq_cons es1
          ((esA ++ (esL ++ (nd2.keys.getD (a + (j2 + 1)) 0,
            nd2.values.getD (a + (j2 + 1)) 0) :: esR)) ++ esB)
          used1 ((uA ++ (uL ++ uR)) ++ uB) ?_ ?_ ?_ ?_ ?_ (by simp)
        · rw [hc10, hk10.1]
          exact himp _ _ _ _ _
            (fun b hb => hCA b (List.mem_append_left _ hb)) hP1
        · rw [hk10.1]
          exact hlo
        · rw [hk10.1]
          exact hhi
        · rw [hk10.1]
          exact hres
        · rw [hk10.1, hk10.2]
          simp

/-- A represented subtree occupies its own root block. -/
theorem RepSub_self_mem {s : Index} {fuel id : Nat} {lo hi : Option Nat}
    {es : List (Nat × Nat)} {used : List Nat}
    (h : RepSub s fuel id lo hi es used) : id ∈ used := by
  cases fuel with
  | zero => exact h.elim
  | succ f =>
    simp only [RepSub] at h
    obtain ⟨hok, hrest⟩ := h
    by_cases hl : (s.blocks id).leaf = true
    · rw [if_pos hl] at hrest
      rw [hrest.1]
      exact List.mem_singleton_self id
    · rw [if_neg hl] at hrest
      obtain ⟨used2, -, hu⟩ := hrest
      rw [hu]
      exact List.mem_cons_self id used2

/-- A represented subtree's root node records its own block id. -/
theorem RepSub_blockId {s : Index} {fuel id : Nat} {lo hi : Option Nat}
    {es : List (Nat × Nat)} {used : List Nat}
    (h : RepSub s fuel id lo hi es used) : (s.blocks id).blockId = id := by
  cases fuel with
  | zero => exact h.elim
  | succ f => exact h.1.2.1

/-- A represented node holds at most `MAX_KEYS` keys. -/
theorem RepSub_numKeys_le {s : Index} {fuel id : Nat} {lo hi : Option Nat}
    {es : List (Nat × Nat)} {used : List Nat}
    (h : RepSub s fuel id lo hi es used) :
    (s.blocks id).numKeys ≤ MAX_KEYS := by
  cases fuel with
  | zero => exact h.elim
  | succ f => exact h.1.2.2.2.2.2.2

/-- Push a per-block predicate through a chain. -/
theorem RepSeq_used
    {P : Nat → Option Nat → Option Nat → List (Nat × Nat) → List Nat → Prop}
    (nd : Node) (Q : Nat → Prop)
    (hP : ∀ id lo hi es u, P id lo hi es u → ∀ b ∈ u, Q b) :
    ∀ c a lo hi es used, RepSeq P nd a c lo hi es used →
      ∀ b ∈ used, Q b := by
  intro c
  induction c with
  | zero =>
    intro a lo hi es used h b hb
    simp only [RepSeq] at h
    exact hP _ _ _ _ _ h b hb
  | succ c ih =>
    intro a lo hi es used h b hb
    simp only [RepSeq] at h
    obtain ⟨es1, es2, used1, used2, hP1, -, -, hrest, -, hused⟩ := h
    rw [hused] at hb
    rcases List.mem_append.mp hb with h1 | h2
    · exact hP _ _ _ _ _ hP1 b h1
    · exact ih _ _ _ _ _ hrest b h2

/-- No represented subtree occupies block 0. -/
theorem RepSub_used_nz {s : Index} :
    ∀ fuel id lo hi es used, RepSub s fuel id lo hi es used →
      ∀ b ∈ used, b ≠ 0 := by
  intro fuel
  induction fuel with
  | zero => intro id lo hi es used h; exact h.elim
  | succ f ih =>
    intro id lo hi es used h b hb
    simp only [RepSub] at h
    obtain ⟨hok, hrest⟩ := h
    by_cases hl : (s.blocks id).leaf = true
    · rw [if_pos hl] at hrest
      rw [hrest.1] at hb
      rw [List.mem_singleton.mp hb]
      exact hok.1
    · rw [if_neg hl] at hrest
      obtain ⟨used2, hseq, hu⟩ := hrest
      rw [hu] at hb
      rcases List.mem_cons.mp hb with h1 | h2
      · rw [h1]
        exact hok.1
      · exact RepSeq_used (s.blocks id) (fun x => x ≠ 0)
          (fun id2 lo2 hi2 es2 u2 h2 => ih id2 lo2 hi2 es2 u2 h2)
          _ _ _ _ _ _ hseq b h2

/-- Every child slot covered by a chain roots a `P`-subtree whose blocks
are part of the chain footprint. -/
theorem RepSeq_child_sub
    {P : Nat → Option Nat → Option Nat → List (Nat × Nat) → List Nat → Prop}
    (nd : Node) :
    ∀ c a lo hi es used, RepSeq P nd a c lo hi es used →
      ∀ m, a ≤ m → m ≤ a + c →
        ∃ lo2 hi2 es2 u2, P (nd.children.getD m 0) lo2 hi2 es2 u2 ∧
          ∀ b ∈ u2, b ∈ used := by
  intro c
  induction c with
  | zero =>
    intro a lo hi es used h m h1 h2
    have hm : m = a := by omega
    subst hm
    simp only [RepSeq] at h
    exact ⟨lo, hi, es, used, h, fun b hb => hb⟩
  | succ c ih =>
    intro a lo hi es used h m h1 h2
    simp only [RepSeq] at h
    obtain ⟨es1, es2, used1, used2, hP1, -, -, hrest, -, hused⟩ := h
    subst hused
    by_cases hm : m = a
    · subst hm
      exact ⟨_, _, _, _, hP1, fun b hb => List.mem_append_left _ hb⟩
    · obtain ⟨lo2, hi2, es3, u3, hp, hsub⟩ :=
        ih (a + 1) _ _ _ _ hrest m (by omega) (by omega)
      exact ⟨lo2, hi2, es3, u3, hp,
        fun b hb => List.mem_append_right _ (hsub b hb)⟩

/-!
## Byte-codec lemmas
-/

theorem length_be8 (n : Nat) : (be8 n).length = 8 := rfl

theorem fromBe8_be8 {w : Nat} (h : w < 2 ^ 64) : fromBe8 (be8 w) = w := by
  simp only [fromBe8, be8, List.foldl]
  omega

theorem length_flatMap_be8 (ws : List Nat) :
    (ws.flatMap be8).length = 8 * ws.length := by
  induction ws with
  | nil => rfl
  | cons w t ih =>
    rw [List.flatMap_cons, List.length_append, ih, length_be8, List.length_cons]
    ring

theorem flatMap_be8_extract (ws : List Nat) : ∀ i, i < ws.length →
    ((ws.flatMap be8).drop (8 * i)).take 8 = be8 (ws.getD i 0) := by
  induction ws with
  | nil => intro i h; simp at h
  | cons w t ih =>
    intro i h
    cases i with
    | zero =>
      rw [List.flatMap_cons, Nat.mul_zero, List.drop_zero,
        List.take_append_of_le_length (by rw [length_be8]),
        show (8 : Nat) = (be8 w).length from rfl, List.take_length,
        List.getD_cons_zero]
    | succ i =>
      rw [List.flatMap_cons,
        show 8 * (i + 1) = (be8 w).length + 8 * i by rw [length_be8]; ring,
        List.drop_append, List.getD_cons_succ]
      exact ih i (by simpa using Nat.lt_of_succ_lt_succ (by simpa using h))

theorem serializeNode_eq {nd : Node} {bs : List Nat}
    (h : serializeNode nd = some bs) :
    bs = (wordsOf nd).flatMap be8 ++ List.replicate 24 0 ∧
      nd.keys.length = MAX_KEYS ∧ nd.values.length = MAX_KEYS ∧
      nd.children.length = MAX_CHILDREN ∧ ∀ w ∈ wordsOf nd, w < 2 ^ 64 := by
  unfold serializeNode at h
  split at h
  · cases h
    rename_i hc
    exact ⟨rfl, hc.1, hc.2.1, hc.2.2.1, hc.2.2.2⟩
  · cases h

theorem wordsOf_length {nd : Node} (h1 : nd.keys.length = MAX_KEYS)
    (h2 : nd.values.length = MAX_KEYS) (h3 : nd.children.length = MAX_CHILDREN) :
    (wordsOf nd).length = 61 := by
  simp [wordsOf, h1, h2, h3, MAX_KEYS, MAX_CHILDREN, DEGREE]

theorem serializeNode_length {nd : Node} {bs : List Nat}
    (h : serializeNode nd = some bs) : bs.length = BLOCK_SIZE := by
  obtain ⟨rfl, h1, h2, h3, -⟩ := serializeNode_eq h
  rw [List.length_append, length_flatMap_be8, wordsOf_length h1 h2 h3,
    List.length_replicate]
  rfl

theorem word_serialize {nd : Node} {bs : List Nat}
    (h : serializeNode nd = some bs) {i : Nat} (hi : i < 61) :
    word bs i = (wordsOf nd).getD i 0 := by
  obtain ⟨rfl, h1, h2, h3, hw⟩ := serializeNode_eq h
  have hlen : (wordsOf nd).length = 61 := wordsOf_length h1 h2 h3
  have hP : ((wordsOf nd).flatMap be8).length = 488 := by
    rw [length_flatMap_be8, hlen]
  unfold word
  rw [List.drop_append_eq_append_drop,
    List.take_append_of_le_length (by rw [List.length_drop, hP]; omega),
    flatMap_be8_extract _ i (by omega)]
  exact fromBe8_be8 (hw _ (getD_mem 0 (by omega)))

theorem deserialize_serialize {nd : Node} {bs : List Nat}
    (h : serializeNode nd = some bs) : deserializeNode bs = some nd := by
  have hlen := serializeNode_length h
  obtain ⟨-, h1, h2, h3, -⟩ := serializeNode_eq h
  have hword : ∀ i, i < 61 → word bs i = (wordsOf nd).getD i 0 :=
    fun i hi => word_serialize h hi
  have hkeys : (List.range MAX_KEYS).map (fun j => word bs (3 + j)) = nd.keys := by
    have : ∀ j ∈ List.range MAX_KEYS, word bs (3 + j) = nd.keys.getD j 0 := by
      intro j hj
      rw [List.mem_range] at hj
      have hj19 : j < 19 := by simpa [MAX_KEYS, DEGREE] using hj
      rw [hword (3 + j) (by omega)]
      show (nd.blockId :: nd.parentId :: nd.numKeys ::
        (nd.keys ++ nd.values ++ nd.children)).getD (3 + j) 0 = _
      rw [show 3 + j = (j + 1 + 1) + 1 by ring, List.getD_cons_succ,
        List.getD_cons_succ, List.getD_cons_succ, List.append_assoc,
        List.getD_append _ _ _ _ (by omega)]
    rw [List.map_congr_left this, show MAX_KEYS = nd.keys.length from h1.symm,
      map_getD_range]
  have hvals : (List.range MAX_KEYS).map
      (fun j => word bs (3 + MAX_KEYS + j)) = nd.values := by
    have : ∀ j ∈ List.range MAX_KEYS,
        word bs (3 + MAX_KEYS + j) = nd.values.getD j 0 := by
      intro j hj
      rw [List.mem_range] at hj
      have hj19 : j < 19 := by simpa [MAX_KEYS, DEGREE] using hj
      rw [hword (3 + MAX_KEYS + j) (by simp [MAX_KEYS, DEGREE]; omega)]
      show (nd.blockId :: nd.parentId :: nd.numKeys ::
        (nd.keys ++ nd.values ++ nd.children)).getD (3 + MAX_KEYS + j) 0 = _
      rw [show 3 + MAX_KEYS + j = ((MAX_KEYS + j + 1) + 1) + 1 by ring,
        List.getD_cons_succ, List.getD_cons_succ, List.getD_cons_succ,
        List.append_assoc,
        List.getD_append_right _ _ _ _ (by omega),
        h1, Nat.add_sub_cancel_left,
        List.getD_append _ _ _ _ (by omega)]
    rw [List.map_congr_left this, show MAX_KEYS = nd.values.length from h2.symm,
      map_getD_range]
  have hchil : (List.range MAX_CHILDREN).map
      (fun j => word bs (3 + 2 * MAX_KEYS + j)) = nd.children := by
    have : ∀ j ∈ List.range MAX_CHILDREN,
        word bs (3 + 2 * MAX_KEYS + j) = nd.children.getD j 0 := by
      intro j hj
      rw [List.mem_range] at hj
      have hj20 : j < 20 := by simpa [MAX_CHILDREN, DEGREE] using hj
      rw [hword (3 + 2 * MAX_KEYS + j) (by simp [MAX_KEYS, DEGREE]; omega)]
      show (nd.blockId :: nd.parentId :: nd.numKeys ::
        (nd.keys ++ nd.values ++ nd.children)).getD (3 + 2 * MAX_KEYS + j) 0 = _
      rw [show 3 + 2 * MAX_KEYS + j = ((2 * MAX_KEYS + j + 1) + 1) + 1 by ring,
        List.getD_cons_succ, List.getD_cons_succ, List.getD_cons_succ,
        List.getD_append_right _ _ _ _
          (by rw [List.length_append, h1, h2]; omega),
        List.length_append, h1, h2]
      congr 1
      omega
    rw [List.map_congr_left this,
      show MAX_CHILDREN = nd.children.length from h3.symm, map_getD_range]
  unfold deserializeNode
  rw [if_neg (by rw [hlen]; simp [BLOCK_SIZE])]
  have h0 : word bs 0 = nd.blockId := by rw [hword 0 (by omega)]; rfl
  have hp : word bs 1 = nd.parentId := by rw [hword 1 (by omega)]; rfl
  have hn : word bs 2 = nd.numKeys := by rw [hword 2 (by omega)]; rfl
  cases nd
  simp_all

theorem logicalEq_eq {n1 n2 : Node} (h : LogicalEq n1 n2) : n1 = n2 := by
  obtain ⟨hb, hp, hn, k1, k2, v1, v2, c1, c2, hk, hv, hk0, hv0, hc, hc0⟩ := h
  have hkeys : n1.keys = n2.keys := by
    refine list_eq_of_getD (k1.trans k2.symm) fun i => ?_
    by_cases hi : i < n1.numKeys
    · exact hk i hi
    · rw [(hk0 i (le_of_not_lt hi)).1, (hk0 i (le_of_not_lt hi)).2]
  have hvals : n1.values = n2.values := by
    refine list_eq_of_getD (v1.trans v2.symm) fun i => ?_
    by_cases hi : i < n1.numKeys
    · exact hv i hi
    · rw [(hv0 i (le_of_not_lt hi)).1, (hv0 i (le_of_not_lt hi)).2]
  have hchil : n1.children = n2.children := by
    refine list_eq_of_getD (c1.trans c2.symm) fun i => ?_
    by_cases hi : i < n1.numKeys + 1
    · exact hc i hi
    · rw [(hc0 i (le_of_not_lt hi)).1, (hc0 i (le_of_not_lt hi)).2]
  cases n1; cases n2; simp_all

/-- C6: node serialization always produces exactly 512 bytes,
deserializing a serialized node reconstructs the identical node, and two
nodes with the same logical state serialize to byte-identical blocks. -/
theorem c6_codec (nd n1 n2 : Node) (bs : List Nat)
    (h : serializeNode nd = some bs) (heq : LogicalEq n1 n2) :
    bs.length = BLOCK_SIZE ∧ deserializeNode bs = some nd ∧
      serializeNode n1 = serializeNode n2 :=
  ⟨serializeNode_length h, deserialize_serialize h,
    congrArg serializeNode (logicalEq_eq heq)⟩

set_option maxRecDepth 8192 in
theorem c6_witness :
    ((serializeNode Node.new).getD []).length = BLOCK_SIZE ∧
      deserializeNode ((serializeNode Node.new).getD []) = some Node.new ∧
      serializeNode Node.new = serializeNode Node.new := by
  have hl : LogicalEq Node.new Node.new := by
    refine ⟨rfl, rfl, rfl, by decide, by decide, by decide, by decide,
      by decide, by decide, fun i _ => rfl, fun i _ => rfl,
      fun i _ => ?_, fun i _ => ?_, fun i _ => rfl, fun i _ => ?_⟩
    · exact ⟨getD_replicate_zero _ _, getD_replicate_zero _ _⟩
    · exact ⟨getD_replicate_zero _ _, getD_replicate_zero _ _⟩
    · exact ⟨getD_replicate_zero _ _, getD_replicate_zero _ _⟩
  exact c6_codec Node.new Node.new Node.new ((serializeNode Node.new).getD [])
    (by decide) hl

/-!
## Characterization of the split loops
-/

theorem moveKV_spec (c0 z0 : Node) (hck : c0.keys.length = 19)
    (hcv : c0.values.length = 19) (hzk : z0.keys.length = 19)
    (hzv : z0.values.length = 19) :
    ∀ n, n ≤ 9 →
      (moveKV c0 z0 n).1.blockId = c0.blockId ∧
      (moveKV c0 z0 n).1.parentId = c0.parentId ∧
      (moveKV c0 z0 n).1.numKeys = c0.numKeys ∧
      (moveKV c0 z0 n).1.children = c0.children ∧
      (moveKV c0 z0 n).2.blockId = z0.blockId ∧
      (moveKV c0 z0 n).2.parentId = z0.parentId ∧
      (moveKV c0 z0 n).2.numKeys = z0.numKeys ∧
      (moveKV c0 z0 n).2.children = z0.children ∧
      (moveKV c0 z0 n).1.keys.length = 19 ∧
      (moveKV c0 z0 n).1.values.length = 19 ∧
      (moveKV c0 z0 n).2.keys.length = 19 ∧
      (moveKV c0 z0 n).2.values.length = 19 ∧
      (∀ m, (moveKV c0 z0 n).1.keys.getD m 0 =
        if DEGREE ≤ m ∧ m < DEGREE + n then 0 else c0.keys.getD m 0) ∧
      (∀ m, (moveKV c0 z0 n).1.values.getD m 0 =
        if DEGREE ≤ m ∧ m < DEGREE + n then 0 else c0.values.getD m 0) ∧
      (∀ m, (moveKV c0 z0 n).2.keys.getD m 0 =
        if m < n then c0.keys.getD (m + DEGREE) 0 else z0.keys.getD m 0) ∧
      (∀ m, (moveKV c0 z0 n).2.values.getD m 0 =
        if m < n then c0.values.getD (m + DEGREE) 0 else z0.values.getD m 0) := by
  intro n
  induction n with
  | zero =>
    intro _
    exact ⟨rfl, rfl, rfl, rfl, rfl, rfl, rfl, rfl, hck, hcv, hzk, hzv,
      fun m => by rw [if_neg (by omega)]; rfl,
      fun m => by rw [if_neg (by omega)]; rfl,
      fun m => by rw [if_neg (by omega)]; rfl,
      fun m => by rw [if_neg (by omega)]; rfl⟩
  | succ n ih =>
    intro hn
    obtain ⟨b1, b2, b3, b4, b5, b6, b7, b8, l1, l2, l3, l4, k1, v1, k2, v2⟩ :=
      ih (by omega)
    simp only [moveKV]
    refine ⟨b1, b2, b3, b4, b5, b6, b7, b8, ?_, ?_, ?_, ?_,
      fun m => ?_, fun m => ?_, fun m => ?_, fun m => ?_⟩
    · rw [List.length_set]; exact l1
    · rw [List.length_set]; exact l2
    · rw [List.length_set]; exact l3
    · rw [List.length_set]; exact l4
    · by_cases hm : m = n + DEGREE
      · subst hm
        rw [getD_set_self _ _ (by rw [l1]; simp only [DEGREE]; omega),
          if_pos (by omega)]
      · rw [getD_set_ne _ _ (fun h => hm h.symm), k1]
        by_cases h1 : DEGREE ≤ m ∧ m < DEGREE + n
        · rw [if_pos h1, if_pos (by omega)]
        · rw [if_neg h1, if_neg (by omega)]
    · by_cases hm : m = n + DEGREE
      · subst hm
        rw [getD_set_self _ _ (by rw [l2]; simp only [DEGREE]; omega),
          if_pos (by omega)]
      · rw [getD_set_ne _ _ (fun h => hm h.symm), v1]
        by_cases h1 : DEGREE ≤ m ∧ m < DEGREE + n
        · rw [if_pos h1, if_pos (by omega)]
        · rw [if_neg h1, if_neg (by omega)]
    · by_cases hm : m = n
      · subst hm
        rw [getD_set_self _ _ (by rw [l3]; omega), k1,
          if_neg (by omega), if_pos (by omega)]
      · rw [getD_set_ne _ _ (fun h => hm h.symm), k2]
        by_cases h1 : m < n
        · rw [if_pos h1, if_pos (by omega)]
        · rw [if_neg h1, if_neg (by omega)]
    · by_cases hm : m = n
      · subst hm
        rw [getD_set_self _ _ (by rw [l4]; omega), v1,
          if_neg (by omega), if_pos (by omega)]
      · rw [getD_set_ne _ _ (fun h => hm h.symm), v2]
        by_cases h1 : m < n
        · rw [if_pos h1, if_pos (by omega)]
        · rw [if_neg h1, if_neg (by omega)]

theorem moveChildren_spec (s0 : Index) (c0 z0 : Node)
    (hcc : c0.children.length = 20) (hzc : z0.children.length = 20)
    (hown : ∀ j, j < 10 → c0.children.getD (j + DEGREE) 0 ≠ 0 →
      (s0.blocks (c0.children.getD (j + DEGREE) 0)).blockId =
        c0.children.getD (j + DEGREE) 0) :
    ∀ n, n ≤ 10 →
      (moveChildren s0 c0 z0 n).2.1.blockId = c0.blockId ∧
      (moveChildren s0 c0 z0 n).2.1.parentId = c0.parentId ∧
      (moveChildren s0 c0 z0 n).2.1.numKeys = c0.numKeys ∧
      (moveChildren s0 c0 z0 n).2.1.keys = c0.keys ∧
      (moveChildren s0 c0 z0 n).2.1.values = c0.values ∧
      (moveChildren s0 c0 z0 n).2.2.blockId = z0.blockId ∧
      (moveChildren s0 c0 z0 n).2.2.parentId = z0.parentId ∧
      (moveChildren s0 c0 z0 n).2.2.numKeys = z0.numKeys ∧
      (moveChildren s0 c0 z0 n).2.2.keys = z0.keys ∧
      (moveChildren s0 c0 z0 n).2.2.values = z0.values ∧
      (moveChildren s0 c0 z0 n).2.1.children.length = 20 ∧
      (moveChildren s0 c0 z0 n).2.2.children.length = 20 ∧
      (∀ m, (moveChildren s0 c0 z0 n).2.1.children.getD m 0 =
        if DEGREE ≤ m ∧ m < DEGREE + n then 0 else c0.children.getD m 0) ∧
      (∀ m, (moveChildren s0 c0 z0 n).2.2.children.getD m 0 =
        if m < n then c0.children.getD (m + DEGREE) 0
        else z0.children.getD m 0) ∧
      (moveChildren s0 c0 z0 n).1.rootId = s0.rootId ∧
      (moveChildren s0 c0 z0 n).1.nextBlockId = s0.nextBlockId ∧
      (moveChildren s0 c0 z0 n).1.storedRoot = s0.storedRoot ∧
      (moveChildren s0 c0 z0 n).1.storedNext = s0.storedNext ∧
      (∀ b, (∀ j, j < n → c0.children.getD (j + DEGREE) 0 ≠ b) →
        (moveChildren s0 c0 z0 n).1.blocks b = s0.blocks b) ∧
      (∀ j, j < n → c0.children.getD (j + DEGREE) 0 ≠ 0 →
        (moveChildren s0 c0 z0 n).1.blocks (c0.children.getD (j + DEGREE) 0) =
          { s0.blocks (c0.children.getD (j + DEGREE) 0) with
              parentId := z0.blockId }) := by
  intro n
  induction n with
  | zero =>
    intro _
    exact ⟨rfl, rfl, rfl, rfl, rfl, rfl, rfl, rfl, rfl, rfl, hcc, hzc,
      fun m => by rw [if_neg (by omega)]; rfl,
      fun m => by rw [if_neg (by omega)]; rfl,
      rfl, rfl, rfl, rfl, fun b _ => rfl, fun j hj => by omega⟩
  | succ n ih =>
    intro hn
    obtain ⟨b1, b2, b3, b4, b5, b6, b7, b8, b9, b10, l1, l2, cj, zj,
      st1, st2, st3, st4, fr, wr⟩ := ih (by omega)
    have hg0 : (moveChildren s0 c0 z0 n).2.1.children.getD (n + DEGREE) 0 =
        c0.children.getD (n + DEGREE) 0 := by
      rw [cj, if_neg (by omega)]
    have hprevid : c0.children.getD (n + DEGREE) 0 ≠ 0 →
        ((moveChildren s0 c0 z0 n).1.blocks
          (c0.children.getD (n + DEGREE) 0)).blockId =
        c0.children.getD (n + DEGREE) 0 := by
      intro hne
      by_cases hdup : ∀ j, j < n →
        c0.children.getD (j + DEGREE) 0 ≠ c0.children.getD (n + DEGREE) 0
      · rw [fr _ hdup]
        exact hown n (by omega) hne
      · push_neg at hdup
        obtain ⟨j, hj, hje⟩ := hdup
        rw [← hje, wr j hj (by rw [hje]; exact hne), hje]
        exact hown n (by omega) hne
    have hprevval : c0.children.getD (n + DEGREE) 0 ≠ 0 →
        { (moveChildren s0 c0 z0 n).1.blocks
            (c0.children.getD (n + DEGREE) 0) with
            parentId := z0.blockId } =
        { s0.blocks (c0.children.getD (n + DEGREE) 0) with
            parentId := z0.blockId } := by
      intro hne
      by_cases hdup : ∀ j, j < n →
        c0.children.getD (j + DEGREE) 0 ≠ c0.children.getD (n + DEGREE) 0
      · rw [fr _ hdup]
      · push_neg at hdup
        obtain ⟨j, hj, hje⟩ := hdup
        rw [← hje, wr j hj (by rw [hje]; exact hne), hje]
    simp only [moveChildren]
    rw [hg0, getD_set_self _ _
      (show n < (moveChildren s0 c0 z0 n).2.2.children.length by
        rw [l2]; omega)]
    refine ⟨b1, b2, b3, b4, b5, b6, b7, b8, b9, b10, ?_, ?_,
      fun m => ?_, fun m => ?_, ?_, ?_, ?_, ?_, fun b hb => ?_,
      fun j hj hjne => ?_⟩
    · rw [List.length_set]; exact l1
    · rw [List.length_set]; exact l2
    · by_cases hm : m = n + DEGREE
      · subst hm
        rw [getD_set_self _ _
          (by rw [l1]; simp only [DEGREE] at hn ⊢; omega),
          if_pos (by omega)]
      · rw [getD_set_ne _ _ (fun h => hm h.symm), cj]
        by_cases h1 : DEGREE ≤ m ∧ m < DEGREE + n
        · rw [if_pos h1, if_pos (by omega)]
        · rw [if_neg h1, if_neg (by omega)]
    · by_cases hm : m = n
      · subst hm
        rw [getD_set_self _ _ (by rw [l2]; omega), if_pos (by omega)]
      · rw [getD_set_ne _ _ (fun h => hm h.symm), zj]
        by_cases h1 : m < n
        · rw [if_pos h1, if_pos (by omega)]
        · rw [if_neg h1, if_neg (by omega)]
    · by_cases hg : c0.children.getD (n + DEGREE) 0 = 0
      · rw [if_neg (not_not_intro hg)]; exact st1
      · rw [if_pos hg]
        simp only [readNode, if_neg hg, writeNode]
        exact st1
    · by_cases hg : c0.children.getD (n + DEGREE) 0 = 0
      · rw [if_neg (not_not_intro hg)]; exact st2
      · rw [if_pos hg]
        simp only [readNode, if_neg hg, writeNode]
        exact st2
    · by_cases hg : c0.children.getD (n + DEGREE) 0 = 0
      · rw [if_neg (not_not_intro hg)]; exact st3
      · rw [if_pos hg]
        simp only [readNode, if_neg hg, writeNode]
        exact st3
    · by_cases hg : c0.children.getD (n + DEGREE) 0 = 0
      · rw [if_neg (not_not_intro hg)]; exact st4
      · rw [if_pos hg]
        simp only [readNode, if_neg hg, writeNode]
        exact st4
    · by_cases hg : c0.children.getD (n + DEGREE) 0 = 0
      · rw [if_neg (not_not_intro hg)]
        exact fr b (fun j hj => hb j (by omega))
      · rw [if_pos hg]
        simp only [readNode, if_neg hg, writeNode]
        rw [if_neg (by rw [hprevid hg]; exact fun h => hb n (by omega) h.symm)]
        exact fr b (fun j hj => hb j (by omega))
    · by_cases hg : c0.children.getD (n + DEGREE) 0 = 0
      · rw [if_neg (not_not_intro hg)]
        by_cases hjn : j < n
        · exact wr j hjn hjne
        · exact absurd hg (by rw [show n = j by omega]; exact hjne)
      · rw [if_pos hg]
        simp only [readNode, if_neg hg, writeNode]
        by_cases hje : c0.children.getD (j + DEGREE) 0 =
          c0.children.getD (n + DEGREE) 0
        · rw [hje, if_pos (hprevid hg).symm, b6]
          exact hprevval hg
        · have hjn : j < n := by
            by_cases h : j = n
            · exact absurd (by rw [h]) hje
            · omega
          rw [if_neg (by rw [hprevid hg]; exact fun h => hje h)]
          exact wr j hjn hjne

theorem shiftChildren_spec (cs : List Nat) (index : Nat) :
    ∀ n, index + n + 2 ≤ cs.length →
      (shiftChildren cs index n).length = cs.length ∧
      ∀ m, (shiftChildren cs index n).getD m 0 =
        if index + 2 ≤ m ∧ m < index + n + 2 then cs.getD (m - 1) 0
        else cs.getD m 0 := by
  intro n
  induction n generalizing cs with
  | zero =>
    intro _
    exact ⟨rfl, fun m => by rw [if_neg (by omega)]; rfl⟩
  | succ n ih =>
    intro hlen
    obtain ⟨ihl, ihm⟩ := ih (cs.set (index + n + 2) (cs.getD (index + n + 1) 0))
      (by rw [List.length_set]; omega)
    simp only [shiftChildren]
    constructor
    · rw [show index + n + 1 + 1 = index + n + 2 by ring] at *
      rw [ihl, List.length_set]
    · intro m
      rw [show index + n + 1 + 1 = index + n + 2 by ring] at *
      rw [ihm m]
      by_cases h1 : index + 2 ≤ m ∧ m < index + n + 2
      · rw [if_pos h1, if_pos (by omega),
          getD_set_ne _ _ (by omega : index + n + 2 ≠ m - 1)]
      · rw [if_neg h1]
        by_cases h2 : m = index + n + 2
        · subst h2
          rw [getD_set_self _ _ (by omega), if_pos (by omega),
            show index + n + 2 - 1 = index + n + 1 from by omega]
        · rw [getD_set_ne _ _ (fun h => h2 h.symm), if_neg (by omega)]

theorem shiftKV_spec (ks vs : List Nat) (index : Nat) :
    ∀ n, index + n + 1 ≤ ks.length → index + n + 1 ≤ vs.length →
      (shiftKV ks vs index n).1.length = ks.length ∧
      (shiftKV ks vs index n).2.length = vs.length ∧
      (∀ m, (shiftKV ks vs index n).1.getD m 0 =
        if index + 1 ≤ m ∧ m < index + n + 1 then ks.getD (m - 1) 0
        else ks.getD m 0) ∧
      (∀ m, (shiftKV ks vs index n).2.getD m 0 =
        if index + 1 ≤ m ∧ m < index + n + 1 then vs.getD (m - 1) 0
        else vs.getD m 0) := by
  intro n
  induction n generalizing ks vs with
  | zero =>
    intro _ _
    exact ⟨rfl, rfl, fun m => by rw [if_neg (by omega)]; rfl,
      fun m => by rw [if_neg (by omega)]; rfl⟩
  | succ n ih =>
    intro hk hv
    obtain ⟨ihk, ihv, ihm1, ihm2⟩ :=
      ih (ks.set (index + n + 1) (ks.getD (index + n) 0))
        (vs.set (index + n + 1) (vs.getD (index + n) 0))
        (by rw [List.length_set]; omega) (by rw [List.length_set]; omega)
    simp only [shiftKV]
    refine ⟨by rw [ihk, List.length_set], by rw [ihv, List.length_set],
      fun m => ?_, fun m => ?_⟩
    · rw [ihm1 m]
      by_cases h1 : index + 1 ≤ m ∧ m < index + n + 1
      · rw [if_pos h1, if_pos (by omega),
          getD_set_ne _ _ (by omega : index + n + 1 ≠ m - 1)]
      · rw [if_neg h1]
        by_cases h2 : m = index + n + 1
        · subst h2
          rw [getD_set_self _ _ (by omega), if_pos (by omega),
            show index + n + 1 - 1 = index + n from by omega]
        · rw [getD_set_ne _ _ (fun h => h2 h.symm), if_neg (by omega)]
    · rw [ihm2 m]
      by_cases h1 : index + 1 ≤ m ∧ m < index + n + 1
      · rw [if_pos h1, if_pos (by omega),
          getD_set_ne _ _ (by omega : index + n + 1 ≠ m - 1)]
      · rw [if_neg h1]
        by_cases h2 : m = index + n + 1
        · subst h2
          rw [getD_set_self _ _ (by omega), if_pos (by omega),
            show index + n + 1 - 1 = index + n from by omega]
        · rw [getD_set_ne _ _ (fun h => h2 h.symm), if_neg (by omega)]

theorem writeNode_blocks (s : Index) (nd : Node) (b : Nat) :
    (writeNode s nd).blocks b = if b = nd.blockId then nd else s.blocks b := rfl

/-- The effect of the three final writes of `split_child` (child, sibling,
parent, in that order) on the block map, given the three ids are
distinct. -/
theorem threeWrites_spec (s2 : Index) (a b d : Node)
    (hab : a.blockId ≠ b.blockId) (had : a.blockId ≠ d.blockId)
    (hbd : b.blockId ≠ d.blockId) :
    (writeNode (writeNode (writeNode s2 a) b) d).rootId = s2.rootId ∧
    (writeNode (writeNode (writeNode s2 a) b) d).nextBlockId = s2.nextBlockId ∧
    (writeNode (writeNode (writeNode s2 a) b) d).storedRoot = s2.storedRoot ∧
    (writeNode (writeNode (writeNode s2 a) b) d).storedNext = s2.storedNext ∧
    (writeNode (writeNode (writeNode s2 a) b) d).blocks a.blockId = a ∧
    (writeNode (writeNode (writeNode s2 a) b) d).blocks b.blockId = b ∧
    (writeNode (writeNode (writeNode s2 a) b) d).blocks d.blockId = d ∧
    (∀ q, q ≠ a.blockId → q ≠ b.blockId → q ≠ d.blockId →
      (writeNode (writeNode (writeNode s2 a) b) d).blocks q = s2.blocks q) := by
  refine ⟨rfl, rfl, rfl, rfl, ?_, ?_, ?_, fun q hqa hqb hqd => ?_⟩
  · rw [writeNode_blocks, if_neg had, writeNode_blocks, if_neg hab,
      writeNode_blocks, if_pos rfl]
  · rw [writeNode_blocks, if_neg hbd, writeNode_blocks, if_pos rfl]
  · rw [writeNode_blocks, if_pos rfl]
  · rw [writeNode_blocks, if_neg hqd, writeNode_blocks, if_neg hqb,
      writeNode_blocks, if_neg hqa]

theorem parentUpdate_keys (p : Node) (i : Nat) (medK : Nat)
    (hpk : p.keys.length = 19) (hpv : p.values.length = 19)
    (hi : i ≤ p.numKeys) (hpn : p.numKeys ≤ 18) (m : Nat) :
    ((shiftKV p.keys p.values i (p.numKeys - i)).1.set i medK).getD m 0 =
      if m = i then medK
      else if i + 1 ≤ m ∧ m < p.numKeys + 1 then p.keys.getD (m - 1) 0
      else p.keys.getD m 0 := by
  obtain ⟨l1, l2, g1, g2⟩ := shiftKV_spec p.keys p.values i (p.numKeys - i)
    (by omega) (by omega)
  by_cases hm : m = i
  · subst hm
    rw [getD_set_self _ _ (by rw [l1, hpk]; omega), if_pos rfl]
  · rw [getD_set_ne _ _ (fun h => hm h.symm), g1, if_neg hm]
    by_cases h1 : i + 1 ≤ m ∧ m < i + (p.numKeys - i) + 1
    · rw [if_pos h1, if_pos (by omega)]
    · rw [if_neg h1, if_neg (by omega)]

theorem parentUpdate_values (p : Node) (i : Nat) (medV : Nat)
    (hpk : p.keys.length = 19) (hpv : p.values.length = 19)
    (hi : i ≤ p.numKeys) (hpn : p.numKeys ≤ 18) (m : Nat) :
    ((shiftKV p.keys p.values i (p.numKeys - i)).2.set i medV).getD m 0 =
      if m = i then medV
      else if i + 1 ≤ m ∧ m < p.numKeys + 1 then p.values.getD (m - 1) 0
      else p.values.getD m 0 := by
  obtain ⟨l1, l2, g1, g2⟩ := shiftKV_spec p.keys p.values i (p.numKeys - i)
    (by omega) (by omega)
  by_cases hm : m = i
  · subst hm
    rw [getD_set_self _ _ (by rw [l2, hpv]; omega), if_pos rfl]
  · rw [getD_set_ne _ _ (fun h => hm h.symm), g2, if_neg hm]
    by_cases h1 : i + 1 ≤ m ∧ m < i + (p.numKeys - i) + 1
    · rw [if_pos h1, if_pos (by omega)]
    · rw [if_neg h1, if_neg (by omega)]

theorem parentUpdate_children (p : Node) (i : Nat) (zb : Nat)
    (hpc : p.children.length = 20)
    (hi : i ≤ p.numKeys) (hpn : p.numKeys ≤ 18) (m : Nat) :
    ((shiftChildren p.children i (p.numKeys - i)).set (i + 1) zb).getD m 0 =
      if m = i + 1 then zb
      else if i + 2 ≤ m ∧ m < p.numKeys + 2 then p.children.getD (m - 1) 0
      else p.children.getD m 0 := by
  obtain ⟨l1, g1⟩ := shiftChildren_spec p.children i (p.numKeys - i)
    (by omega)
  by_cases hm : m = i + 1
  · subst hm
    rw [getD_set_self _ _ (by rw [l1, hpc]; omega), if_pos rfl]
  · rw [getD_set_ne _ _ (fun h => hm h.symm), g1, if_neg hm]
    by_cases h1 : i + 2 ≤ m ∧ m < i + (p.numKeys - i) + 2
    · rw [if_pos h1, if_pos (by omega)]
    · rw [if_neg h1, if_neg (by omega)]

/-- The full characterization of `split_child`: header effects, the slot
contents of the rewritten child, the new sibling and the updated parent,
the parent rewrites of relocated grandchildren, and the frame on all
other blocks. -/
theorem splitChild_spec (s : Index) (p : Node) (i : Nat) (c : Node)
    (hpk : p.keys.length = 19) (hpv : p.values.length = 19)
    (hpc : p.children.length = 20) (hck : c.keys.length = 19)
    (hcv : c.values.length = 19) (hcc : c.children.length = 20)
    (hi : i ≤ p.numKeys) (hpn : p.numKeys ≤ 18)
    (hcp : c.blockId ≠ p.blockId) (hcz : c.blockId ≠ s.nextBlockId)
    (hpz : p.blockId ≠ s.nextBlockId)
    (hown : ∀ j, j < 10 → c.children.getD (j + DEGREE) 0 ≠ 0 →
      (s.blocks (c.children.getD (j + DEGREE) 0)).blockId =
        c.children.getD (j + DEGREE) 0) :
    (splitChild s p i c).1.nextBlockId = s.nextBlockId + 1 ∧
    (splitChild s p i c).1.rootId = s.rootId ∧
    (splitChild s p i c).1.storedRoot = s.rootId ∧
    (splitChild s p i c).1.storedNext = s.nextBlockId + 1 ∧
    (splitChild s p i c).1.blocks p.blockId = (splitChild s p i c).2 ∧
    (splitChild s p i c).2.blockId = p.blockId ∧
    (splitChild s p i c).2.parentId = p.parentId ∧
    (splitChild s p i c).2.numKeys = p.numKeys + 1 ∧
    (splitChild s p i c).2.keys.length = 19 ∧
    (splitChild s p i c).2.values.length = 19 ∧
    (splitChild s p i c).2.children.length = 20 ∧
    (∀ m, (splitChild s p i c).2.keys.getD m 0 =
      if m = i then c.keys.getD 9 0
      else if i + 1 ≤ m ∧ m < p.numKeys + 1 then p.keys.getD (m - 1) 0
      else p.keys.getD m 0) ∧
    (∀ m, (splitChild s p i c).2.values.getD m 0 =
      if m = i then c.values.getD 9 0
      else if i + 1 ≤ m ∧ m < p.numKeys + 1 then p.values.getD (m - 1) 0
      else p.values.getD m 0) ∧
    (∀ m, (splitChild s p i c).2.children.getD m 0 =
      if m = i + 1 then s.nextBlockId
      else if i + 2 ≤ m ∧ m < p.numKeys + 2 then p.children.getD (m - 1) 0
      else p.children.getD m 0) ∧
    ((splitChild s p i c).1.blocks c.blockId).blockId = c.blockId ∧
    ((splitChild s p i c).1.blocks c.blockId).parentId = c.parentId ∧
    ((splitChild s p i c).1.blocks c.blockId).numKeys = 9 ∧
    ((splitChild s p i c).1.blocks c.blockId).keys.length = 19 ∧
    ((splitChild s p i c).1.blocks c.blockId).values.length = 19 ∧
    ((splitChild s p i c).1.blocks c.blockId).children.length = 20 ∧
    (∀ m, ((splitChild s p i c).1.blocks c.blockId).keys.getD m 0 =
      if m < 9 then c.keys.getD m 0 else 0) ∧
    (∀ m, ((splitChild s p i c).1.blocks c.blockId).values.getD m 0 =
      if m < 9 then c.values.getD m 0 else 0) ∧
    (c.leaf = true →
      ((splitChild s p i c).1.blocks c.blockId).children = c.children) ∧
    (c.leaf = false →
      ∀ m, ((splitChild s p i c).1.blocks c.blockId).children.getD m 0 =
        if 10 ≤ m then 0 else c.children.getD m 0) ∧
    ((splitChild s p i c).1.blocks s.nextBlockId).blockId = s.nextBlockId ∧
    ((splitChild s p i c).1.blocks s.nextBlockId).parentId = p.blockId ∧
    ((splitChild s p i c).1.blocks s.nextBlockId).numKeys = 9 ∧
    ((splitChild s p i c).1.blocks s.nextBlockId).keys.length = 19 ∧
    ((splitChild s p i c).1.blocks s.nextBlockId).values.length = 19 ∧
    ((splitChild s p i c).1.blocks s.nextBlockId).children.length = 20 ∧
    (∀ m, ((splitChild s p i c).1.blocks s.nextBlockId).keys.getD m 0 =
      if m < 9 then c.keys.getD (m + 10) 0 else 0) ∧
    (∀ m, ((splitChild s p i c).1.blocks s.nextBlockId).values.getD m 0 =
      if m < 9 then c.values.getD (m + 10) 0 else 0) ∧
    (c.leaf = true →
      ((splitChild s p i c).1.blocks s.nextBlockId).children =
        List.replicate 20 0) ∧
    (c.leaf = false →
      ∀ m, ((splitChild s p i c).1.blocks s.nextBlockId).children.getD m 0 =
        if m < 10 then c.children.getD (m + 10) 0 else 0) ∧
    (c.leaf = false → ∀ j, j < 10 → c.children.getD (j + DEGREE) 0 ≠ 0 →
      c.children.getD (j + DEGREE) 0 ≠ c.blockId →
      c.children.getD (j + DEGREE) 0 ≠ p.blockId →
      c.children.getD (j + DEGREE) 0 ≠ s.nextBlockId →
      (splitChild s p i c).1.blocks (c.children.getD (j + DEGREE) 0) =
        { s.blocks (c.children.getD (j + DEGREE) 0) with
            parentId := s.nextBlockId }) ∧
    (∀ b, b ≠ p.blockId → b ≠ c.blockId → b ≠ s.nextBlockId →
      (∀ j, j < 10 → c.children.getD (j + DEGREE) 0 ≠ b) →
      (splitChild s p i c).1.blocks b = s.blocks b) := by
  have hD : DEGREE = 10 := rfl
  have h91 : DEGREE - 1 = 9 := rfl
  simp only [splitChild, allocateNode, writeHeader, Node.new]
  set z1 : Node :=
    { blockId := s.nextBlockId, parentId := p.blockId,
      numKeys := DEGREE - 1, keys := List.replicate MAX_KEYS 0,
      values := List.replicate MAX_KEYS 0,
      children := List.replicate MAX_CHILDREN 0 } with hz1
  rw [h91]
  obtain ⟨mb1, mb2, mb3, mb4, mb5, mb6, mb7, mb8, ml1, ml2, ml3, ml4,
    mk1, mv1, mk2, mv2⟩ :=
    moveKV_spec c z1 hck hcv (by rw [hz1]; rfl) (by rw [hz1]; rfl) 9
      (by omega)
  have hz3id : (moveKV c z1 9).2.blockId = s.nextBlockId := by rw [mb5, hz1]
  obtain ⟨sl1, sl2, sg1, sg2⟩ := shiftKV_spec p.keys p.values i
    (p.numKeys - i) (by omega) (by omega)
  obtain ⟨scl, scg⟩ := shiftChildren_spec p.children i (p.numKeys - i)
    (by omega)
  have hleaf1 : (moveKV c z1 9).1.leaf = c.leaf := by
    unfold Node.leaf
    rw [mb4]
  rw [hleaf1]
  by_cases hcl : c.leaf = true
  · rw [if_pos hcl]
    dsimp only
    set s1 : Index :=
      { rootId := s.rootId, nextBlockId := s.nextBlockId + 1,
        storedRoot := s.rootId, storedNext := s.nextBlockId + 1,
        blocks := s.blocks } with hs1
    set c4 : Node :=
      { blockId := (moveKV c z1 9).1.blockId,
        parentId := (moveKV c z1 9).1.parentId, numKeys := 9,
        keys := (moveKV c z1 9).1.keys.set 9 0,
        values := (moveKV c z1 9).1.values.set 9 0,
        children := (moveKV c z1 9).1.children } with hc4
    set p2 : Node :=
      { blockId := p.blockId, parentId := p.parentId,
        numKeys := p.numKeys + 1,
        keys := (shiftKV p.keys p.values i (p.numKeys - i)).1.set i
          ((moveKV c z1 9).1.keys.getD 9 0),
        values := (shiftKV p.keys p.values i (p.numKeys - i)).2.set i
          ((moveKV c z1 9).1.values.getD 9 0),
        children := (shiftChildren p.children i (p.numKeys - i)).set (i + 1)
          (moveKV c z1 9).2.blockId } with hp2
    obtain ⟨t1, t2, t3, t4, t5, t6, t7, t8⟩ :=
      threeWrites_spec s1 c4 (moveKV c z1 9).2 p2
        (show (moveKV c z1 9).1.blockId ≠ (moveKV c z1 9).2.blockId from by
          rw [mb1, hz3id]; exact hcz)
        (show (moveKV c z1 9).1.blockId ≠ p.blockId from by
          rw [mb1]; exact hcp)
        (show (moveKV c z1 9).2.blockId ≠ p.blockId from by
          rw [hz3id]; exact fun h => hpz h.symm)
    have hbc : (writeNode (writeNode (writeNode s1 c4) (moveKV c z1 9).2)
        p2).blocks c.blockId = c4 := by
      rw [← mb1]; exact t5
    have hbz : (writeNode (writeNode (writeNode s1 c4) (moveKV c z1 9).2)
        p2).blocks s.nextBlockId = (moveKV c z1 9).2 := by
      rw [← hz3id]; exact t6
    refine ⟨t2, t1, t3, t4, t7, trivial, trivial, trivial, ?_, ?_, ?_,
      fun m => ?_, fun m => ?_, fun m => ?_,
      ?_, ?_, ?_, ?_, ?_, ?_, fun m => ?_, fun m => ?_, fun _ => ?_,
      fun h => ?_,
      ?_, ?_, ?_, ?_, ?_, ?_, fun m => ?_, fun m => ?_, fun _ => ?_,
      fun h => ?_, fun h => ?_,
      fun b hbp hbc2 hbz2 hgj => ?_⟩
    · rw [List.length_set, sl1, hpk]
    · rw [List.length_set, sl2, hpv]
    · rw [List.length_set, scl, hpc]
    · rw [parentUpdate_keys p i ((moveKV c z1 9).1.keys.getD 9 0) hpk hpv hi
        hpn m,
        show (moveKV c z1 9).1.keys.getD 9 0 = c.keys.getD 9 0 from by
          rw [mk1 9, if_neg (by omega)]]
    · rw [parentUpdate_values p i ((moveKV c z1 9).1.values.getD 9 0) hpk hpv
        hi hpn m,
        show (moveKV c z1 9).1.values.getD 9 0 = c.values.getD 9 0 from by
          rw [mv1 9, if_neg (by omega)]]
    · rw [parentUpdate_children p i ((moveKV c z1 9).2.blockId) hpc hi hpn m,
        hz3id]
    · rw [hbc]; exact mb1
    · rw [hbc]; exact mb2
    · rw [hbc]
    · rw [hbc]
      show ((moveKV c z1 9).1.keys.set 9 0).length = 19
      rw [List.length_set]; exact ml1
    · rw [hbc]
      show ((moveKV c z1 9).1.values.set 9 0).length = 19
      rw [List.length_set]; exact ml2
    · rw [hbc]
      show (moveKV c z1 9).1.children.length = 20
      rw [mb4]; exact hcc
    · rw [hbc]
      show ((moveKV c z1 9).1.keys.set 9 0).getD m 0 = _
      by_cases hm : m = 9
      · subst hm
        rw [getD_set_self _ _ (by rw [ml1]; omega), if_neg (by omega)]
      · rw [getD_set_ne _ _ (fun h2 => hm h2.symm), mk1 m]
        by_cases h1 : m < 9
        · rw [if_neg (by omega), if_pos h1]
        · rw [if_neg h1]
          by_cases h2 : m < 19
          · rw [if_pos (by omega)]
          · rw [if_neg (by omega), getD_of_le _ (by rw [hck]; omega)]
    · rw [hbc]
      show ((moveKV c z1 9).1.values.set 9 0).getD m 0 = _
      by_cases hm : m = 9
      · subst hm
        rw [getD_set_self _ _ (by rw [ml2]; omega), if_neg (by omega)]
      · rw [getD_set_ne _ _ (fun h2 => hm h2.symm), mv1 m]
        by_cases h1 : m < 9
        · rw [if_neg (by omega), if_pos h1]
        · rw [if_neg h1]
          by_cases h2 : m < 19
          · rw [if_pos (by omega)]
          · rw [if_neg (by omega), getD_of_le _ (by rw [hcv]; omega)]
    · rw [hbc]
      show (moveKV c z1 9).1.children = c.children
      exact mb4
    · rw [h] at hcl
      exact absurd hcl (by decide)
    · rw [hbz]; exact hz3id
    · rw [hbz, mb6, hz1]
    · rw [hbz, mb7, hz1]; exact h91
    · rw [hbz]; exact ml3
    · rw [hbz]; exact ml4
    · rw [hbz, mb8, hz1]; exact rfl
    · rw [hbz, mk2 m, hD]
      by_cases h1 : m < 9
      · rw [if_pos h1, if_pos h1]
      · rw [if_neg h1, if_neg h1, hz1]
        exact getD_replicate_zero _ _
    · rw [hbz, mv2 m, hD]
      by_cases h1 : m < 9
      · rw [if_pos h1, if_pos h1]
      · rw [if_neg h1, if_neg h1, hz1]
        exact getD_replicate_zero _ _
    · rw [hbz, mb8, hz1]; exact rfl
    · rw [h] at hcl
      exact absurd hcl (by decide)
    · rw [h] at hcl
      exact absurd hcl (by decide)
    · exact t8 b (fun h2 => hbc2 (h2.trans mb1))
        (fun h2 => hbz2 (h2.trans hz3id)) hbp
  · rw [if_neg hcl]
    set s1 : Index :=
      { rootId := s.rootId, nextBlockId := s.nextBlockId + 1,
        storedRoot := s.rootId, storedNext := s.nextBlockId + 1,
        blocks := s.blocks } with hs1
    obtain ⟨q1, q2, q3, q4, q5, q6, q7, q8, q9, q10, ql1, ql2, qc, qz,
      qs1, qs2, qs3, qs4, qfr, qwr⟩ :=
      moveChildren_spec s1 (moveKV c z1 9).1 (moveKV c z1 9).2
        (by rw [mb4]; exact hcc)
        (by rw [mb8, hz1]; rfl)
        (fun j hj hne => by
          rw [mb4] at hne ⊢
          exact hown j hj hne)
        DEGREE (by omega)
    have hc1id : (moveChildren s1 (moveKV c z1 9).1 (moveKV c z1 9).2
        DEGREE).2.1.blockId = c.blockId := q1.trans mb1
    have hz3id2 : (moveChildren s1 (moveKV c z1 9).1 (moveKV c z1 9).2
        DEGREE).2.2.blockId = s.nextBlockId := q6.trans hz3id
    rw [mb4] at qfr qwr
    rw [hz3id] at qwr
    set c4 : Node :=
      { blockId := (moveChildren s1 (moveKV c z1 9).1 (moveKV c z1 9).2
          DEGREE).2.1.blockId,
        parentId := (moveChildren s1 (moveKV c z1 9).1 (moveKV c z1 9).2
          DEGREE).2.1.parentId,
        numKeys := 9,
        keys := (moveChildren s1 (moveKV c z1 9).1 (moveKV c z1 9).2
          DEGREE).2.1.keys.set 9 0,
        values := (moveChildren s1 (moveKV c z1 9).1 (moveKV c z1 9).2
          DEGREE).2.1.values.set 9 0,
        children := (moveChildren s1 (moveKV c z1 9).1 (moveKV c z1 9).2
          DEGREE).2.1.children } with hc4
    set p2 : Node :=
      { blockId := p.blockId, parentId := p.parentId,
        numKeys := p.numKeys + 1,
        keys := (shiftKV p.keys p.values i (p.numKeys - i)).1.set i
          ((moveChildren s1 (moveKV c z1 9).1 (moveKV c z1 9).2
            DEGREE).2.1.keys.getD 9 0),
        values := (shiftKV p.keys p.values i (p.numKeys - i)).2.set i
          ((moveChildren s1 (moveKV c z1 9).1 (moveKV c z1 9).2
            DEGREE).2.1.values.getD 9 0),
        children := (shiftChildren p.children i (p.numKeys - i)).set (i + 1)
          (moveChildren s1 (moveKV c z1 9).1 (moveKV c z1 9).2
            DEGREE).2.2.blockId } with hp2
    obtain ⟨t1, t2, t3, t4, -, -, -, t8⟩ :=
      threeWrites_spec
        (moveChildren s1 (moveKV c z1 9).1 (moveKV c z1 9).2 DEGREE).1 c4
        (moveChildren s1 (moveKV c z1 9).1 (moveKV c z1 9).2 DEGREE).2.2 p2
        (show (moveChildren s1 (moveKV c z1 9).1 (moveKV c z1 9).2
            DEGREE).2.1.blockId ≠ (moveChildren s1 (moveKV c z1 9).1
            (moveKV c z1 9).2 DEGREE).2.2.blockId from by
          rw [hc1id, hz3id2]; exact hcz)
        (show (moveChildren s1 (moveKV c z1 9).1 (moveKV c z1 9).2
            DEGREE).2.1.blockId ≠ p.blockId from by
          rw [hc1id]; exact hcp)
        (show (moveChildren s1 (moveKV c z1 9).1 (moveKV c z1 9).2
            DEGREE).2.2.blockId ≠ p.blockId from by
          rw [hz3id2]; exact fun h => hpz h.symm)
    have hbc : (writeNode (writeNode (writeNode
        (moveChildren s1 (moveKV c z1 9).1 (moveKV c z1 9).2 DEGREE).1 c4)
        (moveChildren s1 (moveKV c z1 9).1 (moveKV c z1 9).2 DEGREE).2.2)
        p2).blocks c.blockId = c4 := by
      rw [writeNode_blocks, if_neg (show c.blockId ≠ p2.blockId from hcp),
        writeNode_blocks,
        if_neg (show c.blockId ≠ (moveChildren s1 (moveKV c z1 9).1
          (moveKV c z1 9).2 DEGREE).2.2.blockId from
          fun h => hcz (h.trans hz3id2)),
        writeNode_blocks,
        if_pos (show c.blockId = c4.blockId from hc1id.symm)]
    have hbz : (writeNode (writeNode (writeNode
        (moveChildren s1 (moveKV c z1 9).1 (moveKV c z1 9).2 DEGREE).1 c4)
        (moveChildren s1 (moveKV c z1 9).1 (moveKV c z1 9).2 DEGREE).2.2)
        p2).blocks s.nextBlockId =
        (moveChildren s1 (moveKV c z1 9).1 (moveKV c z1 9).2 DEGREE).2.2 := by
      rw [writeNode_blocks,
        if_neg (show s.nextBlockId ≠ p2.blockId from
          fun h => hpz h.symm),
        writeNode_blocks,
        if_pos (show s.nextBlockId = (moveChildren s1 (moveKV c z1 9).1
          (moveKV c z1 9).2 DEGREE).2.2.blockId from hz3id2.symm)]
    have hbp3 : (writeNode (writeNode (writeNode
        (moveChildren s1 (moveKV c z1 9).1 (moveKV c z1 9).2 DEGREE).1 c4)
        (moveChildren s1 (moveKV c z1 9).1 (moveKV c z1 9).2 DEGREE).2.2)
        p2).blocks p.blockId = p2 := by
      rw [writeNode_blocks, if_pos (show p.blockId = p2.blockId from rfl)]
    refine ⟨?_, ?_, ?_, ?_, hbp3, trivial, trivial, trivial, ?_, ?_, ?_,
      fun m => ?_, fun m => ?_, fun m => ?_,
      ?_, ?_, ?_, ?_, ?_, ?_, fun m => ?_, fun m => ?_, fun h => ?_,
      fun h => ?_,
      ?_, ?_, ?_, ?_, ?_, ?_, fun m => ?_, fun m => ?_, fun h => ?_,
      fun h => ?_, fun h => ?_,
      fun b hbp hbc2 hbz2 hgj => ?_⟩
    · rw [t2]; exact qs2
    · rw [t1]; exact qs1
    · rw [t3]; exact qs3
    · rw [t4]; exact qs4
    · rw [List.length_set, sl1, hpk]
    · rw [List.length_set, sl2, hpv]
    · rw [List.length_set, scl, hpc]
    · rw [parentUpdate_keys p i ((moveChildren s1 (moveKV c z1 9).1
          (moveKV c z1 9).2 DEGREE).2.1.keys.getD 9 0) hpk hpv hi hpn m,
        show (moveChildren s1 (moveKV c z1 9).1 (moveKV c z1 9).2
            DEGREE).2.1.keys.getD 9 0 = c.keys.getD 9 0 from by
          rw [q4, mk1 9, if_neg (by omega)]]
    · rw [parentUpdate_values p i ((moveChildren s1 (moveKV c z1 9).1
          (moveKV c z1 9).2 DEGREE).2.1.values.getD 9 0) hpk hpv hi hpn m,
        show (moveChildren s1 (moveKV c z1 9).1 (moveKV c z1 9).2
            DEGREE).2.1.values.getD 9 0 = c.values.getD 9 0 from by
          rw [q5, mv1 9, if_neg (by omega)]]
    · rw [parentUpdate_children p i ((moveChildren s1 (moveKV c z1 9).1
          (moveKV c z1 9).2 DEGREE).2.2.blockId) hpc hi hpn m, hz3id2]
    · rw [hbc]; exact hc1id
    · rw [hbc]; exact q2.trans mb2
    · rw [hbc]
    · rw [hbc]
      show ((moveChildren s1 (moveKV c z1 9).1 (moveKV c z1 9).2
        DEGREE).2.1.keys.set 9 0).length = 19
      rw [List.length_set, q4]; exact ml1
    · rw [hbc]
      show ((moveChildren s1 (moveKV c z1 9).1 (moveKV c z1 9).2
        DEGREE).2.1.values.set 9 0).length = 19
      rw [List.length_set, q5]; exact ml2
    · rw [hbc]
      show (moveChildren s1 (moveKV c z1 9).1 (moveKV c z1 9).2
        DEGREE).2.1.children.length = 20
      exact ql1
    · rw [hbc]
      show ((moveChildren s1 (moveKV c z1 9).1 (moveKV c z1 9).2
        DEGREE).2.1.keys.set 9 0).getD m 0 = _
      rw [q4]
      by_cases hm : m = 9
      · subst hm
        rw [getD_set_self _ _ (by rw [ml1]; omega), if_neg (by omega)]
      · rw [getD_set_ne _ _ (fun h2 => hm h2.symm), mk1 m]
        by_cases h1 : m < 9
        · rw [if_neg (by omega), if_pos h1]
        · rw [if_neg h1]
          by_cases h2 : m < 19
          · rw [if_pos (by omega)]
          · rw [if_neg (by omega), getD_of_le _ (by rw [hck]; omega)]
    · rw [hbc]
      show ((moveChildren s1 (moveKV c z1 9).1 (moveKV c z1 9).2
        DEGREE).2.1.values.set 9 0).getD m 0 = _
      rw [q5]
      by_cases hm : m = 9
      · subst hm
        rw [getD_set_self _ _ (by rw [ml2]; omega), if_neg (by omega)]
      · rw [getD_set_ne _ _ (fun h2 => hm h2.symm), mv1 m]
        by_cases h1 : m < 9
        · rw [if_neg (by omega), if_pos h1]
        · rw [if_neg h1]
          by_cases h2 : m < 19
          · rw [if_pos (by omega)]
          · rw [if_neg (by omega), getD_of_le _ (by rw [hcv]; omega)]
    · exact absurd h hcl
    · intro m
      rw [hbc]
      show (moveChildren s1 (moveKV c z1 9).1 (moveKV c z1 9).2
        DEGREE).2.1.children.getD m 0 = _
      rw [qc m, mb4, hD]
      by_cases h1 : 10 ≤ m
      · by_cases h2 : m < 20
        · rw [if_pos (by omega), if_pos h1]
        · rw [if_neg (by omega), getD_of_le _ (by rw [hcc]; omega),
            if_pos h1]
      · rw [if_neg (by omega), if_neg h1]
    · rw [hbz]; exact hz3id2
    · rw [hbz, q7, mb6, hz1]
    · rw [hbz, q8, mb7, hz1]; exact h91
    · rw [hbz, q9]; exact ml3
    · rw [hbz, q10]; exact ml4
    · rw [hbz]; exact ql2
    · rw [hbz, q9, mk2 m, hD]
      by_cases h1 : m < 9
      · rw [if_pos h1, if_pos h1]
      · rw [if_neg h1, if_neg h1, hz1]
        exact getD_replicate_zero _ _
    · rw [hbz, q10, mv2 m, hD]
      by_cases h1 : m < 9
      · rw [if_pos h1, if_pos h1]
      · rw [if_neg h1, if_neg h1, hz1]
        exact getD_replicate_zero _ _
    · exact absurd h hcl
    · intro m
      rw [hbz, qz m, mb4, hD]
      by_cases h1 : m < 10
      · rw [if_pos h1, if_pos h1]
      · rw [if_neg h1, if_neg h1, mb8, hz1]
        exact getD_replicate_zero _ _
    · intro j hj hg0 hgc hgp hgz
      exact (t8 (c.children.getD (j + DEGREE) 0)
          (fun h2 => hgc (h2.trans hc1id))
          (fun h2 => hgz (h2.trans hz3id2)) hgp).trans
        (qwr j (by omega) hg0)
    · exact (t8 b (fun h2 => hbc2 (h2.trans hc1id))
          (fun h2 => hbz2 (h2.trans hz3id2)) hbp).trans
        (qfr b (fun j hj => hgj j (by omega)))

/-- C4: splitting a full child `c` (19 keys) at slot `i` of `parent`:
the child keeps its keys/values at former slots 0..8 with key count 9;
the former median (slot 9) moves to `parent.keys[i]`/`values[i]`, the
parent's key count grows by one and the new sibling's id lands at
`parent.children[i+1]`; the sibling holds the child's former slots 10..18
in its slots 0..8 with key count 9, and, for a non-leaf child, the
child's former children 10..19 in its slots 0..9 with each relocated
grandchild's stored parent id rewritten to the sibling; all vacated
slots of the child are zero. -/
theorem c4_split_child (s : Index) (p : Node) (i : Nat) (c : Node)
    (hpk : p.keys.length = 19) (hpv : p.values.length = 19)
    (hpc : p.children.length = 20) (hck : c.keys.length = 19)
    (hcv : c.values.length = 19) (hcc : c.children.length = 20)
    (_hfull : c.numKeys = MAX_KEYS)
    (hi : i ≤ p.numKeys) (hpn : p.numKeys ≤ 18)
    (hcp : c.blockId ≠ p.blockId) (hcz : c.blockId ≠ s.nextBlockId)
    (hpz : p.blockId ≠ s.nextBlockId)
    (hown : ∀ j, j < 10 → c.children.getD (j + 10) 0 ≠ 0 →
      (s.blocks (c.children.getD (j + 10) 0)).blockId =
        c.children.getD (j + 10) 0) :
    ((splitChild s p i c).1.blocks c.blockId).numKeys = 9 ∧
    (∀ m, m < 9 →
      ((splitChild s p i c).1.blocks c.blockId).keys.getD m 0 =
        c.keys.getD m 0) ∧
    (∀ m, m < 9 →
      ((splitChild s p i c).1.blocks c.blockId).values.getD m 0 =
        c.values.getD m 0) ∧
    (∀ m, 9 ≤ m →
      ((splitChild s p i c).1.blocks c.blockId).keys.getD m 0 = 0) ∧
    (∀ m, 9 ≤ m →
      ((splitChild s p i c).1.blocks c.blockId).values.getD m 0 = 0) ∧
    ((splitChild s p i c).1.blocks p.blockId).keys.getD i 0 =
      c.keys.getD 9 0 ∧
    ((splitChild s p i c).1.blocks p.blockId).values.getD i 0 =
      c.values.getD 9 0 ∧
    ((splitChild s p i c).1.blocks p.blockId).numKeys = p.numKeys + 1 ∧
    ((splitChild s p i c).1.blocks p.blockId).children.getD (i + 1) 0 =
      s.nextBlockId ∧
    ((splitChild s p i c).1.blocks s.nextBlockId).blockId = s.nextBlockId ∧
    ((splitChild s p i c).1.blocks s.nextBlockId).numKeys = 9 ∧
    (∀ m, m < 9 →
      ((splitChild s p i c).1.blocks s.nextBlockId).keys.getD m 0 =
        c.keys.getD (m + 10) 0) ∧
    (∀ m, m < 9 →
      ((splitChild s p i c).1.blocks s.nextBlockId).values.getD m 0 =
        c.values.getD (m + 10) 0) ∧
    (c.leaf = false → ∀ m, m < 10 →
      ((splitChild s p i c).1.blocks s.nextBlockId).children.getD m 0 =
        c.children.getD (m + 10) 0) ∧
    (c.leaf = false → ∀ m, 10 ≤ m →
      ((splitChild s p i c).1.blocks c.blockId).children.getD m 0 = 0) ∧
    (c.leaf = false → ∀ j, j < 10 → c.children.getD (j + 10) 0 ≠ 0 →
      c.children.getD (j + 10) 0 ≠ c.blockId →
      c.children.getD (j + 10) 0 ≠ p.blockId →
      c.children.getD (j + 10) 0 ≠ s.nextBlockId →
      ((splitChild s p i c).1.blocks
        (c.children.getD (j + 10) 0)).parentId = s.nextBlockId) := by
  obtain ⟨e1, e2, e3, e4, e5, e6, e7, e8, e9, e10, e11, e12, e13, e14, e15,
    e16, e17, e18, e19, e20, e21, e22, e23, e24, e25, e26, e27, e28, e29,
    e30, e31, e32, e33, e34, e35, e36⟩ :=
    splitChild_spec s p i c hpk hpv hpc hck hcv hcc hi hpn hcp hcz hpz hown
  refine ⟨e17, fun m hm => ?_, fun m hm => ?_, fun m hm => ?_,
    fun m hm => ?_, ?_, ?_, ?_, ?_, e25, e27, fun m hm => ?_,
    fun m hm => ?_, fun hl m hm => ?_, fun hl m hm => ?_,
    fun hl j hj h0 h1 h2 h3 => ?_⟩
  · rw [e21 m, if_pos hm]
  · rw [e22 m, if_pos hm]
  · rw [e21 m, if_neg (by omega)]
  · rw [e22 m, if_neg (by omega)]
  · rw [e5, e12 i, if_pos rfl]
  · rw [e5, e13 i, if_pos rfl]
  · rw [e5]; exact e8
  · rw [e5, e14 (i + 1), if_pos rfl]
  · rw [e31 m, if_pos hm]
  · rw [e32 m, if_pos hm]
  · rw [e34 hl m, if_pos hm]
  · rw [e24 hl m, if_pos hm]
  · show ((splitChild s p i c).1.blocks
      (c.children.getD (j + DEGREE) 0)).parentId = s.nextBlockId
    rw [e35 hl j hj h0 h1 h2 h3]

theorem c4_witness :
    c4w.numKeys = MAX_KEYS ∧
    ((splitChild s4w p4w 0 c4w).1.blocks 2).numKeys = 9 ∧
    ((splitChild s4w p4w 0 c4w).1.blocks 1).keys.getD 0 0 =
      c4w.keys.getD 9 0 ∧
    ((splitChild s4w p4w 0 c4w).1.blocks 1).children.getD 1 0 = 3 ∧
    ((splitChild s4w p4w 0 c4w).1.blocks 3).numKeys = 9 := by
  obtain ⟨h1, -, -, -, -, h6, -, -, h9, -, h11, -, -, -, -, -⟩ :=
    c4_split_child s4w p4w 0 c4w (by decide) (by decide) (by decide)
      (by decide) (by decide) (by decide) (by decide) (by decide)
      (by decide) (by decide) (by decide) (by decide)
      (fun j hj h0 => absurd (getD_replicate_zero _ _) h0)
  exact ⟨by decide, h1, h6, h9, h11⟩

/-!
## Residency accounting lemmas and the C9 claim
-/

theorem moveChildren_nextBlockId (s0 : Index) (c0 z0 : Node) :
    ∀ n, (moveChildren s0 c0 z0 n).1.nextBlockId = s0.nextBlockId := by
  intro n
  induction n with
  | zero => rfl
  | succ n ih =>
    simp only [moveChildren]
    split
    · split
      · exact ih
      · exact ih
    · exact ih

theorem writeNode_nextBlockId (s : Index) (nd : Node) :
    (writeNode s nd).nextBlockId = s.nextBlockId := rfl

theorem splitChild_nextBlockId (s : Index) (p : Node) (i : Nat) (c : Node) :
    (splitChild s p i c).1.nextBlockId = s.nextBlockId + 1 := by
  simp only [splitChild, allocateNode, writeHeader]
  split
  · rfl
  · rw [writeNode_nextBlockId, writeNode_nextBlockId, writeNode_nextBlockId,
      moveChildren_nextBlockId]

theorem splitChildPeak_le (cur : Nat) (child : Node) :
    splitChildPeak cur child ≤ cur + 3 := by
  simp only [splitChildPeak]
  split
  · omega
  · have h := min_le_right (((List.range DEGREE).filter
      (fun j => child.children.getD (j + DEGREE) 0 != 0)).length) 2
    omega

theorem searchLoopPeak_le (s : Index) (key : Nat) :
    ∀ fuel cur, searchLoopPeak s key fuel cur ≤ 2 := by
  intro fuel
  induction fuel with
  | zero => intro cur; simp only [searchLoopPeak]; omega
  | succ n ih =>
    intro cur
    simp only [searchLoopPeak]
    split
    · omega
    · split
      · omega
      · split
        · omega
        · split
          · omega
          · exact max_le (by omega) (ih _)

theorem searchPeak_le (s : Index) (key : Nat) : searchPeak s key ≤ 2 := by
  simp only [searchPeak]
  split
  · omega
  · split
    · omega
    · exact searchLoopPeak_le _ _ _ _

theorem insertNonFullPeak_le :
    ∀ fuel cur (s : Index) (node : Node) (key : Nat),
      insertNonFullPeak fuel cur s node key ≤ cur + fuel + 3 := by
  intro fuel
  induction fuel with
  | zero => intro cur s node key; simp only [insertNonFullPeak]; omega
  | succ n ih =>
    intro cur s node key
    simp only [insertNonFullPeak]
    split
    · omega
    · split
      · omega
      · split
        · split
          · exact le_trans (splitChildPeak_le _ _) (by omega)
          · exact max_le (le_trans (splitChildPeak_le _ _) (by omega))
              (max_le (by omega) (le_trans (ih _ _ _ _) (by omega)))
        · exact le_trans (ih _ _ _ _) (by omega)

theorem insertPeak_le (s : Index) (key : Nat) :
    insertPeak s key ≤ s.nextBlockId + 7 := by
  simp only [insertPeak]
  split
  · omega
  · split
    · exact le_trans (searchPeak_le _ _) (by omega)
    · split
      · exact le_trans (searchPeak_le _ _) (by omega)
      · split
        · refine max_le (le_trans (searchPeak_le _ _) (by omega))
            (max_le (le_trans (splitChildPeak_le _ _) (by omega)) ?_)
          refine le_trans (insertNonFullPeak_le _ _ _ _ _) ?_
          rw [splitChild_nextBlockId]
          simp only [writeHeader, writeNode, allocateNode]
          omega
        · exact max_le (le_trans (searchPeak_le _ _) (by omega))
            (le_trans (insertNonFullPeak_le _ _ _ _ _) (by omega))

/-- C9 (amended): the peak number of simultaneously resident nodes is
not 3 but grows with the descent depth — a split holds at most 3 nodes
beyond its callers' (sibling, grandchild and the rebinding transient),
the search descent holds at most 2, `insert_non_full` at most its
recursion depth plus 3 beyond its callers', and a whole insert at most
`next_block_id + 7`. -/
theorem c9_residency :
    (∀ cur child, splitChildPeak cur child ≤ cur + 3) ∧
    (∀ s key, searchPeak s key ≤ 2) ∧
    (∀ fuel cur (s : Index) (node : Node) (key : Nat),
      insertNonFullPeak fuel cur s node key ≤ cur + fuel + 3) ∧
    (∀ (s : Index) (key : Nat), insertPeak s key ≤ s.nextBlockId + 7) :=
  ⟨splitChildPeak_le, searchPeak_le, insertNonFullPeak_le, insertPeak_le⟩

set_option maxRecDepth 65536 in
/-- C9 counterexample: on the concrete height-3 tree `s9w`, inserting
key 3 succeeds and is not a duplicate, yet the non-leaf split of block 2
drives the peak residency to 5 nodes (root, full child, new sibling,
the grandchild being relinked and the previous grandchild still bound
during the read) — exceeding the claimed bound of 3. -/
theorem c9_counterexample :
    search s9w 3 = none ∧
    (insert s9w 3 33).map (fun p => p.2) = some InsRes.ok ∧
    insertPeak s9w 3 = 5 ∧
    3 < insertPeak s9w 3 := by
  refine ⟨by decide, by decide, by decide, by decide⟩

/-!
## Insert correctness: split preservation
-/

/-- `split_child` on a full child of a represented internal node
preserves the represented entries, adds the freshly allocated block to
the footprint, and exposes the slot facts `insert_non_full` uses to
re-descend. -/
theorem splitChild_rep {s : Index} {g id i cb : Nat} {p : Node}
    {lo hi : Option Nat} {es : List (Nat × Nat)} {used' : List Nat}
    (hidnz : id ≠ 0) (hpbk : p.blockId = id)
    (hpkl : p.keys.length = 19) (hpvl : p.values.length = 19)
    (hpcl : p.children.length = 20)
    (hcb : p.children.getD i 0 = cb)
    (hseq : RepSeq (RepSub s g) p 0 p.numKeys lo hi es used')
    (hnodup : (id :: used').Nodup)
    (hbnd : ∀ b ∈ id :: used', b < s.nextBlockId)
    (hile : i ≤ p.numKeys)
    (hpnf : p.numKeys < MAX_KEYS)
    (hfull : (s.blocks cb).numKeys = MAX_KEYS) :
    ∃ used2,
      RepSub (splitChild s p i (s.blocks cb)).1 (g + 1) id lo
        hi es used2 ∧
      used2.Perm (s.nextBlockId :: id :: used') ∧
      (splitChild s p i (s.blocks cb)).1.nextBlockId =
        s.nextBlockId + 1 ∧
      (splitChild s p i (s.blocks cb)).1.rootId = s.rootId ∧
      (splitChild s p i (s.blocks cb)).1.storedRoot =
        s.rootId ∧
      (splitChild s p i (s.blocks cb)).1.storedNext =
        s.nextBlockId + 1 ∧
      (splitChild s p i (s.blocks cb)).1.blocks id =
        (splitChild s p i (s.blocks cb)).2 ∧
      (splitChild s p i (s.blocks cb)).2.numKeys =
        p.numKeys + 1 ∧
      (∀ m, (splitChild s p i (s.blocks cb)).2.keys.getD m 0 =
        if m = i then (s.blocks cb).keys.getD 9 0
        else if i + 1 ≤ m ∧ m < p.numKeys + 1 then
          p.keys.getD (m - 1) 0
        else p.keys.getD m 0) ∧
      (∀ m, (splitChild s p i
          (s.blocks cb)).2.children.getD m 0 =
        if m = i + 1 then s.nextBlockId
        else if i + 2 ≤ m ∧ m < p.numKeys + 2 then
          p.children.getD (m - 1) 0
        else p.children.getD m 0) ∧
      ((splitChild s p i (s.blocks cb)).1.blocks cb).numKeys =
        9 ∧
      ((splitChild s p i
        (s.blocks cb)).1.blocks s.nextBlockId).numKeys = 9 ∧
      (∀ b, b ∉ id :: used' → b < s.nextBlockId → b ≠ 0 →
        (splitChild s p i (s.blocks cb)).1.blocks b =
          s.blocks b) := by
  have hMK : MAX_KEYS = 19 := rfl
  have hD : DEGREE = 10 := rfl
  have hnzall : ∀ b ∈ id :: used', b ≠ 0 := by
    intro b hb
    rcases List.mem_cons.mp hb with h1 | h2
    · rw [h1]
      exact hidnz
    · exact RepSeq_used p (fun x => x ≠ 0)
        (fun id2 lo2 hi2 es2 u2 h2 =>
          RepSub_used_nz g id2 lo2 hi2 es2 u2 h2)
        _ _ _ _ _ _ hseq b h2
  obtain ⟨loC, hiC, esA, esC, esB, uA, uC, uB, hesEq, huEq2, hPC, -, -, -,
    -, -, -, -, -, -, hreb2⟩ :=
    RepSeq_focus p
      (fun id2 lo2 hi2 es2 u2 h2 => RepSub_bounds g id2 lo2 hi2 es2 u2 h2)
      p.numKeys 0 lo hi es used' i hile hseq
  rw [Nat.zero_add, hcb] at hPC
  have hPCkeep := hPC
  have hcbmem' : cb ∈ used' := by
    rw [huEq2]
    exact List.mem_append_left _ (List.mem_append_right _
      (RepSub_self_mem hPC))
  have hcbmem : cb ∈ id :: used' := List.mem_cons_of_mem _ hcbmem'
  have hidnot' : id ∉ used' := (List.nodup_cons.mp hnodup).1
  have hnodup' : used'.Nodup := (List.nodup_cons.mp hnodup).2
  have hidlt : id < s.nextBlockId := hbnd id (List.mem_cons_self _ _)
  have hcblt : cb < s.nextBlockId := hbnd cb hcbmem
  have hcbne0 : cb ≠ 0 := RepSub_ne_zero hPC
  have hcbid : cb ≠ id := fun h => hidnot' (h ▸ hcbmem')
  obtain ⟨g2, rfl⟩ : ∃ g2, g = g2 + 1 := by
    cases g with
    | zero => exact hPC.elim
    | succ g2 => exact ⟨g2, rfl⟩
  simp only [RepSub] at hPC
  obtain ⟨hokC, hrestC⟩ := hPC
  have hcn : (s.blocks cb).numKeys = 19 := hfull.trans hMK
  have hmemA : ∀ b ∈ uA, b ∈ used' := fun b hb => by
    rw [huEq2]
    exact List.mem_append_left _ (List.mem_append_left _ hb)
  have hmemC : ∀ b ∈ uC, b ∈ used' := fun b hb => by
    rw [huEq2]
    exact List.mem_append_left _ (List.mem_append_right _ hb)
  have hmemB : ∀ b ∈ uB, b ∈ used' := fun b hb => by
    rw [huEq2]
    exact List.mem_append_right _ hb
  have hnodupAC : (uA ++ uC).Nodup := by
    rw [huEq2] at hnodup'
    exact hnodup'.of_append_left
  have hnodupC : uC.Nodup := hnodupAC.of_append_right
  have hdisjAC : ∀ b ∈ uA, b ∉ uC :=
    fun b hb => (List.disjoint_of_nodup_append hnodupAC) hb
  have hdisjBC : ∀ b ∈ uB, b ∉ uC := by
    intro b hb hbc
    rw [huEq2] at hnodup'
    exact (List.disjoint_of_nodup_append hnodup')
      (List.mem_append_right _ hbc) hb
  have hCA : ∀ b ∈ uA, b ≠ 0 ∧ b ≠ id ∧ b ≠ cb ∧ b ≠ s.nextBlockId := by
    intro b hb
    have hb' : b ∈ used' := hmemA b hb
    have hbu : b ∈ id :: used' := List.mem_cons_of_mem _ hb'
    refine ⟨hnzall b hbu, fun h => hidnot' (h ▸ hb'), ?_,
      by have := hbnd b hbu; omega⟩
    intro h
    exact hdisjAC b hb (by rw [h]; exact RepSub_self_mem hPCkeep)
  have hCB : ∀ b ∈ uB, b ≠ 0 ∧ b ≠ id ∧ b ≠ cb ∧ b ≠ s.nextBlockId := by
    intro b hb
    have hb' : b ∈ used' := hmemB b hb
    have hbu : b ∈ id :: used' := List.mem_cons_of_mem _ hb'
    refine ⟨hnzall b hbu, fun h => hidnot' (h ▸ hb'), ?_,
      by have := hbnd b hbu; omega⟩
    intro h
    exact hdisjBC b hb (by rw [h]; exact RepSub_self_mem hPCkeep)
  have hown : ∀ j, j < 10 →
      (s.blocks cb).children.getD (j + DEGREE) 0 ≠ 0 →
      (s.blocks ((s.blocks cb).children.getD (j + DEGREE) 0)).blockId =
        (s.blocks cb).children.getD (j + DEGREE) 0 := by
    intro j hj hne
    by_cases hlC : (s.blocks cb).leaf = true
    · rw [if_pos hlC] at hrestC
      exact absurd (hrestC.2.2.1 (j + DEGREE)) hne
    · rw [if_neg hlC] at hrestC
      obtain ⟨usedC, hseqC, -⟩ := hrestC
      obtain ⟨lo2, hi2, es2, u2, hp, -⟩ :=
        RepSeq_child_sub (s.blocks cb) _ 0 _ _ _ _ hseqC (j + DEGREE)
          (by omega) (by rw [hD, hcn]; omega)
      exact RepSub_blockId hp
  have hspn : p.numKeys ≤ 18 := by rw [hMK] at hpnf; omega
  obtain ⟨c1, c2, c3, c4s, c5, c6, c7, c8, c9, c10, c11, c12, c13, c14,
    c15, c16, c17, c18, c19, c20, c21, c22, c23, c24, c25, c26, c27, c28,
    c29, c30, c31, c32, c33, c34, c35, c36⟩ :=
    splitChild_spec s p i (s.blocks cb) hpkl hpvl
      hpcl hokC.2.2.1 hokC.2.2.2.1 hokC.2.2.2.2.1 hile hspn
      (by rw [hokC.2.1, hpbk]; exact hcbid)
      (by rw [hokC.2.1]; omega)
      (by rw [hpbk]; omega)
      hown
  rw [hpbk] at c5
  rw [hokC.2.1] at c15 c16 c17 c18 c19 c20 c21 c22 c23 c24 c35 c36
  rw [hpbk] at c35 c36
  have hcore : ∀ b, (b ≠ 0 ∧ b ≠ id ∧ b ≠ cb ∧ b ≠ s.nextBlockId) →
      coreEq ((splitChild s p i (s.blocks cb)).1.blocks b)
        (s.blocks b) := by
    intro b hC
    obtain ⟨hb0, hbid, hbcb, hbnx⟩ := hC
    by_cases hmv : ∃ j, j < 10 ∧
        (s.blocks cb).children.getD (j + DEGREE) 0 = b
    · obtain ⟨j, hj, hjb⟩ := hmv
      by_cases hlC : (s.blocks cb).leaf = true
      · exfalso
        rw [if_pos hlC] at hrestC
        have h0 := hrestC.2.2.1 (j + DEGREE)
        rw [hjb] at h0
        exact hb0 h0
      · have h35 := c35 (Bool.eq_false_iff.mpr hlC) j hj
          (by rw [hjb]; exact hb0)
          (by rw [hjb]; exact hbcb)
          (by rw [hjb]; exact hbid)
          (by rw [hjb]; exact hbnx)
        rw [hjb] at h35
        rw [h35]
        exact ⟨rfl, rfl, rfl, rfl, rfl⟩
    · push_neg at hmv
      rw [c36 b hbid hbcb hbnx hmv]
      exact ⟨rfl, rfl, rfl, rfl, rfl⟩
  have hLok : NodeOk (splitChild s p i (s.blocks cb)).1 cb :=
    ⟨hcbne0, c15, c18, c19, c20, by rw [c17]; omega, by rw [c17]; decide⟩
  have hRok : NodeOk (splitChild s p i (s.blocks cb)).1
      s.nextBlockId :=
    ⟨by omega, c25, c28, c29, c30, by rw [c27]; omega, by rw [c27]; decide⟩
  have hroot0 : p.children.getD 0 0 ≠ 0 := by
    obtain ⟨lo2, hi2, es2, u2, hp, -⟩ :=
      RepSeq_child_sub p _ 0 _ _ _ _ hseq 0 (by omega)
        (by omega)
    exact RepSub_ne_zero hp
  have hhalves : ∃ esL esR uL uR,
      esC = esL ++ ((s.blocks cb).keys.getD 9 0,
        (s.blocks cb).values.getD 9 0) :: esR ∧
      (uL ++ uR).Perm (s.nextBlockId :: uC) ∧
      loOk loC ((s.blocks cb).keys.getD 9 0) ∧
      hiOk hiC ((s.blocks cb).keys.getD 9 0) ∧
      RepSub (splitChild s p i (s.blocks cb)).1 (g2 + 1) cb
        loC (some ((s.blocks cb).keys.getD 9 0)) esL uL ∧
      RepSub (splitChild s p i (s.blocks cb)).1 (g2 + 1)
        s.nextBlockId (some ((s.blocks cb).keys.getD 9 0)) hiC esR uR := by
    by_cases hlC : (s.blocks cb).leaf = true
    · rw [if_pos hlC] at hrestC
      obtain ⟨huCeq, hesCeq, hchz, hbndC, hsortC⟩ := hrestC
      refine ⟨(List.range 9).map (fun t => ((s.blocks cb).keys.getD t 0,
          (s.blocks cb).values.getD t 0)),
        (List.range 9).map (fun t => ((s.blocks cb).keys.getD (t + 10) 0,
          (s.blocks cb).values.getD (t + 10) 0)),
        [cb], [s.nextBlockId], ?_, ?_, ?_, ?_, ?_, ?_⟩
      · rw [hesCeq]
        unfold leafEnts
        rw [hcn,
          show List.range 19 = List.range 9 ++ 9 ::
            (List.range 9).map (fun t => t + 10) from by decide,
          List.map_append, List.map_cons, List.map_map]
        rfl
      · rw [huCeq]
        exact List.Perm.swap _ _ _
      · exact (hbndC 9 (by rw [hcn]; omega)).1
      · exact (hbndC 9 (by rw [hcn]; omega)).2
      · simp only [RepSub]
        refine ⟨hLok, ?_⟩
        have hleafL : ((splitChild s p i
            (s.blocks cb)).1.blocks cb).leaf = true := by
          unfold Node.leaf
          rw [c23 hlC]
          exact hlC
        rw [if_pos hleafL]
        refine ⟨trivial, ?_, ?_, ?_, ?_⟩
        · unfold leafEnts
          rw [c17]
          refine (List.map_congr_left (fun t ht => ?_)).symm
          have ht9 : t < 9 := List.mem_range.mp ht
          rw [c21 t, c22 t, if_pos ht9, if_pos ht9]
        · intro m
          rw [c23 hlC]
          exact hchz m
        · intro t ht
          rw [c17] at ht
          rw [c21 t, if_pos ht]
          exact ⟨(hbndC t (by rw [hcn]; omega)).1,
            hsortC t 9 ht (by rw [hcn]; omega)⟩
        · intro t t2 htt ht2
          rw [c17] at ht2
          rw [c21 t, if_pos (show t < 9 from by omega), c21 t2, if_pos ht2]
          exact hsortC t t2 htt (by rw [hcn]; omega)
      · simp only [RepSub]
        refine ⟨hRok, ?_⟩
        have hleafR : ((splitChild s p i
            (s.blocks cb)).1.blocks s.nextBlockId).leaf = true := by
          unfold Node.leaf
          rw [c33 hlC]
          rfl
        rw [if_pos hleafR]
        refine ⟨trivial, ?_, ?_, ?_, ?_⟩
        · unfold leafEnts
          rw [c27]
          refine (List.map_congr_left (fun t ht => ?_)).symm
          have ht9 : t < 9 := List.mem_range.mp ht
          rw [c31 t, c32 t, if_pos ht9, if_pos ht9]
        · intro m
          rw [c33 hlC]
          exact getD_replicate_zero _ _
        · intro t ht
          rw [c27] at ht
          rw [c31 t, if_pos ht]
          exact ⟨hsortC 9 (t + 10) (by omega) (by rw [hcn]; omega),
            (hbndC (t + 10) (by rw [hcn]; omega)).2⟩
        · intro t t2 htt ht2
          rw [c27] at ht2
          rw [c31 t, if_pos (show t < 9 from by omega), c31 t2, if_pos ht2]
          exact hsortC (t + 10) (t2 + 10) (by omega) (by rw [hcn]; omega)
    · rw [if_neg hlC] at hrestC
      obtain ⟨usedC, hseqC, huCeq⟩ := hrestC
      rw [hcn, show (19 : Nat) = 9 + 1 + 9 from rfl] at hseqC
      obtain ⟨esL0, esR0, uL0, uR0, hL, hloM, hhiM, hR, hesS, husedS⟩ :=
        RepSeq_split (s.blocks cb) 9 9 0 loC hiC esC usedC hseqC
      rw [Nat.zero_add] at hL hloM hhiM hesS
      rw [Nat.zero_add, show (9 : Nat) + 1 = 10 from rfl] at hR
      have hnodupC2 : (cb :: usedC).Nodup := by
        rw [← huCeq]
        exact hnodupC
      have hcbnotC : cb ∉ usedC := (List.nodup_cons.mp hnodupC2).1
      have hCc : ∀ b ∈ usedC, b ≠ 0 ∧ b ≠ id ∧ b ≠ cb ∧
          b ≠ s.nextBlockId := by
        intro b hb
        have hbC : b ∈ uC := by
          rw [huCeq]
          exact List.mem_cons_of_mem _ hb
        have hb' : b ∈ used' := hmemC b hbC
        have hbu : b ∈ id :: used' := List.mem_cons_of_mem _ hb'
        refine ⟨hnzall b hbu, fun h => hidnot' (h ▸ hb'),
          fun h => hcbnotC (h ▸ hb), by have := hbnd b hbu; omega⟩
      have hz0 : (s.blocks cb).children.getD 0 0 ≠ 0 := by
        obtain ⟨lo2, hi2, es2, u2, hp, -⟩ :=
          RepSeq_child_sub (s.blocks cb) 9 0 _ _ _ _ hL 0 (by omega)
            (by omega)
        exact RepSub_ne_zero hp
      have hz10 : (s.blocks cb).children.getD 10 0 ≠ 0 := by
        obtain ⟨lo2, hi2, es2, u2, hp, -⟩ :=
          RepSeq_child_sub (s.blocks cb) 9 10 _ _ _ _ hR 10 (by omega)
            (by omega)
        exact RepSub_ne_zero hp
      refine ⟨esL0, esR0, cb :: uL0, s.nextBlockId :: uR0, hesS, ?_,
        hloM, hhiM, ?_, ?_⟩
      · rw [huCeq, husedS]
        exact ((@List.perm_middle _ s.nextBlockId uL0 uR0).cons cb).trans
          (List.Perm.swap _ _ _)
      · simp only [RepSub]
        refine ⟨hLok, ?_⟩
        have hleafL : ((splitChild s p i
            (s.blocks cb)).1.blocks cb).leaf = false := by
          unfold Node.leaf
          rw [c24 (Bool.eq_false_iff.mpr hlC) 0, if_neg (by omega)]
          exact beq_eq_false_iff_ne.mpr hz0
        rw [if_neg (by rw [hleafL]; exact Bool.false_ne_true)]
        refine ⟨uL0, ?_, rfl⟩
        rw [c17]
        refine RepSeq_trans
          (fun b => b ≠ 0 ∧ b ≠ id ∧ b ≠ cb ∧ b ≠ s.nextBlockId)
          (s.blocks cb)
          ((splitChild s p i (s.blocks cb)).1.blocks cb)
          (fun id2 lo2 hi2 es2 u2 hCu h2 =>
            RepSub_trans _ hcore g2 id2 lo2 hi2 es2 u2 hCu h2)
          9 0 0 loC (some ((s.blocks cb).keys.getD 9 0)) esL0 uL0
          (fun m hm => ?_) (fun m hm => ?_)
          (fun b hb => hCc b (by
            rw [husedS]
            exact List.mem_append_left _ hb))
          hL
        · constructor
          · rw [Nat.zero_add, c21 m, if_pos hm]
          · rw [Nat.zero_add, c22 m, if_pos hm]
        · rw [Nat.zero_add, c24 (Bool.eq_false_iff.mpr hlC) m,
            if_neg (by omega)]
      · simp only [RepSub]
        refine ⟨hRok, ?_⟩
        have hleafR : ((splitChild s p i
            (s.blocks cb)).1.blocks s.nextBlockId).leaf = false := by
          unfold Node.leaf
          rw [c34 (Bool.eq_false_iff.mpr hlC) 0, if_pos (by omega)]
          exact beq_eq_false_iff_ne.mpr hz10
        rw [if_neg (by rw [hleafR]; exact Bool.false_ne_true)]
        refine ⟨uR0, ?_, rfl⟩
        rw [c27]
        refine RepSeq_trans
          (fun b => b ≠ 0 ∧ b ≠ id ∧ b ≠ cb ∧ b ≠ s.nextBlockId)
          (s.blocks cb)
          ((splitChild s p i
            (s.blocks cb)).1.blocks s.nextBlockId)
          (fun id2 lo2 hi2 es2 u2 hCu h2 =>
            RepSub_trans _ hcore g2 id2 lo2 hi2 es2 u2 hCu h2)
          9 10 0 (some ((s.blocks cb).keys.getD 9 0)) hiC esR0 uR0
          (fun m hm => ?_) (fun m hm => ?_)
          (fun b hb => hCc b (by
            rw [husedS]
            exact List.mem_append_right _ hb))
          hR
        · constructor
          · rw [Nat.zero_add, c31 m, if_pos hm,
              show 10 + m = m + 10 from by omega]
          · rw [Nat.zero_add, c32 m, if_pos hm,
              show 10 + m = m + 10 from by omega]
        · rw [Nat.zero_add, c34 (Bool.eq_false_iff.mpr hlC) m,
            if_pos (by omega), show 10 + m = m + 10 from by omega]
  obtain ⟨esL, esR, uL, uR, hesC2, hPermLR, hmedlo, hmedhi, hSubL,
    hSubR⟩ := hhalves
  have hkeyi : ((splitChild s p i
      (s.blocks cb)).1.blocks id).keys.getD (0 + i) 0 =
      (s.blocks cb).keys.getD 9 0 := by
    rw [Nat.zero_add, c5, c12 i, if_pos rfl]
  have hvali : ((splitChild s p i
      (s.blocks cb)).1.blocks id).values.getD (0 + i) 0 =
      (s.blocks cb).values.getD 9 0 := by
    rw [Nat.zero_add, c5, c13 i, if_pos rfl]
  have hchain := hreb2
    (RepSub (splitChild s p i (s.blocks cb)).1 (g2 + 1))
    (fun b => b ≠ 0 ∧ b ≠ id ∧ b ≠ cb ∧ b ≠ s.nextBlockId)
    ((splitChild s p i (s.blocks cb)).1.blocks id)
    (fun id2 lo2 hi2 es2 u2 hCu h2 =>
      RepSub_trans _ hcore (g2 + 1) id2 lo2 hi2 es2 u2 hCu h2)
    hCA hCB
    (fun m hm => by
      constructor
      · rw [Nat.zero_add, c5, c12 m, if_neg (by omega), if_neg (by omega)]
      · rw [Nat.zero_add, c5, c13 m, if_neg (by omega), if_neg (by omega)])
    (fun m hm => by
      rw [Nat.zero_add, c5, c14 m, if_neg (by omega), if_neg (by omega)])
    (fun m hm1 hm2 => by
      constructor
      · rw [Nat.zero_add, c5, c12 (m + 1), if_neg (by omega),
          if_pos (by omega), Nat.add_sub_cancel]
      · rw [Nat.zero_add, c5, c13 (m + 1), if_neg (by omega),
          if_pos (by omega), Nat.add_sub_cancel])
    (fun m hm1 hm2 => by
      rw [Nat.zero_add, c5, c14 (m + 1), if_neg (by omega),
        if_pos (by omega), Nat.add_sub_cancel])
    esL esR uL uR
    (by
      rw [Nat.zero_add, c5, c14 i, if_neg (by omega), if_neg (by omega),
        hcb, c12 i, if_pos rfl]
      exact hSubL)
    (by
      rw [Nat.zero_add, c5, c14 (i + 1), if_pos rfl, c12 i, if_pos rfl]
      exact hSubR)
    (by rw [hkeyi]; exact hmedlo)
    (by rw [hkeyi]; exact hmedhi)
  refine ⟨id :: (uA ++ (uL ++ uR) ++ uB), ?_, ?_, c1, c2, c3, c4s, c5, c8,
    c12, c14, c17, c27, ?_⟩
  · simp only [RepSub]
    refine ⟨⟨hidnz, ?_, ?_, ?_, ?_, ?_, ?_⟩, ?_⟩
    · rw [c5, c6, hpbk]
    · rw [c5]
      exact c9
    · rw [c5]
      exact c10
    · rw [c5]
      exact c11
    · rw [c5, c8]
      omega
    · rw [c5, c8, hMK]
      omega
    · rw [if_neg (show ¬ (((splitChild s p i
          (s.blocks cb)).1.blocks id).leaf = true) from by
        rw [c5]
        unfold Node.leaf
        rw [c14 0, if_neg (by omega), if_neg (by omega)]
        simp only [beq_iff_eq]
        exact hroot0)]
      refine ⟨uA ++ (uL ++ uR) ++ uB, ?_, rfl⟩
      rw [show ((splitChild s p i
          (s.blocks cb)).1.blocks id).numKeys =
          p.numKeys + 1 from by rw [c5]; exact c8]
      rw [hkeyi, hvali, ← hesC2] at hchain
      rw [hesEq]
      exact hchain
  · rw [huEq2]
    have h1 := (hPermLR.append_left uA).append_right uB
    have h2 := (@List.perm_middle _ s.nextBlockId uA uC).append_right uB
    exact ((h1.trans h2).cons id).trans (List.Perm.swap _ _ _)
  · intro b hbu hblt hbz
    refine c36 b ?_ ?_ (by omega) ?_
    · rintro rfl
      exact hbu (List.mem_cons_self _ _)
    · rintro rfl
      exact hbu hcbmem
    · intro j hj
      by_cases hlC : (s.blocks cb).leaf = true
      · rw [if_pos hlC] at hrestC
        rw [hrestC.2.2.1 (j + DEGREE)]
        omega
      · rw [if_neg hlC] at hrestC
        obtain ⟨usedC, hseqC, huCeq⟩ := hrestC
        intro hEq
        obtain ⟨lo2, hi2, es2, u2, hp, hsub⟩ :=
          RepSeq_child_sub (s.blocks cb) _ 0 _ _ _ _ hseqC (j + DEGREE)
            (by omega) (by rw [hD, hcn]; omega)
        have hbm : (s.blocks cb).children.getD (j + DEGREE) 0 ∈ usedC :=
          hsub _ (RepSub_self_mem hp)
        rw [hEq] at hbm
        have hbC : b ∈ uC := by
          rw [huCeq]
          exact List.mem_cons_of_mem _ hbm
        exact hbu (List.mem_cons_of_mem _ (hmemC b hbC))

/-- One unfolding of `insert_non_full`. -/
theorem insertNonFull_step (f : Nat) (s : Index) (nd : Node)
    (key value : Nat) :
    insertNonFull (f + 1) s nd key value =
      if nd.leaf then
        some (writeNode s { nd with
          keys := (insLoop nd.keys nd.values key value nd.numKeys).1,
          values := (insLoop nd.keys nd.values key value nd.numKeys).2,
          numKeys := nd.numKeys + 1 })
      else
        match readNode s (nd.children.getD
            (descIdx nd.keys key nd.numKeys) 0) with
        | none => none
        | some child =>
          if child.numKeys = MAX_KEYS then
            match readNode (splitChild s nd
                (descIdx nd.keys key nd.numKeys) child).1
              ((splitChild s nd (descIdx nd.keys key nd.numKeys)
                  child).2.children.getD
                (if (splitChild s nd (descIdx nd.keys key nd.numKeys)
                    child).2.keys.getD
                    (descIdx nd.keys key nd.numKeys) 0 < key then
                  descIdx nd.keys key nd.numKeys + 1
                else descIdx nd.keys key nd.numKeys) 0) with
            | none => none
            | some child2 => insertNonFull f
                (splitChild s nd (descIdx nd.keys key nd.numKeys)
                  child).1 child2 key value
          else insertNonFull f s child key value := rfl

/-- Descending one chain slot of an internal node: if the probe key
belongs strictly between the slot's separators and the child there is
not full, the recursive insert succeeds and the parent representation is
rebuilt around the updated subtree. -/
theorem insertNonFull_descend (f : Nat)
    (ih : ∀ (s : Index) (id : Nat) (lo hi : Option Nat)
      (es : List (Nat × Nat)) (used : List Nat) (key value : Nat),
      RepSub s f id lo hi es used → used.Nodup →
      (∀ b ∈ used, b < s.nextBlockId) →
      (s.blocks id).numKeys < MAX_KEYS →
      loOk lo key → hiOk hi key → (∀ w, (key, w) ∉ es) →
      ∃ s2 used2,
        insertNonFull f s (s.blocks id) key value = some s2 ∧
        RepSub s2 f id lo hi (insEntry key value es) used2 ∧
        used2.Nodup ∧ (∀ b ∈ used2, b < s2.nextBlockId) ∧
        (∀ b ∈ used2, b ∈ used ∨ s.nextBlockId ≤ b) ∧
        s.nextBlockId ≤ s2.nextBlockId ∧
        s2.rootId = s.rootId ∧
        (s2.storedRoot = s.storedRoot ∨ s2.storedRoot = s.rootId) ∧
        ((s2.storedNext = s.storedNext ∧
          s2.nextBlockId = s.nextBlockId) ∨
          s2.storedNext = s2.nextBlockId) ∧
        (∀ b, b ∉ used → b < s.nextBlockId → b ≠ 0 →
          s2.blocks b = s.blocks b))
    (s : Index) (id : Nat) (lo hi : Option Nat) (es : List (Nat × Nat))
    (used : List Nat) (key value i2 : Nat)
    (hrep : RepSub s (f + 1) id lo hi es used) (hnodup : used.Nodup)
    (hbnd : ∀ b ∈ used, b < s.nextBlockId)
    (hnl : (s.blocks id).leaf = false)
    (hile : i2 ≤ (s.blocks id).numKeys)
    (hlok : loOk lo key) (hhik : hiOk hi key)
    (hnot : ∀ w, (key, w) ∉ es)
    (hprev : 0 < i2 → (s.blocks id).keys.getD (i2 - 1) 0 ≤ key)
    (hnext : i2 < (s.blocks id).numKeys →
      key ≤ (s.blocks id).keys.getD i2 0)
    (hchn : (s.blocks ((s.blocks id).children.getD i2 0)).numKeys <
      MAX_KEYS) :
    ∃ s2 used2,
      insertNonFull f s (s.blocks ((s.blocks id).children.getD i2 0)) key
        value = some s2 ∧
      RepSub s2 (f + 1) id lo hi (insEntry key value es) used2 ∧
      used2.Nodup ∧ (∀ b ∈ used2, b < s2.nextBlockId) ∧
      (∀ b ∈ used2, b ∈ used ∨ s.nextBlockId ≤ b) ∧
      s.nextBlockId ≤ s2.nextBlockId ∧
      s2.rootId = s.rootId ∧
      (s2.storedRoot = s.storedRoot ∨ s2.storedRoot = s.rootId) ∧
      ((s2.storedNext = s.storedNext ∧ s2.nextBlockId = s.nextBlockId) ∨
        s2.storedNext = s2.nextBlockId) ∧
      (∀ b, b ∉ used → b < s.nextBlockId → b ≠ 0 →
        s2.blocks b = s.blocks b) := by
  have hnzall := RepSub_used_nz (f + 1) id lo hi es used hrep
  simp only [RepSub] at hrep
  obtain ⟨hok, hrest⟩ := hrep
  rw [if_neg (by rw [hnl]; exact Bool.false_ne_true)] at hrest
  obtain ⟨used', hseq, huEq⟩ := hrest
  subst huEq
  obtain ⟨loC, hiC, esA, esC, esB, uA, uC, uB, hesEq, huEq2, hPC, hj4,
    hj5, hj6, hj7, hj8, hj9, hj10, hj11, hreb1, -⟩ :=
    RepSeq_focus (s.blocks id)
      (fun id2 lo2 hi2 es2 u2 h2 => RepSub_bounds f id2 lo2 hi2 es2 u2 h2)
      (s.blocks id).numKeys 0 lo hi es used' i2 hile hseq
  rw [Nat.zero_add] at hPC hj5 hj7 hj8 hj9 hj10 hj11
  have hidnot' : id ∉ used' := (List.nodup_cons.mp hnodup).1
  have hnodup' : used'.Nodup := (List.nodup_cons.mp hnodup).2
  have hmemA : ∀ b ∈ uA, b ∈ used' := fun b hb => by
    rw [huEq2]
    exact List.mem_append_left _ (List.mem_append_left _ hb)
  have hmemC : ∀ b ∈ uC, b ∈ used' := fun b hb => by
    rw [huEq2]
    exact List.mem_append_left _ (List.mem_append_right _ hb)
  have hmemB : ∀ b ∈ uB, b ∈ used' := fun b hb => by
    rw [huEq2]
    exact List.mem_append_right _ hb
  have hnodupAC : (uA ++ uC).Nodup := by
    rw [huEq2] at hnodup'
    exact hnodup'.of_append_left
  have hnodupA : uA.Nodup := hnodupAC.of_append_left
  have hnodupC : uC.Nodup := hnodupAC.of_append_right
  have hnodupB : uB.Nodup := by
    rw [huEq2] at hnodup'
    exact hnodup'.of_append_right
  have hdisjAC : ∀ b ∈ uA, b ∉ uC :=
    fun b hb => (List.disjoint_of_nodup_append hnodupAC) hb
  have hdisjB : ∀ b ∈ uA ++ uC, b ∉ uB := by
    intro b hb
    rw [huEq2] at hnodup'
    exact (List.disjoint_of_nodup_append hnodup') hb
  have hbndC : ∀ b ∈ uC, b < s.nextBlockId :=
    fun b hb => hbnd b (List.mem_cons_of_mem _ (hmemC b hb))
  have hprevlt : 0 < i2 → (s.blocks id).keys.getD (i2 - 1) 0 < key := by
    intro h0
    have h1 := hprev h0
    have h2 : (s.blocks id).keys.getD (i2 - 1) 0 ≠ key := by
      intro he
      have h3 := hj10 h0
      rw [he] at h3
      refine hnot ((s.blocks id).values.getD (i2 - 1) 0) ?_
      rw [hesEq]
      exact List.mem_append_left _ (List.mem_append_left _ h3)
    omega
  have hnextgt : i2 < (s.blocks id).numKeys →
      key < (s.blocks id).keys.getD i2 0 := by
    intro hc
    have h1 := hnext hc
    have h2 : (s.blocks id).keys.getD i2 0 ≠ key := by
      intro he
      have h3 := hj11 hc
      rw [he] at h3
      refine hnot ((s.blocks id).values.getD i2 0) ?_
      rw [hesEq]
      exact List.mem_append_right _ h3
    omega
  have hloC : loOk loC key := by
    by_cases h0 : i2 = 0
    · rw [(hj4 h0).1]
      exact hlok
    · rw [hj5 (by omega)]
      show (s.blocks id).keys.getD (i2 - 1) 0 < key
      exact hprevlt (by omega)
  have hhiC : hiOk hiC key := by
    by_cases hc : i2 = (s.blocks id).numKeys
    · rw [(hj6 hc).1]
      exact hhik
    · rw [hj7 (by omega)]
      show key < (s.blocks id).keys.getD i2 0
      exact hnextgt (by omega)
  have hnotC : ∀ w, (key, w) ∉ esC := by
    intro w hw
    refine hnot w ?_
    rw [hesEq]
    exact List.mem_append_left _ (List.mem_append_right _ hw)
  have hAlt : ∀ e ∈ esA, e.1 < key := by
    intro e he
    by_cases h0 : i2 = 0
    · rw [(hj4 h0).2.1] at he
      exact absurd he (List.not_mem_nil _)
    · have h1 := hj8 e he
      have h2 := hprevlt (by omega)
      omega
  have hBgt : ∀ e ∈ esB, key < e.1 := by
    intro e he
    by_cases hc : i2 = (s.blocks id).numKeys
    · rw [(hj6 hc).2.1] at he
      exact absurd he (List.not_mem_nil _)
    · have h1 := hj9 e he
      have h2 := hnextgt (by omega)
      omega
  have hesIns : insEntry key value es =
      esA ++ insEntry key value esC ++ esB := by
    rw [hesEq, insEntry_append_right key value _ _ hBgt,
      insEntry_append_left key value _ _ hAlt]
  obtain ⟨s2, u2, heq, hrep2, hnd2, hbnd2, hmem2, hle2, hroot2, hsr2,
    hsn2, hframe2⟩ :=
    ih s ((s.blocks id).children.getD i2 0) loC hiC esC uC key value hPC
      hnodupC hbndC hchn hloC hhiC hnotC
  have hids : s2.blocks id = s.blocks id :=
    hframe2 id (fun hmem => hidnot' (hmemC id hmem))
      (hbnd id (List.mem_cons_self _ _)) hok.1
  refine ⟨s2, id :: (uA ++ u2 ++ uB), heq, ?_, ?_, ?_, ?_, hle2, hroot2,
    hsr2, hsn2, ?_⟩
  · simp only [RepSub]
    have hok2 : NodeOk s2 id := by
      unfold NodeOk
      rw [hids]
      exact hok
    refine ⟨hok2, ?_⟩
    rw [if_neg (by rw [hids, hnl]; exact Bool.false_ne_true)]
    refine ⟨uA ++ u2 ++ uB, ?_, rfl⟩
    rw [hids, hesIns]
    have hcore2 : ∀ b, (b ∉ uC ∧ b < s.nextBlockId ∧ b ≠ 0) →
        coreEq (s2.blocks b) (s.blocks b) := by
      rintro b ⟨h1, h2, h3⟩
      rw [hframe2 b h1 h2 h3]
      exact ⟨rfl, rfl, rfl, rfl, rfl⟩
    refine hreb1 (RepSub s2 f)
      (fun b => b ∉ uC ∧ b < s.nextBlockId ∧ b ≠ 0)
      (fun id2 lo2 hi2 es2 u2b hCu h2 =>
        RepSub_trans _ hcore2 f id2 lo2 hi2 es2 u2b hCu h2)
      (fun b hb => ⟨hdisjAC b hb,
        hbnd b (List.mem_cons_of_mem _ (hmemA b hb)),
        hnzall b (List.mem_cons_of_mem _ (hmemA b hb))⟩)
      (fun b hb => ⟨fun hbc => hdisjB b (List.mem_append_right _ hbc) hb,
        hbnd b (List.mem_cons_of_mem _ (hmemB b hb)),
        hnzall b (List.mem_cons_of_mem _ (hmemB b hb))⟩)
      (insEntry key value esC) u2 ?_
    rw [Nat.zero_add]
    exact hrep2
  · refine List.nodup_cons.mpr ⟨?_, ?_⟩
    · intro hmem
      rcases List.mem_append.mp hmem with h1 | h2
      · rcases List.mem_append.mp h1 with h3 | h4
        · exact hidnot' (hmemA id h3)
        · rcases hmem2 id h4 with h5 | h6
          · exact hidnot' (hmemC id h5)
          · have := hbnd id (List.mem_cons_self _ _)
            omega
      · exact hidnot' (hmemB id h2)
    · refine List.Nodup.append (List.Nodup.append hnodupA hnd2 ?_)
        hnodupB ?_
      · intro b hbA hbU
        rcases hmem2 b hbU with h1 | h2
        · exact hdisjAC b hbA h1
        · have := hbnd b (List.mem_cons_of_mem _ (hmemA b hbA))
          omega
      · intro b hb hbB
        rcases List.mem_append.mp hb with h1 | h2
        · exact hdisjB b (List.mem_append_left _ h1) hbB
        · rcases hmem2 b h2 with h3 | h4
          · exact hdisjB b (List.mem_append_right _ h3) hbB
          · have := hbnd b (List.mem_cons_of_mem _ (hmemB b hbB))
            omega
  · intro b hb
    rcases List.mem_cons.mp hb with h1 | h2
    · have h3 := hbnd id (List.mem_cons_self _ _)
      omega
    · rcases List.mem_append.mp h2 with h3 | h4
      · rcases List.mem_append.mp h3 with h5 | h6
        · have := hbnd b (List.mem_cons_of_mem _ (hmemA b h5))
          omega
        · exact hbnd2 b h6
      · have := hbnd b (List.mem_cons_of_mem _ (hmemB b h4))
        omega
  · intro b hb
    rcases List.mem_cons.mp hb with h1 | h2
    · left
      rw [h1]
      exact List.mem_cons_self _ _
    · rcases List.mem_append.mp h2 with h3 | h4
      · rcases List.mem_append.mp h3 with h5 | h6
        · left
          exact List.mem_cons_of_mem _ (hmemA b h5)
        · rcases hmem2 b h6 with h7 | h8
          · left
            exact List.mem_cons_of_mem _ (hmemC b h7)
          · right
            exact h8
      · left
        exact List.mem_cons_of_mem _ (hmemB b h4)
  · intro b hbu hblt hbz
    refine hframe2 b ?_ hblt hbz
    intro hbc
    exact hbu (List.mem_cons_of_mem _ (hmemC b hbc))

/-- `insert_non_full` on a represented subtree whose root is not full:
the call succeeds, the subtree afterwards represents the sorted insertion
of the new pair, the footprint stays duplicate-free and only grows by
freshly allocated blocks, and no block outside the subtree changes. -/
theorem insertNonFull_spec :
    ∀ (fuel : Nat) (s : Index) (id : Nat) (lo hi : Option Nat)
      (es : List (Nat × Nat)) (used : List Nat) (key value : Nat),
      RepSub s fuel id lo hi es used → used.Nodup →
      (∀ b ∈ used, b < s.nextBlockId) →
      (s.blocks id).numKeys < MAX_KEYS →
      loOk lo key → hiOk hi key → (∀ w, (key, w) ∉ es) →
      ∃ s2 used2,
        insertNonFull fuel s (s.blocks id) key value = some s2 ∧
        RepSub s2 fuel id lo hi (insEntry key value es) used2 ∧
        used2.Nodup ∧ (∀ b ∈ used2, b < s2.nextBlockId) ∧
        (∀ b ∈ used2, b ∈ used ∨ s.nextBlockId ≤ b) ∧
        s.nextBlockId ≤ s2.nextBlockId ∧
        s2.rootId = s.rootId ∧
        (s2.storedRoot = s.storedRoot ∨ s2.storedRoot = s.rootId) ∧
        ((s2.storedNext = s.storedNext ∧
          s2.nextBlockId = s.nextBlockId) ∨
          s2.storedNext = s2.nextBlockId) ∧
        (∀ b, b ∉ used → b < s.nextBlockId → b ≠ 0 →
          s2.blocks b = s.blocks b) := by
  intro fuel
  induction fuel with
  | zero =>
    intro s id lo hi es used key value hrep
    exact hrep.elim
  | succ f ih =>
    intro s id lo hi es used key value hrep hnodup hbnd hnumlt hlok hhik
      hnot
    have hMK : MAX_KEYS = 19 := rfl
    have hrepkeep := hrep
    simp only [RepSub] at hrep
    obtain ⟨hok, hrest⟩ := hrep
    rw [insertNonFull_step]
    by_cases hlf : (s.blocks id).leaf = true
    · rw [if_pos hlf]
      rw [if_pos hlf] at hrest
      obtain ⟨huse, hes, hchz, hbnds, hsort⟩ := hrest
      subst huse
      have hn18 : (s.blocks id).numKeys ≤ 18 := by
        rw [hMK] at hnumlt
        omega
      obtain ⟨p, hp, l1, l2, hlow, hatk, hatv, hmid, hhigh, hbl, hbu⟩ :=
        insLoop_spec key value (s.blocks id).numKeys (s.blocks id).keys
          (s.blocks id).values hok.2.2.1 hok.2.2.2.1 hn18
      have hltk : ∀ j, j < p → (s.blocks id).keys.getD j 0 < key := by
        intro j hj
        have h1 : ¬ key < (s.blocks id).keys.getD (p - 1) 0 :=
          hbl (by omega)
        have h2 : (s.blocks id).keys.getD (p - 1) 0 ≠ key := by
          intro he
          refine hnot ((s.blocks id).values.getD (p - 1) 0) ?_
          rw [hes]
          exact mem_leafEnts.mpr ⟨p - 1, by omega, he, rfl⟩
        by_cases hjp : j = p - 1
        · rw [hjp]
          omega
        · have h3 := hsort j (p - 1) (by omega) (by omega)
          omega
      generalize hnd2 : ({ s.blocks id with
        keys := (insLoop (s.blocks id).keys (s.blocks id).values key value
          (s.blocks id).numKeys).1,
        values := (insLoop (s.blocks id).keys (s.blocks id).values key
          value (s.blocks id).numKeys).2,
        numKeys := (s.blocks id).numKeys + 1 } : Node) = nd2
      have hn2 : nd2.blockId = (s.blocks id).blockId ∧
          nd2.numKeys = (s.blocks id).numKeys + 1 ∧
          nd2.keys = (insLoop (s.blocks id).keys (s.blocks id).values key
            value (s.blocks id).numKeys).1 ∧
          nd2.values = (insLoop (s.blocks id).keys (s.blocks id).values
            key value (s.blocks id).numKeys).2 ∧
          nd2.children = (s.blocks id).children := by
        rw [← hnd2]
        exact ⟨rfl, rfl, rfl, rfl, rfl⟩
      obtain ⟨hb2, hnk2, hk2, hv2, hc2⟩ := hn2
      refine ⟨writeNode s nd2, [id], rfl, ?_, List.nodup_singleton _, ?_,
        fun b hb => Or.inl hb, le_refl _, rfl, Or.inl rfl,
        Or.inl ⟨rfl, rfl⟩, ?_⟩
      · have hwb : (writeNode s nd2).blocks id = nd2 := by
          rw [writeNode_blocks, if_pos (by rw [hb2, hok.2.1])]
        simp only [RepSub]
        have hlf2 : ((writeNode s nd2).blocks id).leaf = true := by
          rw [hwb]
          unfold Node.leaf
          rw [hc2]
          unfold Node.leaf at hlf
          exact hlf
        refine ⟨⟨hok.1, ?_, ?_, ?_, ?_, ?_, ?_⟩, ?_⟩
        · rw [hwb, hb2, hok.2.1]
        · rw [hwb, hk2]
          exact l1
        · rw [hwb, hv2]
          exact l2
        · rw [hwb, hc2]
          exact hok.2.2.2.2.1
        · rw [hwb, hnk2]
          omega
        · rw [hwb, hnk2, hMK]
          rw [hMK] at hnumlt
          omega
        · rw [if_pos hlf2]
          refine ⟨trivial, ?_, ?_, ?_, ?_⟩
          · rw [hwb, hes]
            exact (leafEnts_insEntry (s.blocks id) nd2 key value p hp
              (by rw [hnk2])
              (fun m hm => by
                rw [hk2, hv2]
                exact hlow m hm)
              (by rw [hk2]; exact hatk) (by rw [hv2]; exact hatv)
              (fun m h1 h2 => by
                rw [hk2, hv2]
                exact hmid m h1 h2)
              hltk hbu).symm
          · intro m
            rw [hwb, hc2]
            exact hchz m
          · intro t ht
            rw [hwb, hnk2] at ht
            rw [hwb, hk2]
            by_cases h1 : t < p
            · rw [(hlow t h1).1]
              exact hbnds t (by omega)
            · by_cases h2 : t = p
              · rw [h2, hatk]
                exact ⟨hlok, hhik⟩
              · rw [(hmid t (by omega) (by omega)).1]
                exact hbnds (t - 1) (by omega)
          · intro t t2 htt ht2
            rw [hwb, hnk2] at ht2
            rw [hwb, hk2]
            by_cases h1 : t2 < p
            · rw [(hlow t (by omega)).1, (hlow t2 h1).1]
              exact hsort t t2 htt (by omega)
            · by_cases h2 : t2 = p
              · subst h2
                rw [(hlow t (by omega)).1, hatk]
                exact hltk t (by omega)
              · rw [(hmid t2 (by omega) (by omega)).1]
                by_cases h3 : t < p
                · rw [(hlow t h3).1]
                  have h4 := hbu (t2 - 1) (by omega) (by omega)
                  have h5 := hltk t h3
                  omega
                · by_cases h4 : t = p
                  · subst h4
                    rw [hatk]
                    exact hbu (t2 - 1) (by omega) (by omega)
                  · rw [(hmid t (by omega) (by omega)).1]
                    exact hsort (t - 1) (t2 - 1) (by omega) (by omega)
      · exact hbnd
      · intro b hbu hblt hbz
        rw [writeNode_blocks, if_neg (by
          rw [hb2, hok.2.1]
          intro h
          refine hbu ?_
          rw [h]
          exact List.mem_singleton_self _)]
    · rw [if_neg hlf]
      rw [if_neg hlf] at hrest
      obtain ⟨used', hseq, huEq⟩ := hrest
      subst huEq
      obtain ⟨hdle, hdlo, hdhi⟩ := descIdx_spec (s.blocks id).keys key
        (s.blocks id).numKeys
      set i := descIdx (s.blocks id).keys key (s.blocks id).numKeys
        with hidef
      obtain ⟨lo2, hi2, es2, u2, hPC0, -⟩ : ∃ lo2 hi2 es2 u2,
          RepSub s f ((s.blocks id).children.getD i 0) lo2 hi2 es2 u2 ∧
          ∀ b ∈ u2, b ∈ used' := by
        obtain ⟨lo2, hi2, es2, u2, hp, hsb⟩ :=
          RepSeq_child_sub (s.blocks id) _ 0 _ _ _ _ hseq i (by omega)
            (by omega)
        exact ⟨lo2, hi2, es2, u2, hp, hsb⟩
      have hcne : (s.blocks id).children.getD i 0 ≠ 0 :=
        RepSub_ne_zero hPC0
      have hrn : readNode s ((s.blocks id).children.getD i 0) =
          some (s.blocks ((s.blocks id).children.getD i 0)) := by
        unfold readNode
        rw [if_neg hcne]
      simp only [hrn]
      by_cases hful :
          (s.blocks ((s.blocks id).children.getD i 0)).numKeys = MAX_KEYS
      · rw [if_pos hful]
        have hroot0 : (s.blocks id).children.getD 0 0 ≠ 0 := by
          obtain ⟨lo3, hi3, es3, u3, hp, -⟩ :=
            RepSeq_child_sub (s.blocks id) _ 0 _ _ _ _ hseq 0 (by omega)
              (by omega)
          exact RepSub_ne_zero hp
        obtain ⟨usedS, hSrep, hSperm, hSnext, hSroot, hSsroot, hSsnext,
          hSblk, hSnum, hSkeys, hSchi, hScbn, hSzn, hSframe⟩ :=
          splitChild_rep hok.1 hok.2.1 hok.2.2.1 hok.2.2.2.1
            hok.2.2.2.2.1 rfl hseq hnodup hbnd hdle hnumlt hful
        have hnextpos : 1 ≤ s.nextBlockId := by
          have := hbnd id (List.mem_cons_self _ _)
          omega
        have hSnodup : usedS.Nodup := by
          rw [hSperm.nodup_iff]
          refine List.nodup_cons.mpr ⟨?_, hnodup⟩
          intro hmem
          have := hbnd _ hmem
          omega
        have hSmem : ∀ b ∈ usedS, b = s.nextBlockId ∨ b ∈ id :: used' :=
          fun b hb => List.mem_cons.mp (hSperm.mem_iff.mp hb)
        have hSbnd : ∀ b ∈ usedS,
            b < (splitChild s (s.blocks id) i
              (s.blocks ((s.blocks id).children.getD i 0))).1.nextBlockId
            := by
          intro b hb
          rw [hSnext]
          rcases hSmem b hb with h1 | h2
          · omega
          · have := hbnd b h2
            omega
        have hSnl : ((splitChild s (s.blocks id) i
            (s.blocks ((s.blocks id).children.getD i 0))).1.blocks
              id).leaf = false := by
          rw [hSblk]
          unfold Node.leaf
          rw [hSchi 0, if_neg (by omega), if_neg (by omega)]
          exact beq_eq_false_iff_ne.mpr hroot0
        have hSnk : ((splitChild s (s.blocks id) i
            (s.blocks ((s.blocks id).children.getD i 0))).1.blocks
              id).numKeys = (s.blocks id).numKeys + 1 := by
          rw [hSblk]
          exact hSnum
        by_cases hdir : (splitChild s (s.blocks id) i
            (s.blocks ((s.blocks id).children.getD i 0))).2.keys.getD i 0
            < key
        · rw [if_pos hdir]
          have hprev2 : 0 < i + 1 →
              ((splitChild s (s.blocks id) i
                (s.blocks ((s.blocks id).children.getD i 0))).1.blocks
                  id).keys.getD (i + 1 - 1) 0 ≤ key := by
            intro h0
            rw [show i + 1 - 1 = i from rfl, hSblk]
            omega
          have hnext2 : i + 1 < ((splitChild s (s.blocks id) i
              (s.blocks ((s.blocks id).children.getD i 0))).1.blocks
                id).numKeys →
              key ≤ ((splitChild s (s.blocks id) i
                (s.blocks ((s.blocks id).children.getD i 0))).1.blocks
                  id).keys.getD (i + 1) 0 := by
            intro hc
            rw [hSnk] at hc
            rw [hSblk, hSkeys (i + 1), if_neg (by omega),
              if_pos (by omega), Nat.add_sub_cancel]
            exact le_of_lt (hdhi i (le_refl _) (by omega))
          have hchn2 : ((splitChild s (s.blocks id) i
              (s.blocks ((s.blocks id).children.getD i 0))).1.blocks
                (((splitChild s (s.blocks id) i
                  (s.blocks ((s.blocks id).children.getD
                    i 0))).1.blocks id).children.getD (i + 1) 0)).numKeys
              < MAX_KEYS := by
            rw [hSblk, hSchi (i + 1), if_pos rfl, hSzn]
            decide
          obtain ⟨s2, used2, heq, h2, h3, h4, h5, h6, h7, h8, h9, h10⟩ :=
            insertNonFull_descend f ih _ id lo hi es usedS key value
              (i + 1) hSrep hSnodup hSbnd hSnl (by rw [hSnk]; omega) hlok
              hhik hnot hprev2 hnext2 hchn2
          have hi1nz : (splitChild s (s.blocks id) i
              (s.blocks ((s.blocks id).children.getD
                i 0))).2.children.getD (i + 1) 0 ≠ 0 := by
            rw [hSchi (i + 1), if_pos rfl]
            omega
          have hrn2 : readNode (splitChild s (s.blocks id) i
              (s.blocks ((s.blocks id).children.getD i 0))).1
              ((splitChild s (s.blocks id) i
                (s.blocks ((s.blocks id).children.getD
                  i 0))).2.children.getD (i + 1) 0) =
              some ((splitChild s (s.blocks id) i
                (s.blocks ((s.blocks id).children.getD i 0))).1.blocks
                ((splitChild s (s.blocks id) i
                  (s.blocks ((s.blocks id).children.getD
                    i 0))).2.children.getD (i + 1) 0)) := by
            unfold readNode
            rw [if_neg hi1nz]
          simp only [hrn2]
          refine ⟨s2, used2, ?_, h2, h3, h4, ?_, ?_, ?_, ?_, ?_, ?_⟩
          · rw [← hSblk]
            exact heq
          · intro b hb
            rcases h5 b hb with h1 | h1
            · rcases hSmem b h1 with h3b | h4b
              · right
                omega
              · left
                exact h4b
            · right
              rw [hSnext] at h1
              omega
          · rw [hSnext] at h6
            omega
          · rw [hSroot] at h7
            exact h7
          · rcases h8 with h1 | h1
            · right
              rw [h1]
              exact hSsroot
            · right
              rw [h1]
              exact hSroot
          · rcases h9 with ⟨h1, h1b⟩ | h1
            · right
              rw [h1, hSsnext, h1b, hSnext]
            · right
              exact h1
          · intro b hbu hblt hbz
            have hbS : b ∉ usedS := by
              intro hmem
              rcases hSmem b hmem with h1 | h1
              · omega
              · exact hbu h1
            rw [h10 b hbS (by rw [hSnext]; omega) hbz]
            exact hSframe b hbu hblt hbz
        · rw [if_neg hdir]
          have hprev2 : 0 < i →
              ((splitChild s (s.blocks id) i
                (s.blocks ((s.blocks id).children.getD i 0))).1.blocks
                  id).keys.getD (i - 1) 0 ≤ key := by
            intro h0
            rw [hSblk, hSkeys (i - 1), if_neg (by omega),
              if_neg (by omega)]
            have := hdlo h0
            omega
          have hnext2 : i < ((splitChild s (s.blocks id) i
              (s.blocks ((s.blocks id).children.getD i 0))).1.blocks
                id).numKeys →
              key ≤ ((splitChild s (s.blocks id) i
                (s.blocks ((s.blocks id).children.getD i 0))).1.blocks
                  id).keys.getD i 0 := by
            intro hc
            rw [hSblk]
            omega
          have hchn2 : ((splitChild s (s.blocks id) i
              (s.blocks ((s.blocks id).children.getD i 0))).1.blocks
                (((splitChild s (s.blocks id) i
                  (s.blocks ((s.blocks id).children.getD
                    i 0))).1.blocks id).children.getD i 0)).numKeys
              < MAX_KEYS := by
            rw [hSblk, hSchi i, if_neg (by omega), if_neg (by omega),
              hScbn]
            decide
          obtain ⟨s2, used2, heq, h2, h3, h4, h5, h6, h7, h8, h9, h10⟩ :=
            insertNonFull_descend f ih _ id lo hi es usedS key value i
              hSrep hSnodup hSbnd hSnl (by rw [hSnk]; omega) hlok hhik
              hnot hprev2 hnext2 hchn2
          have hinz : (splitChild s (s.blocks id) i
              (s.blocks ((s.blocks id).children.getD
                i 0))).2.children.getD i 0 ≠ 0 := by
            rw [hSchi i, if_neg (by omega), if_neg (by omega)]
            exact hcne
          have hrn2 : readNode (splitChild s (s.blocks id) i
              (s.blocks ((s.blocks id).children.getD i 0))).1
              ((splitChild s (s.blocks id) i
                (s.blocks ((s.blocks id).children.getD
                  i 0))).2.children.getD i 0) =
              some ((splitChild s (s.blocks id) i
                (s.blocks ((s.blocks id).children.getD i 0))).1.blocks
                ((splitChild s (s.blocks id) i
                  (s.blocks ((s.blocks id).children.getD
                    i 0))).2.children.getD i 0)) := by
            unfold readNode
            rw [if_neg hinz]
          simp only [hrn2]
          refine ⟨s2, used2, ?_, h2, h3, h4, ?_, ?_, ?_, ?_, ?_, ?_⟩
          · rw [← hSblk]
            exact heq
          · intro b hb
            rcases h5 b hb with h1 | h1
            · rcases hSmem b h1 with h3b | h4b
              · right
                omega
              · left
                exact h4b
            · right
              rw [hSnext] at h1
              omega
          · rw [hSnext] at h6
            omega
          · rw [hSroot] at h7
            exact h7
          · rcases h8 with h1 | h1
            · right
              rw [h1]
              exact hSsroot
            · right
              rw [h1]
              exact hSroot
          · rcases h9 with ⟨h1, h1b⟩ | h1
            · right
              rw [h1, hSsnext, h1b, hSnext]
            · right
              exact h1
          · intro b hbu hblt hbz
            have hbS : b ∉ usedS := by
              intro hmem
              rcases hSmem b hmem with h1 | h1
              · omega
              · exact hbu h1
            rw [h10 b hbS (by rw [hSnext]; omega) hbz]
            exact hSframe b hbu hblt hbz
      · rw [if_neg hful]
        have hclt :
            (s.blocks ((s.blocks id).children.getD i 0)).numKeys <
              MAX_KEYS := by
          have := RepSub_numKeys_le hPC0
          omega
        exact insertNonFull_descend f ih s id lo hi es (id :: used') key
          value i hrepkeep hnodup hbnd (Bool.eq_false_iff.mpr hlf) hdle
          hlok hhik hnot
          (fun h0 => by
            have := hdlo h0
            omega)
          (fun hc => le_of_lt (hdhi i (le_refl _) hc))
          hclt

/-!
## Top-level insert correctness and the run invariant (C1, C2, C3)
-/

/-- With the header persisted, closing and reopening the index is the
identity: `_read_header` reads back exactly the in-memory fields. -/
theorem reopen_eq {s : Index} {es : List (Nat × Nat)} (hinv : Inv s es) :
    reopen s = s := by
  obtain ⟨h1, h2, -, -⟩ := hinv
  obtain ⟨r, n, sr, sn, bl⟩ := s
  have h1x : sr = r := h1
  have h2x : sn = n := h2
  subst h1x
  subst h2x
  rfl

/-- A freshly created index represents the empty entry list. -/
theorem freshIndex_inv : Inv freshIndex [] :=
  ⟨rfl, rfl, Nat.le_refl 1, Or.inl ⟨rfl, rfl⟩⟩

/-- A successful insert of an absent key: the result is `ok` and the
new state represents the sorted insertion of the new pair. -/
theorem insert_ok {s : Index} {es : List (Nat × Nat)} (hinv : Inv s es)
    (key value : Nat) (hnot : ∀ w, (key, w) ∉ es) :
    ∃ s2, insert s key value = some (s2, InsRes.ok) ∧
      Inv s2 (insEntry key value es) := by
  have hinvK := hinv
  obtain ⟨h1, h2, h3, hdisj⟩ := hinv
  by_cases hr0 : s.rootId = 0
  · -- empty tree: allocate and fill the first root
    have hes : es = [] := by
      rcases hdisj with ⟨-, hes⟩ | ⟨used, hrep, -, -⟩
      · exact hes
      · exact absurd hr0 (RepSub_ne_zero hrep)
    subst hes
    refine ⟨firstInsertState s key value, ?_, ?_⟩
    · unfold insert
      rw [if_pos hr0]
      rfl
    · show Inv (firstInsertState s key value) [(key, value)]
      have hblk : (firstInsertState s key value).blocks s.nextBlockId =
          firstRootNode s key value := by
        show (writeNode _ (firstRootNode s key value)).blocks s.nextBlockId
          = _
        rw [writeNode_blocks]
        rw [if_pos
          (show s.nextBlockId = (firstRootNode s key value).blockId
            from rfl)]
      refine ⟨rfl, rfl, ?_, Or.inr ⟨[s.nextBlockId], ?_, ?_, ?_⟩⟩
      · show 1 ≤ s.nextBlockId + 1
        omega
      · show RepSub (firstInsertState s key value) (s.nextBlockId + 1)
          s.nextBlockId none none [(key, value)] [s.nextBlockId]
        refine ⟨⟨?_, ?_, ?_, ?_, ?_, ?_, ?_⟩, ?_⟩
        · omega
        · rw [hblk]
          rfl
        · rw [hblk]
          show (Node.new.keys.set 0 key).length = 19
          rw [List.length_set]
          rfl
        · rw [hblk]
          show (Node.new.values.set 0 value).length = 19
          rw [List.length_set]
          rfl
        · rw [hblk]
          rfl
        · rw [hblk]
          exact Nat.le_refl 1
        · rw [hblk]
          show (1 : Nat) ≤ MAX_KEYS
          decide
        · have hlf : ((firstInsertState s key value).blocks
              s.nextBlockId).leaf = true := by
            rw [hblk]
            rfl
          rw [if_pos hlf]
          refine ⟨rfl, ?_, ?_, ?_, ?_⟩
          · rw [hblk]
            show [(key, value)] = leafEnts (firstRootNode s key value)
            unfold leafEnts
            rw [show (firstRootNode s key value).numKeys = 1 from rfl]
            show [(key, value)] =
              [((Node.new.keys.set 0 key).getD 0 0,
                (Node.new.values.set 0 value).getD 0 0)]
            rw [getD_set_self key 0 (by decide),
              getD_set_self value 0 (by decide)]
          · intro m
            rw [hblk]
            exact getD_replicate_zero 20 m
          · intro i hi
            exact ⟨True.intro, True.intro⟩
          · intro i j hij hj
            rw [hblk] at hj
            have hj1 : j < 1 := hj
            exact absurd
              (Nat.lt_of_lt_of_le hij (Nat.le_of_lt_succ hj1))
              (Nat.not_lt_zero i)
      · exact List.nodup_singleton _
      · intro b hb
        rw [List.mem_singleton] at hb
        subst hb
        show s.nextBlockId < s.nextBlockId + 1
        omega
  · -- non-empty tree
    rcases hdisj with ⟨hz, -⟩ | ⟨used, hrep, hnd, hbd⟩
    · exact absurd hz hr0
    have hser : search s key = none := (search_spec hinvK key).2 hnot
    have hdup : ¬((search s key).isSome = true) := by
      rw [hser]
      decide
    have hrn : readNode s s.rootId = some (s.blocks s.rootId) := by
      unfold readNode
      rw [if_neg hr0]
    by_cases hful : (s.blocks s.rootId).numKeys = MAX_KEYS
    · -- full root: grow the tree through a root split
      have hrbk : (s.blocks s.rootId).blockId = s.rootId :=
        RepSub_blockId hrep
      have hS3b : ∀ b, (rootFullMid s).blocks b =
          if b = s.rootId then reparentedRoot s else s.blocks b := by
        intro b
        show (writeNode _ (reparentedRoot s)).blocks b = _
        rw [writeNode_blocks]
        rw [show (reparentedRoot s).blockId = s.rootId from hrbk]
        rfl
      have hs3r : (rootFullMid s).blocks s.rootId = reparentedRoot s := by
        rw [hS3b s.rootId, if_pos rfl]
      have hcore3 : ∀ b, (fun _ => True) b →
          coreEq ((rootFullMid s).blocks b) (s.blocks b) := by
        intro b _
        rw [hS3b b]
        by_cases hb : b = s.rootId
        · rw [if_pos hb, hb]
          exact ⟨rfl, rfl, rfl, rfl, rfl⟩
        · rw [if_neg hb]
          exact ⟨rfl, rfl, rfl, rfl, rfl⟩
      have hrep3 : RepSub (rootFullMid s) s.nextBlockId s.rootId none none
          es used :=
        RepSub_trans (fun _ => True) hcore3 s.nextBlockId s.rootId none
          none es used (fun b hb => trivial) hrep
      have hnb0 : s.nextBlockId ≠ 0 := by omega
      have hnodS : (s.nextBlockId :: used).Nodup := by
        rw [List.nodup_cons]
        exact ⟨fun hmem => absurd (hbd _ hmem) (by omega), hnd⟩
      have hbndS : ∀ b ∈ s.nextBlockId :: used,
          b < (rootFullMid s).nextBlockId := by
        intro b hb
        show b < s.nextBlockId + 1
        rcases List.mem_cons.mp hb with h | h
        · omega
        · have := hbd b h
          omega
      have hfulS : ((rootFullMid s).blocks s.rootId).numKeys = MAX_KEYS := by
        rw [hs3r]
        exact hful
      have hseqS : RepSeq (RepSub (rootFullMid s) s.nextBlockId)
          (newRootNode s) 0 (newRootNode s).numKeys none none es used :=
        hrep3
      obtain ⟨usedS, hSrep, hSperm, hSnext, hSroot, hSsroot, hSsnext,
          hSblk, hSnum, -, -, -, -, -⟩ :=
        @splitChild_rep (rootFullMid s) s.nextBlockId s.nextBlockId 0
          s.rootId (newRootNode s) none none es used hnb0 rfl rfl rfl rfl
          rfl hseqS hnodS hbndS (Nat.zero_le _)
          (by show (0 : Nat) < 19; omega) hfulS
      rw [hs3r] at hSrep hSnext hSroot hSsroot hSsnext hSblk hSnum
      have hmidn : (rootFullMid s).nextBlockId = s.nextBlockId + 1 := rfl
      have hmidr : (rootFullMid s).rootId = s.nextBlockId := rfl
      rw [hmidn] at hSperm hSnext hSsnext
      rw [hmidr] at hSroot hSsroot
      have hins : insert s key value =
          (insertNonFull
            (splitChild (rootFullMid s) (newRootNode s) 0
              (reparentedRoot s)).1.nextBlockId
            (splitChild (rootFullMid s) (newRootNode s) 0
              (reparentedRoot s)).1
            (splitChild (rootFullMid s) (newRootNode s) 0
              (reparentedRoot s)).2
            key value).map (fun t => (t, InsRes.ok)) := by
        unfold insert
        rw [if_neg hr0, if_neg hdup]
        simp only [hrn]
        rw [if_pos hful]
        rfl
      rw [hSnext] at hins
      have hrepS2 : RepSub (splitChild (rootFullMid s) (newRootNode s) 0
            (reparentedRoot s)).1 (s.nextBlockId + 1 + 1) s.nextBlockId
            none none es usedS :=
        RepSub_mono (s.nextBlockId + 1) (s.nextBlockId + 1 + 1)
          s.nextBlockId none none es usedS (by omega) hSrep
      have hnodS2 : usedS.Nodup := by
        rw [hSperm.nodup_iff, List.nodup_cons]
        refine ⟨?_, hnodS⟩
        intro hmem
        rcases List.mem_cons.mp hmem with h | h
        · omega
        · have := hbd _ h
          omega
      have hbndS2 : ∀ b ∈ usedS, b < (splitChild (rootFullMid s)
          (newRootNode s) 0 (reparentedRoot s)).1.nextBlockId := by
        intro b hb
        rw [hSnext]
        rcases List.mem_cons.mp (hSperm.mem_iff.mp hb) with h | h
        · omega
        · rcases List.mem_cons.mp h with h2 | h2
          · omega
          · have := hbd b h2
            omega
      have hnumS : ((splitChild (rootFullMid s) (newRootNode s) 0
          (reparentedRoot s)).1.blocks s.nextBlockId).numKeys <
            MAX_KEYS := by
        rw [hSblk, hSnum]
        show 0 + 1 < 19
        omega
      obtain ⟨s5, used5, heq5, hrep5, hnd5, hbd5, -, hle5, hroot5, hsrt5,
          hsnx5, -⟩ :=
        insertNonFull_spec (s.nextBlockId + 1 + 1)
          (splitChild (rootFullMid s) (newRootNode s) 0
            (reparentedRoot s)).1
          s.nextBlockId none none es usedS key value hrepS2 hnodS2 hbndS2
          hnumS True.intro True.intro hnot
      rw [hSblk] at heq5
      refine ⟨s5, ?_, ?_⟩
      · rw [hins, heq5]
        rfl
      · refine ⟨?_, ?_, ?_, Or.inr ⟨used5, ?_, hnd5, hbd5⟩⟩
        · rw [hroot5, hSroot]
          rcases hsrt5 with h | h
          · rw [h, hSsroot]
          · rw [h, hSroot]
        · rcases hsnx5 with ⟨ha, hb2⟩ | h
          · rw [ha, hSsnext, hb2, hSnext]
          · exact h
        · have := hle5
          rw [hSnext] at this
          omega
        · rw [hroot5, hSroot]
          refine RepSub_mono (s.nextBlockId + 1 + 1) s5.nextBlockId
            s.nextBlockId none none (insEntry key value es) used5 ?_ hrep5
          have := hle5
          rw [hSnext] at this
          exact this
    · -- root not full: descend directly
      have hnum : (s.blocks s.rootId).numKeys < MAX_KEYS := by
        have := RepSub_numKeys_le hrep
        omega
      obtain ⟨s5, used5, heq5, hrep5, hnd5, hbd5, -, hle5, hroot5, hsrt5,
          hsnx5, -⟩ :=
        insertNonFull_spec s.nextBlockId s s.rootId none none es used key
          value hrep hnd hbd hnum True.intro True.intro hnot
      refine ⟨s5, ?_, ?_⟩
      · unfold insert
        rw [if_neg hr0, if_neg hdup]
        simp only [hrn]
        rw [if_neg hful, heq5]
        rfl
      · refine ⟨?_, ?_, ?_, Or.inr ⟨used5, ?_, hnd5, hbd5⟩⟩
        · rw [hroot5]
          rcases hsrt5 with h | h
          · rw [h, h1]
          · rw [h]
        · rcases hsnx5 with ⟨ha, hb2⟩ | h
          · rw [ha, h2, hb2]
          · exact h
        · omega
        · rw [hroot5]
          exact RepSub_mono s.nextBlockId s5.nextBlockId s.rootId none
            none (insEntry key value es) used5 hle5 hrep5

/-- Folding key-distinct, unseen pairs through `insert` preserves the
invariant and accumulates exactly those entries. -/
theorem runInserts_inv :
    ∀ (ps : List (Nat × Nat)) (s : Index) (es : List (Nat × Nat)),
      Inv s es →
      (∀ p ∈ ps, ∀ w, (p.1, w) ∉ es) →
      (ps.map Prod.fst).Nodup →
      ∃ s2 es2,
        ps.foldlM (fun t kv => (insert t kv.1 kv.2).map Prod.fst) s =
          some s2 ∧
        Inv s2 es2 ∧ es2.Perm (ps ++ es) := by
  intro ps
  induction ps with
  | nil =>
    intro s es hinv _ _
    exact ⟨s, es, rfl, hinv, List.Perm.refl _⟩
  | cons p t ih =>
    intro s es hinv hfresh hnd
    obtain ⟨k, v⟩ := p
    have hknotin : k ∉ t.map Prod.fst := by
      have hx := hnd
      rw [List.map_cons, List.nodup_cons] at hx
      exact hx.1
    have hndt : (t.map Prod.fst).Nodup := by
      have hx := hnd
      rw [List.map_cons, List.nodup_cons] at hx
      exact hx.2
    obtain ⟨s1, hins, hinv1⟩ :=
      insert_ok hinv k v (hfresh (k, v) (List.mem_cons_self _ _))
    have hfresh1 : ∀ q ∈ t, ∀ w, (q.1, w) ∉ insEntry k v es := by
      intro q hq w hmem
      rcases List.mem_cons.mp ((insEntry_perm k v es).mem_iff.mp hmem)
          with h | h
      · have hqk : q.1 = k := congrArg Prod.fst h
        exact hknotin (hqk ▸ List.mem_map_of_mem Prod.fst hq)
      · exact hfresh q (List.mem_cons_of_mem _ hq) w h
    obtain ⟨s2, es2, hfold, hinv2, hperm2⟩ :=
      ih s1 (insEntry k v es) hinv1 hfresh1 hndt
    refine ⟨s2, es2, ?_, hinv2, ?_⟩
    · rw [List.foldlM_cons]
      rw [show (insert s k v).map Prod.fst = some s1 from by
        rw [hins]
        rfl]
      exact hfold
    · refine hperm2.trans ?_
      refine (List.Perm.append_left t (insEntry_perm k v es)).trans ?_
      exact List.perm_middle

/-- C1: inserting any sequence of pairs with pairwise-distinct keys
into a freshly created index succeeds, and an in-order traversal of the
result yields exactly those pairs — each key with its inserted value —
in strictly ascending key order. -/
theorem c1_traverse (ps : List (Nat × Nat)) (s : Index)
    (hrun : runInserts ps = some s) (hnd : (ps.map Prod.fst).Nodup) :
    (traverseList s).Perm ps ∧
    (traverseList s).Pairwise (fun x y => x.1 < y.1) := by
  obtain ⟨s2, es2, hfold, hinv2, hperm2⟩ :=
    runInserts_inv ps freshIndex [] freshIndex_inv
      (fun p hp w hw => absurd hw (List.not_mem_nil _)) hnd
  have hs2 : s2 = s := by
    have hx : runInserts ps = some s2 := hfold
    rw [hrun] at hx
    exact (Option.some.inj hx).symm
  subst hs2
  rw [List.append_nil] at hperm2
  have htrav : traverseList s2 = es2 := by
    rcases hinv2.2.2.2 with ⟨hr0, hes⟩ | ⟨used, hrep, -, -⟩
    · rw [hes]
      show subEntries s2 s2.nextBlockId s2.rootId = []
      rw [hr0]
      exact subEntries_zero s2 _
    · exact traverse_sub s2.nextBlockId s2.rootId none none es2 used hrep
  constructor
  · rw [htrav]
    exact hperm2
  · rw [htrav]
    rcases hinv2.2.2.2 with ⟨-, hes⟩ | ⟨used, hrep, -, -⟩
    · rw [hes]
      exact List.Pairwise.nil
    · exact RepSub_sorted s2.nextBlockId s2.rootId none none es2 used hrep

set_option maxRecDepth 65536 in
/-- Witness for C1: the concrete three-pair run. -/
theorem c1_witness :
    (traverseList s1w).Perm [(5, 50), (3, 30), (9, 90)] ∧
    (traverseList s1w).Pairwise (fun x y => x.1 < y.1) :=
  c1_traverse [(5, 50), (3, 30), (9, 90)] s1w rfl (by decide)

/-- C2: after any duplicate-free build from a fresh index, search finds
exactly the inserted pairs (returning the stored `(key, value)` pair)
and reports absent keys as not found; on the empty index (root id 0)
search returns not found, and search results are unchanged by closing
and reopening the file. -/
theorem c2_search (ps : List (Nat × Nat)) (s : Index)
    (hrun : runInserts ps = some s) (hnd : (ps.map Prod.fst).Nodup)
    (key : Nat) :
    (∀ value, (key, value) ∈ ps → search s key = some (key, value)) ∧
    ((∀ value, (key, value) ∉ ps) → search s key = none) ∧
    freshIndex.rootId = 0 ∧
    search freshIndex key = none ∧
    search (reopen s) key = search s key := by
  obtain ⟨s2, es2, hfold, hinv2, hperm2⟩ :=
    runInserts_inv ps freshIndex [] freshIndex_inv
      (fun p hp w hw => absurd hw (List.not_mem_nil _)) hnd
  have hs2 : s2 = s := by
    have hx : runInserts ps = some s2 := hfold
    rw [hrun] at hx
    exact (Option.some.inj hx).symm
  subst hs2
  rw [List.append_nil] at hperm2
  refine ⟨?_, ?_, rfl, rfl, ?_⟩
  · intro v hv
    exact (search_spec hinv2 key).1 v (hperm2.mem_iff.mpr hv)
  · intro hnone
    exact (search_spec hinv2 key).2 fun v hv => hnone v
      (hperm2.mem_iff.mp hv)
  · rw [reopen_eq hinv2]

set_option maxRecDepth 65536 in
/-- Witness for C2: in the concrete two-pair run, key 4 is found with
its inserted value. -/
theorem c2_witness : search s2w 4 = some (4, 40) :=
  (c2_search [(4, 40), (2, 20)] s2w rfl (by decide) 4).1 40 (by decide)

/-- C3: inserting a key that is already present is rejected as a
duplicate: the node-level insert returns the `dup` marker with the
state — header and every block — completely unchanged, and the
byte-level insert returns the file image untouched whenever the
duplicate check fires. -/
theorem c3_duplicate_insert {s : Index} {es : List (Nat × Nat)}
    (hinv : Inv s es) (key v value : Nat) (hv : (key, v) ∈ es) :
    insert s key value = some (s, InsRes.dup) ∧
    (∀ b : FileIdx, b.rootId ≠ 0 → ((searchB b key).1).isSome = true →
      insertB b key value = some (b, InsRes.dup)) := by
  constructor
  · have hr0 : s.rootId ≠ 0 := by
      rcases hinv.2.2.2 with ⟨hz, hes⟩ | ⟨used, hrep, -, -⟩
      · rw [hes] at hv
        exact absurd hv (List.not_mem_nil _)
      · exact RepSub_ne_zero hrep
    unfold insert
    rw [if_neg hr0]
    rw [if_pos (show (search s key).isSome = true from by
      rw [(search_spec hinv key).1 v hv]
      rfl)]
  · intro b hb0 hbs
    unfold insertB
    rw [if_neg hb0, if_pos hbs]

set_option maxRecDepth 8192 in
/-- Witness for C3: inserting key 7 again into the one-leaf index
holding `(7, 70)` is rejected with the state unchanged. -/
theorem c3_witness : insert s3w 7 99 = some (s3w, InsRes.dup) := by
  have hrep : RepSub s3w 2 1 none none [(7, 70)] [1] := by
    refine ⟨⟨by decide, by decide, by decide, by decide, by decide,
      by decide, by decide⟩, ?_⟩
    rw [if_pos (show (s3w.blocks 1).leaf = true from by decide)]
    refine ⟨rfl, by decide, ?_, ?_, ?_⟩
    · intro m
      show (List.replicate 20 0).getD m 0 = 0
      exact getD_replicate_zero 20 m
    · intro i hi
      exact ⟨True.intro, True.intro⟩
    · intro i j hij hj
      have hj1 : j < 1 := hj
      exact absurd (Nat.lt_of_lt_of_le hij (Nat.le_of_lt_succ hj1))
        (Nat.not_lt_zero i)
  exact (c3_duplicate_insert
    ⟨rfl, rfl, by decide, Or.inr ⟨[1], hrep, by decide, by decide⟩⟩
    7 70 99 (by decide)).1

/-!
## Create / open (C7) and the concrete single-insert scenario (C5)
-/

set_option maxRecDepth 65536 in
/-- C7: `create` fails when the path exists and otherwise produces the
512-byte header file (magic `4348PRJ3`, root 0, next 1, zero padding);
`open` fails on a missing path, a file shorter than 512 bytes, or wrong
magic bytes, and otherwise loads the stored root and next identifiers. -/
theorem c7_create_open :
    ixCreate true = .error .already ∧
    ixCreate false = .ok createB ∧
    createB.file.length = BLOCK_SIZE ∧
    createB.file.take 8 = MAGIC ∧
    readAt createB.file 8 8 = be8 0 ∧
    readAt createB.file 16 8 = be8 1 ∧
    createB.file.drop 24 = List.replicate 488 0 ∧
    ixOpen none = .error .missing ∧
    (∀ f : List Nat, f.length < BLOCK_SIZE → ixOpen (some f) = .error .tooSmall) ∧
    (∀ f : List Nat, BLOCK_SIZE ≤ f.length → f.take 8 ≠ MAGIC →
      ixOpen (some f) = .error .badMagic) ∧
    (∀ f : List Nat, BLOCK_SIZE ≤ f.length → f.take 8 = MAGIC →
      ixOpen (some f) =
        .ok ⟨f, fromBe8 (readAt f 8 8), fromBe8 (readAt f 16 8)⟩) := by
  refine ⟨rfl, rfl, by decide, by decide, by decide, by decide, by decide, rfl,
    ?_, ?_, ?_⟩
  · intro f hf
    simp only [ixOpen, readAt, List.drop_zero]
    rw [if_pos]
    rw [List.length_take]
    exact lt_of_le_of_lt (Nat.min_le_right _ _) hf
  · intro f hf hm
    simp only [ixOpen, readAt, List.drop_zero]
    rw [if_neg (by rw [List.length_take, Nat.min_eq_left hf]; omega), if_pos]
    rw [List.take_take]
    simpa using hm
  · intro f hf hm
    simp only [ixOpen, readAt, List.drop_zero]
    rw [if_neg (by rw [List.length_take, Nat.min_eq_left hf]; omega),
      if_neg (by rw [List.take_take]; simpa using hm)]
    have h1 : word (f.take BLOCK_SIZE) 1 = fromBe8 ((f.drop 8).take 8) := by
      unfold word
      rw [List.drop_take, List.take_take]
      norm_num [BLOCK_SIZE]
    have h2 : word (f.take BLOCK_SIZE) 2 = fromBe8 ((f.drop 16).take 8) := by
      unfold word
      rw [List.drop_take, List.take_take]
      norm_num [BLOCK_SIZE]
    rw [h1, h2]

set_option maxRecDepth 8192 in
theorem c7_witness :
    ixOpen (some [1, 2, 3]) = .error .tooSmall ∧
    ixOpen (some (List.replicate 600 7)) = .error .badMagic ∧
    ixOpen (some createB.file) = .ok ⟨createB.file, 0, 1⟩ := by
  obtain ⟨-, -, -, hmagic, -, -, -, -, hsmall, hbad, hok⟩ := c7_create_open
  refine ⟨hsmall _ (by decide), hbad _ (by decide) (by decide), ?_⟩
  rw [hok createB.file (by decide) hmagic,
    show fromBe8 (readAt createB.file 8 8) = 0 by decide,
    show fromBe8 (readAt createB.file 16 8) = 1 by decide]

set_option maxRecDepth 65536 in
/-- C5: on a freshly created index, inserting key 42 with value 100 yields
a 1024-byte file, header root id 1 and next id 2, and block 1 decodes to
the node with own id 1, parent 0, one key 42 with value 100, and all other
slots zero. -/
theorem c5_single_insert :
    (insertB createB 42 100).map (fun p => p.2) = some InsRes.ok ∧
    (insertB createB 42 100).map (fun p => p.1.file.length) = some 1024 ∧
    (insertB createB 42 100).map (fun p => readAt p.1.file 8 8) =
      some (be8 1) ∧
    (insertB createB 42 100).map (fun p => readAt p.1.file 16 8) =
      some (be8 2) ∧
    (insertB createB 42 100).map
        (fun p => deserializeNode (readAt p.1.file 512 512)) =
      some (some
        { blockId := 1, parentId := 0, numKeys := 1
          keys := 42 :: List.replicate 18 0
          values := 100 :: List.replicate 18 0
          children := List.replicate 20 0 }) := by
  refine ⟨by decide, by decide, by decide, by decide, by decide⟩

/-!
## Search performs no writes (C10)
-/

theorem searchLoopB_state (key : Nat) :
    ∀ fuel (s : FileIdx) (cur : Node), (searchLoopB key fuel s cur).2 = s := by
  intro fuel
  induction fuel with
  | zero => intro s cur; rfl
  | succ n ih =>
    intro s cur
    show (let i := scanGE cur.keys cur.numKeys key 0;
      if i < cur.numKeys ∧ cur.keys.getD i 0 = key then
        (some (cur.keys.getD i 0, cur.values.getD i 0), s)
      else if cur.leaf then (none, s)
      else
        let childId := cur.children.getD i 0
        if childId = 0 then (none, s)
        else
          match readNodeB s childId with
          | none => (none, s)
          | some child => searchLoopB key n s child).2 = s
    simp only
    split
    · rfl
    · split
      · rfl
      · split
        · rfl
        · split
          · rfl
          · apply ih

/-- C10: a search never writes: the byte image of the file and the
in-memory header fields after `search` are exactly the state before. -/
theorem c10_search_no_write (s : FileIdx) (key : Nat) : (searchB s key).2 = s := by
  unfold searchB
  split
  · rfl
  · split
    · rfl
    · apply searchLoopB_state

/-!
## Command-layer exit codes (C8)
-/

/-- C8 counterexample: an unknown command prints a diagnostic on the
output stream yet the process exits with code 0, contradicting the claim
that every diagnosed error yields a nonzero exit code. -/
theorem c8_counterexample :
    mainE ["project3.py", "frobnicate"] fsEmpty csvEmpty =
      ([Msg.errUnknownCmd "frobnicate"], 0) := by decide

set_option maxRecDepth 65536 in
/-- C8 (amended): every error diagnosed inside the command layer itself —
unknown command, wrong argument count (which, because `main` hands the
handlers the full `sys.argv`, includes every conventionally shaped
invocation), malformed integers, a duplicate key on insert, a missed key
on search — prints a diagnostic and exits 0; only the failures inside
`IndexFile.__init__` (create on an existing path; open of a missing,
truncated, or wrong-magic file) exit nonzero. -/
theorem c8_exit_codes :
    mainE ["project3.py", "bogus"] fsEmpty csvEmpty =
      ([Msg.errUnknownCmd "bogus"], 0) ∧
    mainE ["project3.py", "search", "t.idx", "5"] fs7 csvEmpty =
      ([Msg.usage "search"], 0) ∧
    mainE ["project3.py", "search", "12"] fs7 csvEmpty =
      ([Msg.errKeyNotFound], 0) ∧
    mainE ["project3.py", "search", "7"] fs7 csvEmpty =
      ([Msg.found 7 70], 0) ∧
    mainE ["project3.py", "search", "abc"] fs7 csvEmpty =
      ([Msg.errNotInt], 0) ∧
    mainE ["project3.py", "insert", "7", "99"] fs7 csvEmpty =
      ([Msg.errKeyExists 7], 0) ∧
    mainE ["project3.py", "insert", "3", "30"] fs7 csvEmpty = ([], 0) ∧
    mainE ["project3.py", "create"] fsCreateTaken csvEmpty =
      ([Msg.errExists "create"], 1) ∧
    mainE ["project3.py", "search", "5"] fsEmpty csvEmpty =
      ([Msg.errMissing "search"], 1) ∧
    mainE ["project3.py", "search", "x"] fsSmall csvEmpty =
      ([Msg.errTooSmall], 1) ∧
    mainE ["project3.py", "search", "x"] fsBadMagic csvEmpty =
      ([Msg.errBadMagic], 1) := by
  refine ⟨by decide, by decide, by decide, by decide, by decide, by decide,
    by decide, by decide, by decide, by decide, by decide⟩

end Project3
